import Mathlib

/-!
# Kohi engine: growable container (`darray.c`) and event registry (`event.c`)

A shallow embedding of `engine/src/containers/darray.c`,
`engine/src/core/event.c` and `input_process_key` of `engine/src/core/input.c`.

* A container is its three `u64` header fields plus the payload bytes that
  follow the header in the same allocation.
* `u64` arithmetic is arithmetic on `Nat` reduced modulo `2 ^ 64`.
* An operation returns `none` when the C code would touch memory outside the
  block it works on (undefined behaviour); otherwise it returns the new state.
-/

namespace Kohi

/-- One byte of memory. -/
abbrev Byte := UInt8

/-- Reduction of a natural number to the range of the C type `u64`. -/
def u64 (n : Nat) : Nat := n % 2 ^ 64

/-- Subtraction on `u64`, wrapping around below zero as in C. -/
def u64_sub (a b : Nat) : Nat := (a + (2 ^ 64 - b % 2 ^ 64)) % 2 ^ 64

/-- Modelled from the spec: `darray.h` is missing; the header holds the three
metadata fields capacity, length and stride, so the enum that ends in
`DARRAY_FIELD_LENGTH` gives it the value 3. -/
def DARRAY_FIELD_LENGTH : Nat := 3

/-- Modelled from the spec: `darray.h` is missing; the growth factor is 2. -/
def DARRAY_RESIZE_FACTOR : Nat := 2

/-- Size in bytes of a `u64`. -/
def sizeof_u64 : Nat := 8

/-- The bytes `[off, off + n)` of a block, or `none` when the range leaves the block. -/
def read_bytes (m : List Byte) (off n : Nat) : Option (List Byte) :=
  if off + n ≤ m.length then some ((m.drop off).take n) else none

/-- The block with `bs` stored at `[off, off + bs.length)`, or `none` when the
range leaves the block. -/
def write_bytes (m : List Byte) (off : Nat) (bs : List Byte) : Option (List Byte) :=
  if off + bs.length ≤ m.length then some (m.take off ++ bs ++ m.drop (off + bs.length)) else none

/-- Modelled from the spec: `kmemory.c` is missing; `copy(dst, src, size)` of the
allocator interface. `size` bytes are read at offset `soff` of the block `source`
and then stored at offset `doff` of the block `dest`; the result is the new
content of `dest`. Both ranges have to lie inside their blocks. -/
def kcopy_memory (dest : List Byte) (doff : Nat) (source : List Byte) (soff size : Nat) :
    Option (List Byte) :=
  (read_bytes source soff size).bind (fun bs => write_bytes dest doff bs)

/-- A dynamic array: the header fields and the payload that follows the header. -/
structure DArray where
  /-- Header field `DARRAY_CAPACITY`. -/
  capacity : Nat
  /-- Header field `DARRAY_LENGTH`. -/
  length : Nat
  /-- Header field `DARRAY_STRIDE`. -/
  stride : Nat
  /-- The bytes of the allocation after the header. -/
  data : List Byte
deriving DecidableEq, Repr

/-- Modelled from the spec: `kmemory.c` is missing; `allocate(size, tag)` of the
allocator interface hands out a block of `size` bytes (the tag is an accounting
label) and `kset_memory(block, 0, size)` zeroes it. The block after both calls. -/
def kallocate_zeroed (size : Nat) : List Byte := List.replicate size 0

/-- Embedding of `_darray_create`. The block holds the header and then the
payload; when the requested size wraps below the header size, the three header
stores leave the block. -/
def _darray_create (length stride : Nat) : Option DArray :=
  let header_size := u64 (DARRAY_FIELD_LENGTH * sizeof_u64)
  let array_size := u64 (length * stride)
  let new_array := kallocate_zeroed (u64 (header_size + array_size))
  if new_array.length < header_size then none
  else some
    { capacity := length
      length := 0
      stride := stride
      data := new_array.drop header_size }

/-- Embedding of `_darray_resize`. -/
def _darray_resize (array : DArray) : Option DArray :=
  let length := array.length
  let stride := array.stride
  (_darray_create (u64 (DARRAY_RESIZE_FACTOR * array.capacity)) stride).bind fun tmp =>
  (kcopy_memory tmp.data 0 array.data 0 (u64 (length * stride))).bind fun data =>
  some { tmp with data := data, length := length }

/-- Embedding of `_darray_push`; `value` is the memory `value_ptr` points to. -/
def _darray_push (array : DArray) (value : List Byte) : Option DArray :=
  let length := array.length
  let stride := array.stride
  (if length ≥ array.capacity then _darray_resize array else some array).bind fun array =>
  (kcopy_memory array.data (u64 (length * stride)) value 0 stride).bind fun data =>
  some { array with data := data, length := u64 (length + 1) }

/-- Embedding of `_darray_pop`; `dest` is the memory the caller passes, the
result holds the container and the new content of `dest`. -/
def _darray_pop (array : DArray) (dest : List Byte) : Option (DArray × List Byte) :=
  let length := array.length
  let stride := array.stride
  (kcopy_memory dest 0 array.data (u64 (u64_sub length 1 * stride)) stride).bind fun dest =>
  some ({ array with length := u64_sub length 1 }, dest)

/-- Embedding of `_darray_pop_at`. -/
def _darray_pop_at (array : DArray) (index : Nat) (dest : List Byte) :
    Option (DArray × List Byte) :=
  let length := array.length
  let stride := array.stride
  if index ≥ length then some (array, dest)
  else
    (kcopy_memory dest 0 array.data (u64 (index * stride)) stride).bind fun dest =>
    (if index ≠ u64_sub length 1 then
        kcopy_memory array.data (u64 (index * stride)) array.data (u64 (u64 (index + 1) * stride))
          (u64 (stride * u64_sub length index))
      else some array.data).bind fun data =>
    some ({ array with data := data, length := u64_sub length 1 }, dest)

/-- Embedding of `_darray_insert_at`. -/
def _darray_insert_at (array : DArray) (index : Nat) (value : List Byte) : Option DArray :=
  let length := array.length
  let stride := array.stride
  if index ≥ length then some array
  else
    (if length ≥ array.capacity then _darray_resize array else some array).bind fun array =>
    (if index ≠ u64_sub length 1 then
        kcopy_memory array.data (u64 (u64 (index + 1) * stride)) array.data (u64 (index * stride))
          (u64 (stride * u64_sub length index))
      else some array.data).bind fun data =>
    (kcopy_memory data (u64 (index * stride)) value 0 stride).bind fun data =>
    some { array with data := data, length := u64 (length + 1) }

/-- Element `i` of a block cut into elements of `stride` bytes. -/
def slot (m : List Byte) (stride i : Nat) : List Byte :=
  (m.drop (i * stride)).take stride

/-- The live elements of a container, in order. -/
def DArray.elems (d : DArray) : List (List Byte) :=
  (List.range d.length).map (slot d.data d.stride)

/-- Pushing a list of values one by one, always continuing with the returned handle. -/
def push_all : DArray → List (List Byte) → Option DArray
  | d, [] => some d
  | d, v :: vs => (_darray_push d v).bind fun d1 => push_all d1 vs

/-- Little-endian bytes of a 32-bit integer, the element type of the end-to-end example. -/
def le32 (n : Nat) : List Byte :=
  [UInt8.ofNat (n % 256), UInt8.ofNat (n / 256 % 256), UInt8.ofNat (n / 65536 % 256),
   UInt8.ofNat (n / 16777216 % 256)]

/-- Well-formed container: the data model of the spec. The live elements fit
the capacity, the payload has `capacity * stride` bytes, capacity and length
are `u64` values and the whole block (header and payload) fits the address
space. -/
def DArray.WF (d : DArray) : Prop :=
  d.length ≤ d.capacity ∧ d.data.length = d.capacity * d.stride ∧
  d.capacity < 2 ^ 64 ∧ 24 + d.capacity * d.stride < 2 ^ 64

instance (d : DArray) : Decidable d.WF := by
  unfold DArray.WF
  infer_instance

/-- A container that can take one more growth: the doubled capacity is a `u64`
and the doubled block still fits the address space. -/
def DArray.growable (d : DArray) : Prop :=
  1 ≤ d.capacity ∧ 2 * d.capacity < 2 ^ 64 ∧ 24 + 2 * d.capacity * d.stride < 2 ^ 64

instance (d : DArray) : Decidable d.growable := by
  unfold DArray.growable
  infer_instance

/-- The containers reachable from `_darray_create C stride` by calls of
`_darray_push`, `_darray_pop` (only when `length > 0`), `_darray_pop_at` and
`_darray_insert_at`, each continuing with the returned handle. The two
operations that may grow are admitted only on containers satisfying `guard`. -/
inductive Reachable (guard : DArray → Prop) (C stride : Nat) : DArray → Prop
  | create {d : DArray} : _darray_create C stride = some d → Reachable guard C stride d
  | push {d d1 : DArray} {v : List Byte} : Reachable guard C stride d → guard d →
      _darray_push d v = some d1 → Reachable guard C stride d1
  | pop {d d1 : DArray} {dest dest1 : List Byte} : Reachable guard C stride d → 0 < d.length →
      _darray_pop d dest = some (d1, dest1) → Reachable guard C stride d1
  | pop_at {d d1 : DArray} {index : Nat} {dest dest1 : List Byte} : Reachable guard C stride d →
      _darray_pop_at d index dest = some (d1, dest1) → Reachable guard C stride d1
  | insert_at {d d1 : DArray} {index : Nat} {v : List Byte} : Reachable guard C stride d →
      guard d → _darray_insert_at d index v = some d1 → Reachable guard C stride d1

/-- The guard of the amended invariant: a growth, when one is needed, doubles a
capacity below `2 ^ 63`, so the doubled capacity is a `u64`. -/
def no_wrap (d : DArray) : Prop := d.length < d.capacity ∨ 2 * d.capacity < 2 ^ 64

/-! ## The event registry (`event.c`) -/

/-- Number of slots of the table (`#define MAX_MESSAGE_CODES 16384`). -/
def MAX_MESSAGE_CODES : Nat := 16384

/-- A listener record: the listener address and the callback address. -/
structure registered_event where
  /-- Field `listener` (a `void *`), as an address. -/
  listener : Nat
  /-- Field `callback` (a function pointer), as an address. -/
  callback : Nat
deriving DecidableEq, Repr

/-- Size of `registered_event`: two 8-byte pointers on the 64-bit Linux target. -/
def sizeof_registered_event : Nat := 16

/-- Little-endian bytes of a 64-bit value. -/
def le64 (n : Nat) : List Byte :=
  [UInt8.ofNat (n % 256), UInt8.ofNat (n / 2 ^ 8 % 256), UInt8.ofNat (n / 2 ^ 16 % 256),
   UInt8.ofNat (n / 2 ^ 24 % 256), UInt8.ofNat (n / 2 ^ 32 % 256), UInt8.ofNat (n / 2 ^ 40 % 256),
   UInt8.ofNat (n / 2 ^ 48 % 256), UInt8.ofNat (n / 2 ^ 56 % 256)]

/-- The value of a little-endian byte string. -/
def of_le : List Byte → Nat
  | [] => 0
  | b :: bs => b.toNat + 256 * of_le bs

/-- The bytes of a record in memory: `listener` at offset 0, `callback` at offset 8. -/
def registered_event.bytes (e : registered_event) : List Byte :=
  le64 e.listener ++ le64 e.callback

/-- The record stored in 16 bytes of memory. -/
def registered_event.of_bytes (bs : List Byte) : registered_event :=
  { listener := of_le (bs.take 8), callback := of_le ((bs.drop 8).take 8) }

/-- The two file-level statics of `event.c`: the flag `is_initialized` and the
table `state.registered`, one slot per code; a slot is a null pointer (`none`)
or a container of listener records. -/
structure event_system_state where
  /-- The static `is_initialized`. -/
  is_initialized : Bool
  /-- The table `state.registered[code].events`. -/
  registered : Nat → Option DArray

/-- The statics at program start: zero-initialised. -/
def event_system_state.zero : event_system_state :=
  { is_initialized := false, registered := fun _ => none }

/-- The assignment `state.registered[code].events = events`. -/
def event_system_state.set_events (s : event_system_state) (code : Nat) (events : Option DArray) :
    event_system_state :=
  { s with registered := fun c => if c = code then events else s.registered c }

/-- The listener sequence of a code: the records its container holds, in order;
empty when the slot is empty. -/
def event_system_state.listeners (s : event_system_state) (code : Nat) : List registered_event :=
  match s.registered code with
  | none => []
  | some d => d.elems.map registered_event.of_bytes

/-- Embedding of `event_initialize`: the result and the new statics. -/
def event_initialize (s : event_system_state) : Bool × event_system_state :=
  if s.is_initialized then (false, s)
  else (true, { is_initialized := true, registered := fun _ => none })

/-- The duplicate scan of `event_register`: the loop over `i` visits the indices
in order and stops at the first record whose `listener` field equals `listener`.
The field is read from memory at `i * sizeof(registered_event)`. -/
def register_scan (events : DArray) (listener : Nat) : List Nat → Option Bool
  | [] => some false
  | i :: rest =>
    (read_bytes events.data (i * sizeof_registered_event) 8).bind fun bs =>
    if of_le bs = listener then some true else register_scan events listener rest

/-- Modelled from the spec: the macro `darray_create(type)` of the missing
`darray.h`; it is `create(initial_length, stride)` with a default capacity and
the size of the element type. The spec does not give the default capacity, so
it is the parameter `DARRAY_DEFAULT_CAPACITY`. -/
def darray_create (DARRAY_DEFAULT_CAPACITY sizeof_type : Nat) : Option DArray :=
  _darray_create DARRAY_DEFAULT_CAPACITY sizeof_type

/-- Modelled from the spec: the macro `darray_push(array, value)` of the missing
`darray.h`; it calls `_darray_push` on a copy of the value and stores the
returned handle back in `array` (callers always use the returned handle). -/
def darray_push (array : DArray) (value : List Byte) : Option DArray :=
  _darray_push array value

/-- Embedding of `event_register`: the result and the new statics. A code
outside the table is an access outside `state.registered`. -/
def event_register (DARRAY_DEFAULT_CAPACITY : Nat) (s : event_system_state)
    (code listener on_event : Nat) : Option (Bool × event_system_state) :=
  if !s.is_initialized then some (false, s)
  else if MAX_MESSAGE_CODES ≤ code then none
  else
    (match s.registered code with
      | none =>
        (darray_create DARRAY_DEFAULT_CAPACITY sizeof_registered_event).map fun d =>
          (d, s.set_events code (some d))
      | some d => some (d, s)).bind fun (events, s1) =>
    let registered_count := events.length
    (register_scan events listener (List.range registered_count)).bind fun dup =>
    if dup then some (false, s1)
    else
      (darray_push events (registered_event.bytes { listener := listener, callback := on_event })).map
        fun events1 => (true, s1.set_events code (some events1))

/-- A slot that can take one more record: an empty slot when the default
capacity is at least 1 and its block fits `u64`; an occupied slot when its
container is a well-formed container of records with room or able to grow. -/
def slot_ready (DARRAY_DEFAULT_CAPACITY : Nat) : Option DArray → Prop
  | none => 1 ≤ DARRAY_DEFAULT_CAPACITY ∧ DARRAY_DEFAULT_CAPACITY < 2 ^ 64 ∧
      24 + DARRAY_DEFAULT_CAPACITY * sizeof_registered_event < 2 ^ 64
  | some d => d.WF ∧ d.stride = sizeof_registered_event ∧ (d.length < d.capacity ∨ d.growable)

/-- An initialised registry whose code 5 holds the one record (listener 1,
callback 10) in a container of capacity 1; every other slot is empty. -/
def example_registry : event_system_state :=
  { is_initialized := true
    registered := fun c =>
      if c = 5 then
        some { capacity := 1, length := 1, stride := 16
               data := registered_event.bytes { listener := 1, callback := 10 } }
      else none }

/-- A container whose live elements lie inside its payload, in a block of the
address space; weaker than `DArray.WF`, it says nothing about the capacity. -/
def DArray.sound (d : DArray) : Prop :=
  d.length * d.stride ≤ d.data.length ∧ d.data.length < 2 ^ 64

instance (d : DArray) : Decidable d.sound := by
  unfold DArray.sound
  infer_instance

/-- The arguments of the gap-closing `kcopy_memory` call of `_darray_pop_at`
(lines 89-95): destination offset, source offset and byte count, or `none` when
the call is skipped (index out of range, or the last index). -/
def _darray_pop_at_shift (array : DArray) (index : Nat) : Option (Nat × Nat × Nat) :=
  let length := array.length
  let stride := array.stride
  if index ≥ length then none
  else if index ≠ u64_sub length 1 then
    some (u64 (index * stride), u64 (u64 (index + 1) * stride), u64 (stride * u64_sub length index))
  else none

/-- Modelled from the spec: the macro `darray_pop_at(array, index, value_ptr)` of
the missing `darray.h`; the container's remove-at-index operation
`_darray_pop_at`, whose handle is the one passed in (it never reallocates). -/
def darray_pop_at (array : DArray) (index : Nat) (dest : List Byte) :
    Option (DArray × List Byte) :=
  _darray_pop_at array index dest

/-- The scan of `event_unregister`: the loop over `i` visits the indices in
order and stops at the first record equal to the pair in both fields; the
record is read from memory at `i * sizeof(registered_event)`. The result is the
index found, if any. -/
def unregister_scan (events : DArray) (listener on_event : Nat) : List Nat → Option (Option Nat)
  | [] => some none
  | i :: rest =>
    (read_bytes events.data (i * sizeof_registered_event) sizeof_registered_event).bind fun bs =>
    let e := registered_event.of_bytes bs
    if e.listener = listener ∧ e.callback = on_event then some (some i)
    else unregister_scan events listener on_event rest

/-- What `event_unregister` does after its scan: at a found index `i` it removes
the record with `darray_pop_at` into the local `popped_event`, a buffer of one
record, and returns TRUE; without a match it returns FALSE. -/
def unregister_found (s : event_system_state) (code : Nat) (events : DArray) :
    Option Nat → Option (Bool × event_system_state)
  | some i =>
    (darray_pop_at events i (List.replicate sizeof_registered_event 0)).map fun r =>
      (true, s.set_events code (some r.1))
  | none => some (false, s)

/-- Embedding of `event_unregister`: the result and the new statics. -/
def event_unregister (s : event_system_state) (code listener on_event : Nat) :
    Option (Bool × event_system_state) :=
  if !s.is_initialized then some (false, s)
  else if MAX_MESSAGE_CODES ≤ code then none
  else
    match s.registered code with
    | none => some (false, s)
    | some events =>
      let registered_count := events.length
      (unregister_scan events listener on_event (List.range registered_count)).bind
        (unregister_found s code events)

/-- Modelled from the spec: `event.h` is missing; `event_context` is a
fixed-size payload passed by value, a union of small numeric arrays over 16
bytes. The bytes of the union. -/
structure event_context where
  /-- The 16 bytes of the union `data`. -/
  data : List Byte
deriving DecidableEq, Repr

/-- The view `data.u16[i]` of a context: two bytes, little-endian. -/
def event_context.u16 (c : event_context) (i : Nat) : Nat :=
  of_le ((c.data.drop (2 * i)).take 2)

/-- One call of a callback: the callback address and the four arguments
`(code, sender, listener_inst, context)` it receives. -/
structure callback_call where
  /-- Address of the function called. -/
  callback : Nat
  /-- First argument. -/
  code : Nat
  /-- Second argument. -/
  sender : Nat
  /-- Third argument: the listener identity of the record. -/
  listener : Nat
  /-- Fourth argument. -/
  context : event_context
deriving DecidableEq, Repr

/-- The call `e.callback(code, sender, e.listener, context)` for a record `e`. -/
def registered_event.call (e : registered_event) (code sender : Nat) (context : event_context) :
    callback_call :=
  { callback := e.callback, code := code, sender := sender, listener := e.listener,
    context := context }

/-- The calls `event_fire` makes for a list of records, per the spec's words:
in order, each with its own listener identity, up to and including the first
one that reports handled. -/
def calls_until_handled (handled : registered_event → Bool) (code sender : Nat)
    (context : event_context) (ls : List registered_event) : List callback_call :=
  ((ls.takeWhile fun e => !handled e) ++ (ls.dropWhile fun e => !handled e).take 1).map fun e =>
    e.call code sender context

/-- The dispatch loop of `event_fire`. `cb f` is the behaviour of the function at
address `f`: a function of the four arguments that reports handled or not and
does not touch the registry. The result is the returned flag and the calls
made, in order. -/
def fire_loop (cb : Nat → Nat → Nat → Nat → event_context → Bool) (events : DArray)
    (code sender : Nat) (context : event_context) : List Nat → Option (Bool × List callback_call)
  | [] => some (false, [])
  | i :: rest =>
    (read_bytes events.data (i * sizeof_registered_event) sizeof_registered_event).bind fun bs =>
    let e := registered_event.of_bytes bs
    if cb e.callback code sender e.listener context then some (true, [e.call code sender context])
    else (fire_loop cb events code sender context rest).map fun r =>
      (r.1, e.call code sender context :: r.2)

/-- Embedding of `event_fire`: the returned flag and the callback calls made.
The statics are not written. -/
def event_fire (cb : Nat → Nat → Nat → Nat → event_context → Bool) (s : event_system_state)
    (code sender : Nat) (context : event_context) : Option (Bool × List callback_call) :=
  if !s.is_initialized then some (false, [])
  else if MAX_MESSAGE_CODES ≤ code then none
  else
    match s.registered code with
    | none => some (false, [])
    | some events =>
      let registered_count := events.length
      fire_loop cb events code sender context (List.range registered_count)

/-- Reduction of a natural number to the range of the C type `u16`. -/
def u16 (n : Nat) : Nat := n % 2 ^ 16

/-- The body of the loop of `event_shutdown` for slot `i`: an occupied slot has
its container destroyed (`darray_destroy` frees it) and is set to 0. -/
def shutdown_slot (s : event_system_state) (i : Nat) : event_system_state :=
  match s.registered i with
  | some _ => s.set_events i none
  | none => s

/-- The loop of `event_shutdown` from counter value `i` on, with `fuel`
iterations at most: `none` when the fuel runs out before the loop condition
fails. The result is the statics and the slots visited, in order. -/
def shutdown_loop : Nat → Nat → event_system_state → List Nat →
    Option (event_system_state × List Nat)
  | 0, _, _, _ => none
  | fuel + 1, i, s, visited =>
    if i < MAX_MESSAGE_CODES then
      shutdown_loop fuel (u16 (i + 1)) (shutdown_slot s i) (visited ++ [i])
    else some (s, visited)

/-- Embedding of `event_shutdown`, the loop run from `i = 0` with `fuel`
iterations at most. -/
def event_shutdown (fuel : Nat) (s : event_system_state) :
    Option (event_system_state × List Nat) :=
  shutdown_loop fuel 0 s []

/-- The registry states reachable from `event_initialize` (run on statics not
yet initialised) by calls of `event_register` and `event_unregister` with
pointer arguments, whatever they return. -/
inductive RegistryReachable (K : Nat) : event_system_state → Prop
  | init {s0 : event_system_state} : s0.is_initialized = false →
      RegistryReachable K ( event_initialize s0).2
  | register {s s1 : event_system_state} {code A X : Nat} {b : Bool} : RegistryReachable K s →
      A < 2 ^ 64 → X < 2 ^ 64 → event_register K s code A X = some (b, s1) →
      RegistryReachable K s1
  | unregister {s s1 : event_system_state} {code A X : Nat} {b : Bool} : RegistryReachable K s →
      A < 2 ^ 64 → X < 2 ^ 64 → event_unregister s code A X = some (b, s1) →
      RegistryReachable K s1

/-- The invariant of the reachable registry states: the flag is set and every
occupied slot holds a container of 16-byte records whose live records lie
inside its payload and have pairwise different listener identities. -/
def registry_inv (s : event_system_state) : Prop :=
  s.is_initialized = true ∧
    ∀ code d, s.registered code = some d →
      d.stride = sizeof_registered_event ∧ d.sound ∧
        ((d.elems.map registered_event.of_bytes).map registered_event.listener).Nodup

/-- An initialised registry whose code 5 holds the records (1, 10), (2, 20) and
(3, 30) in a container of capacity 4; every other slot is empty. -/
def example_registry_three : event_system_state :=
  { is_initialized := true
    registered := fun c =>
      if c = 5 then
        some { capacity := 4, length := 3, stride := 16
               data := registered_event.bytes { listener := 1, callback := 10 } ++
                 registered_event.bytes { listener := 2, callback := 20 } ++
                 registered_event.bytes { listener := 3, callback := 30 } ++
                 List.replicate 16 0 }
      else none }

/-- An initialised registry whose code 5 holds the records (1, 10) and (2, 20)
in a full container of capacity 2, the state two registrations give when the
default capacity is 1 or 2; every other slot is empty. -/
def example_registry_full : event_system_state :=
  { is_initialized := true
    registered := fun c =>
      if c = 5 then
        some { capacity := 2, length := 2, stride := 16
               data := registered_event.bytes { listener := 1, callback := 10 } ++
                 registered_event.bytes { listener := 2, callback := 20 } }
      else none }

/-! ## The input producer (`input.c`) -/

/-- The struct `keyboard_state`: `b8 keys[256]`. -/
structure keyboard_state where
  /-- The array `keys`, one flag per key. -/
  keys : List Bool
deriving DecidableEq, Repr

/-- The struct `mouse_state`; `BUTTON_MAX_BUTTONS` (missing `input.h`) is the
length of `buttons`. -/
structure mouse_state where
  /-- Field `x` (an `i16`). -/
  x : Int
  /-- Field `y` (an `i16`). -/
  y : Int
  /-- The array `buttons`. -/
  buttons : List Byte
deriving DecidableEq, Repr

/-- The struct `input_state`, the static `state` of `input.c`. -/
structure input_state where
  /-- Field `keyboard_current`. -/
  keyboard_current : keyboard_state
  /-- Field `keyboard_previous`, the previous-frame snapshot. -/
  keyboard_previous : keyboard_state
  /-- Field `mouse_current`. -/
  mouse_current : mouse_state
  /-- Field `mouse_previous`, the previous-frame snapshot. -/
  mouse_previous : mouse_state
deriving DecidableEq, Repr

/-- One call `event_fire(code, sender, context)` made by the input producer. -/
structure fire_call where
  /-- First argument. -/
  code : Nat
  /-- Second argument. -/
  sender : Nat
  /-- Third argument. -/
  context : event_context
deriving DecidableEq, Repr

/-- Little-endian bytes of a 16-bit value. -/
def le16 (n : Nat) : List Byte :=
  [UInt8.ofNat (n % 256), UInt8.ofNat (n / 2 ^ 8 % 256)]

/-- The initialiser `{ .data.u16[0] = v }`: `v` converted to `u16` in the first
two bytes, zero in the other fourteen. -/
def context_of_u16_0 (v : Nat) : event_context :=
  { data := le16 (u16 v) ++ List.replicate 14 0 }

/-- Embedding of `input_process_key`: the new static `state` and the
`event_fire` calls made. The two event codes come from the missing `event.h`
and are parameters. A key outside `keys[256]` is an access outside the array. -/
def input_process_key (EVENT_CODE_KEY_PRESSED EVENT_CODE_KEY_RELEASED : Nat)
    (state : input_state) (key : Nat) (pressed : Bool) : Option (input_state × List fire_call) :=
  match state.keyboard_current.keys[key]? with
  | none => none
  | some current =>
    if current != pressed then
      let context := context_of_u16_0 key
      some ({ state with keyboard_current := { keys := state.keyboard_current.keys.set key pressed } },
        [{ code := if pressed then EVENT_CODE_KEY_PRESSED else EVENT_CODE_KEY_RELEASED,
           sender := 0, context := context }])
    else some (state, [])

/-- The static `state` of `input.c` after `input_initialize`: all zero; the
mouse has `B` buttons. -/
def input_state.zero (B : Nat) : input_state :=
  { keyboard_current := { keys := List.replicate 256 false }
    keyboard_previous := { keys := List.replicate 256 false }
    mouse_current := { x := 0, y := 0, buttons := List.replicate B 0 }
    mouse_previous := { x := 0, y := 0, buttons := List.replicate B 0 } }

/-- One call on the registry: `event_register` or `event_unregister` with its
arguments. -/
inductive registry_call where
  | register (code listener on_event : Nat)
  | unregister (code listener on_event : Nat)
deriving DecidableEq, Repr

/-- The listener and the callback of a call are pointer values. -/
def registry_call.pointers : registry_call → Prop
  | .register _ A X => A < 2 ^ 64 ∧ X < 2 ^ 64
  | .unregister _ A X => A < 2 ^ 64 ∧ X < 2 ^ 64

instance (c : registry_call) : Decidable c.pointers := by
  cases c <;> unfold registry_call.pointers <;> infer_instance

/-- The calls of a list run one after the other, each on the statics the call
before it left, whatever the calls return: the values returned, in order, and
the last statics; `none` when a call has no result. -/
def registry_run (K : Nat) :
    event_system_state → List registry_call → Option (List Bool × event_system_state)
  | s, [] => some ([], s)
  | s, .register code A X :: rest =>
    (event_register K s code A X).bind fun r =>
      (registry_run K r.2 rest).map fun t => (r.1 :: t.1, t.2)
  | s, .unregister code A X :: rest =>
    (event_unregister s code A X).bind fun r =>
      (registry_run K r.2 rest).map fun t => (r.1 :: t.1, t.2)

/-- An initialised registry whose code 5 holds the records (1, 10) and (2, 20)
and whose code 6 holds the record (3, 30), each in a container of capacity 4;
every other slot is empty. -/
def example_registry_two_codes : event_system_state :=
  { is_initialized := true
    registered := fun c =>
      if c = 5 then
        some { capacity := 4, length := 2, stride := 16
               data := registered_event.bytes { listener := 1, callback := 10 } ++
                 registered_event.bytes { listener := 2, callback := 20 } ++
                 List.replicate 32 0 }
      else if c = 6 then
        some { capacity := 4, length := 1, stride := 16
               data := registered_event.bytes { listener := 3, callback := 30 } ++
                 List.replicate 48 0 }
      else none }

/-! ## Arithmetic on `u64` -/

theorem u64_of_lt {n : Nat} (h : n < 2 ^ 64) : u64 n = n := by
  unfold u64
  omega

theorem u64_le (n : Nat) : u64 n ≤ n := by
  unfold u64
  omega

theorem u64_sub_of_le {a b : Nat} (hb : b ≤ a) (ha : a < 2 ^ 64) : u64_sub a b = a - b := by
  unfold u64_sub
  omega

/-! ## Reading and writing blocks -/

theorem read_bytes_of_le {m : List Byte} {off n : Nat} (h : off + n ≤ m.length) :
    read_bytes m off n = some ((m.drop off).take n) := by
  simp [read_bytes, h]

theorem write_bytes_of_le {m : List Byte} {off : Nat} {bs : List Byte}
    (h : off + bs.length ≤ m.length) :
    write_bytes m off bs = some (m.take off ++ bs ++ m.drop (off + bs.length)) := by
  simp [write_bytes, h]

theorem read_bytes_length {m : List Byte} {off n : Nat} {bs : List Byte}
    (h : read_bytes m off n = some bs) : bs.length = n ∧ off + n ≤ m.length := by
  unfold read_bytes at h
  split at h
  · simp only [Option.some.injEq] at h
    subst h
    simp only [List.length_take, List.length_drop]
    omega
  · simp at h

theorem write_bytes_some {m : List Byte} {off : Nat} {bs m1 : List Byte}
    (h : write_bytes m off bs = some m1) :
    off + bs.length ≤ m.length ∧ m1 = m.take off ++ bs ++ m.drop (off + bs.length) := by
  unfold write_bytes at h
  split at h
  · simp only [Option.some.injEq] at h
    exact ⟨by assumption, h.symm⟩
  · simp at h

theorem write_bytes_length {m : List Byte} {off : Nat} {bs m1 : List Byte}
    (h : write_bytes m off bs = some m1) : m1.length = m.length := by
  obtain ⟨hle, rfl⟩ := write_bytes_some h
  simp only [List.length_append, List.length_take, List.length_drop]
  omega

/-- Byte `k` of a slice. -/
theorem getElem?_slice (m : List Byte) (p n k : Nat) :
    ((m.drop p).take n)[k]? = if k < n then m[p + k]? else none := by
  rw [List.getElem?_take, List.getElem?_drop]

/-- Byte `k` of a block after a store of `bs` at `off`. -/
theorem getElem?_store (m bs : List Byte) (off k : Nat) (h : off + bs.length ≤ m.length) :
    (m.take off ++ bs ++ m.drop (off + bs.length))[k]? =
      if k < off then m[k]? else if k < off + bs.length then bs[k - off]? else m[k]? := by
  have htake : (m.take off).length = off := by
    rw [List.length_take]
    omega
  by_cases h1 : k < off
  · rw [if_pos h1, List.append_assoc, List.getElem?_append_left (by omega),
      List.getElem?_take_of_lt h1]
  · rw [if_neg h1, List.append_assoc, List.getElem?_append_right (by omega), htake]
    by_cases h2 : k < off + bs.length
    · rw [if_pos h2, List.getElem?_append_left (by omega)]
    · rw [if_neg h2, List.getElem?_append_right (by omega), List.getElem?_drop]
      congr 1
      omega

/-- A slice away from a store is not changed by it. -/
theorem slice_store_disjoint (m bs : List Byte) (off p n : Nat) (h : off + bs.length ≤ m.length)
    (hd : p + n ≤ off ∨ off + bs.length ≤ p) :
    ((m.take off ++ bs ++ m.drop (off + bs.length)).drop p).take n = (m.drop p).take n := by
  apply List.ext_getElem?
  intro k
  rw [getElem?_slice, getElem?_slice, getElem?_store m bs off (p + k) h]
  by_cases hk : k < n
  · simp only [if_pos hk]
    rcases hd with hd | hd
    · rw [if_pos (by omega)]
    · rw [if_neg (by omega), if_neg (by omega)]
  · simp only [if_neg hk]

/-- The slice a store wrote holds the stored bytes. -/
theorem slice_store_same (m bs : List Byte) (off : Nat) (h : off + bs.length ≤ m.length) :
    ((m.take off ++ bs ++ m.drop (off + bs.length)).drop off).take bs.length = bs := by
  apply List.ext_getElem?
  intro k
  rw [getElem?_slice, getElem?_store m bs off (off + k) h]
  by_cases hk : k < bs.length
  · rw [if_pos hk, if_neg (by omega), if_pos (by omega)]
    congr 1
    omega
  · rw [if_neg hk, List.getElem?_eq_none (by omega)]

/-- Copying inside the blocks: the result when both ranges are in bounds. -/
theorem kcopy_memory_of_le {dest source : List Byte} {doff soff size : Nat}
    (hs : soff + size ≤ source.length) (hd : doff + size ≤ dest.length) :
    kcopy_memory dest doff source soff size =
      some (dest.take doff ++ (source.drop soff).take size ++ dest.drop (doff + size)) := by
  have hlen : ((source.drop soff).take size).length = size := by
    rw [List.length_take, List.length_drop]
    omega
  unfold kcopy_memory
  rw [read_bytes_of_le hs, Option.some_bind, write_bytes_of_le (by omega), hlen]

/-- A successful copy was in bounds and stored the bytes it read. -/
theorem kcopy_memory_some {dest source out : List Byte} {doff soff size : Nat}
    (h : kcopy_memory dest doff source soff size = some out) :
    soff + size ≤ source.length ∧ doff + size ≤ dest.length ∧
      out = dest.take doff ++ (source.drop soff).take size ++ dest.drop (doff + size) := by
  unfold kcopy_memory at h
  cases hr : read_bytes source soff size with
  | none => simp [hr] at h
  | some bs =>
    rw [hr, Option.some_bind] at h
    obtain ⟨hlen, hle⟩ := read_bytes_length hr
    obtain ⟨hw, hout⟩ := write_bytes_some h
    rw [read_bytes_of_le hle] at hr
    simp only [Option.some.injEq] at hr
    subst hr
    rw [hlen] at hw hout
    exact ⟨hle, hw, hout⟩

/-! ## Elements of a block -/

theorem slot_length {m : List Byte} {s i : Nat} (h : (i + 1) * s ≤ m.length) :
    (slot m s i).length = s := by
  have h1 : (i + 1) * s = i * s + s := Nat.succ_mul i s
  unfold slot
  rw [List.length_take, List.length_drop]
  omega

/-- Storing one element leaves every other element as it was. -/
theorem slot_store_ne (m v : List Byte) (s i j : Nat) (hv : v.length = s)
    (h : j * s + s ≤ m.length) (hij : i ≠ j) :
    slot (m.take (j * s) ++ v ++ m.drop (j * s + v.length)) s i = slot m s i := by
  unfold slot
  apply slice_store_disjoint m v (j * s) (i * s) s (by omega)
  rcases Nat.lt_or_gt_of_ne hij with hlt | hgt
  · left
    have h1 : (i + 1) * s ≤ j * s := Nat.mul_le_mul_right s hlt
    have h2 : (i + 1) * s = i * s + s := Nat.succ_mul i s
    omega
  · right
    have h1 : (j + 1) * s ≤ i * s := Nat.mul_le_mul_right s hgt
    have h2 : (j + 1) * s = j * s + s := Nat.succ_mul j s
    omega

/-- Storing one element makes it the element read back. -/
theorem slot_store_same (m v : List Byte) (s j : Nat) (hv : v.length = s)
    (h : j * s + s ≤ m.length) :
    slot (m.take (j * s) ++ v ++ m.drop (j * s + v.length)) s j = v := by
  unfold slot
  have := slice_store_same m v (j * s) (by omega)
  rw [hv] at this ⊢
  exact this

/-- Blocks that agree on a prefix agree on the elements inside the prefix. -/
theorem slot_of_prefix {m1 m2 : List Byte} {P s i : Nat} (h : m1.take P = m2.take P)
    (hi : (i + 1) * s ≤ P) : slot m1 s i = slot m2 s i := by
  have h2 : (i + 1) * s = i * s + s := Nat.succ_mul i s
  unfold slot
  apply List.ext_getElem?
  intro k
  rw [getElem?_slice, getElem?_slice]
  by_cases hk : k < s
  · have e1 : m1[i * s + k]? = (m1.take P)[i * s + k]? :=
      (List.getElem?_take_of_lt (show i * s + k < P by omega)).symm
    have e2 : m2[i * s + k]? = (m2.take P)[i * s + k]? :=
      (List.getElem?_take_of_lt (show i * s + k < P by omega)).symm
    rw [if_pos hk, if_pos hk, e1, e2, h]
  · rw [if_neg hk, if_neg hk]

/-! ## `_darray_create` and `_darray_resize` -/

/-- A creation whose block size does not wrap gives an empty, zeroed,
well-formed container of the requested capacity and stride. -/
theorem _darray_create_of_fits {length stride : Nat}
    (h : 24 + length * stride < 2 ^ 64) :
    _darray_create length stride =
      some { capacity := length, length := 0, stride := stride,
             data := List.replicate (length * stride) 0 } := by
  have h24 : u64 (DARRAY_FIELD_LENGTH * sizeof_u64) = 24 := by decide
  unfold _darray_create kallocate_zeroed
  simp only [h24, List.length_replicate, List.drop_replicate]
  rw [u64_of_lt (show length * stride < 2 ^ 64 by omega), u64_of_lt h, if_neg (by omega)]
  congr 3
  omega

theorem _darray_create_WF {length stride : Nat} (hl : length < 2 ^ 64)
    (h : 24 + length * stride < 2 ^ 64) :
    DArray.WF { capacity := length, length := 0, stride := stride,
                data := List.replicate (length * stride) 0 } := by
  exact ⟨Nat.zero_le _, List.length_replicate _ _, hl, h⟩

/-- Growth of a well-formed container that can still grow: the capacity doubles,
length and stride stay, and the live elements are copied. -/
theorem _darray_resize_spec {d : DArray} (hwf : d.WF) (hg : d.growable) :
    ∃ data, _darray_resize d =
        some { capacity := 2 * d.capacity, length := d.length, stride := d.stride, data := data } ∧
      data.length = 2 * d.capacity * d.stride ∧
      ∀ i, i < d.length → slot data d.stride i = slot d.data d.stride i := by
  obtain ⟨hlen, hsize, hcap, hfit⟩ := hwf
  obtain ⟨hpos, h2cap, h2fit⟩ := hg
  have hls : d.length * d.stride ≤ d.capacity * d.stride := Nat.mul_le_mul_right _ hlen
  have h2 : 2 * d.capacity * d.stride = 2 * (d.capacity * d.stride) := Nat.mul_assoc _ _ _
  have hsrc : 0 + d.length * d.stride ≤ d.data.length := by omega
  have hdst : 0 + d.length * d.stride ≤ (List.replicate (2 * d.capacity * d.stride) (0 : Byte)).length := by
    rw [List.length_replicate]
    omega
  refine ⟨(List.replicate (2 * d.capacity * d.stride) (0 : Byte)).take 0 ++
      (d.data.drop 0).take (d.length * d.stride) ++
      (List.replicate (2 * d.capacity * d.stride) (0 : Byte)).drop (0 + d.length * d.stride),
    ?_, ?_, ?_⟩
  · unfold _darray_resize
    simp only [DARRAY_RESIZE_FACTOR]
    rw [u64_of_lt h2cap, _darray_create_of_fits h2fit, Option.some_bind,
      u64_of_lt (show d.length * d.stride < 2 ^ 64 by omega), kcopy_memory_of_le hsrc hdst,
      Option.some_bind]
  · simp only [List.length_append, List.length_take, List.length_drop, List.length_replicate]
    omega
  · intro i hi
    have hi1 : (i + 1) * d.stride ≤ d.length * d.stride := Nat.mul_le_mul_right _ hi
    have hslice : ((d.data.drop 0).take (d.length * d.stride)).length = d.length * d.stride := by
      rw [List.length_take, List.length_drop]
      omega
    have hsame := slice_store_same (List.replicate (2 * d.capacity * d.stride) (0 : Byte))
      ((d.data.drop 0).take (d.length * d.stride)) 0 (by rw [hslice]; exact hdst)
    rw [hslice] at hsame
    apply slot_of_prefix (P := d.length * d.stride) _ hi1
    rw [List.drop_zero] at hsame
    rw [List.drop_zero]
    exact hsame

/-! ## `_darray_push` -/

/-- The store of one element of `s` bytes at position `j`. -/
theorem kcopy_memory_elem {m v : List Byte} {s j : Nat} (hv : v.length = s)
    (h : j * s + s ≤ m.length) (hj : j * s < 2 ^ 64) :
    kcopy_memory m (u64 (j * s)) v 0 s =
      some (m.take (j * s) ++ v ++ m.drop (j * s + v.length)) := by
  rw [u64_of_lt hj, kcopy_memory_of_le (by omega) h, List.drop_zero, hv, ← hv, List.take_length]

/-- The push of a value into a well-formed container that has room or can
grow: it returns a well-formed container with the value appended, whose
capacity is the old one when there was room and twice the old one otherwise. -/
theorem _darray_push_spec {d : DArray} {v : List Byte} (hwf : d.WF) (hv : v.length = d.stride)
    (hroom : d.length < d.capacity ∨ d.growable) :
    ∃ d1, _darray_push d v = some d1 ∧ d1.WF ∧ d1.stride = d.stride ∧
      d1.length = d.length + 1 ∧
      d1.capacity = (if d.length < d.capacity then d.capacity else 2 * d.capacity) ∧
      (∀ i, i < d.length → slot d1.data d.stride i = slot d.data d.stride i) ∧
      slot d1.data d.stride d.length = v := by
  have hwf0 := hwf
  obtain ⟨hlen, hsize, hcap, hfit⟩ := hwf
  have hsucc : (d.length + 1) * d.stride = d.length * d.stride + d.stride := Nat.succ_mul _ _
  by_cases hlt : d.length < d.capacity
  · have h1 : (d.length + 1) * d.stride ≤ d.capacity * d.stride := Nat.mul_le_mul_right _ hlt
    have hin : d.length * d.stride + d.stride ≤ d.data.length := by omega
    refine ⟨{ d with data := d.data.take (d.length * d.stride) ++ v ++
                d.data.drop (d.length * d.stride + v.length), length := d.length + 1 },
      ?_, ?_, rfl, rfl, ?_, ?_, ?_⟩
    · unfold _darray_push
      dsimp only
      rw [if_neg (show ¬ d.length ≥ d.capacity by omega), Option.some_bind,
        kcopy_memory_elem hv hin (by omega), Option.some_bind, u64_of_lt (by omega)]
    · refine ⟨hlt, ?_, hcap, hfit⟩
      simp only [List.length_append, List.length_take, List.length_drop]
      omega
    · simp only [if_pos hlt]
    · intro i hi
      exact slot_store_ne d.data v d.stride i d.length hv hin (by omega)
    · exact slot_store_same d.data v d.stride d.length hv hin
  · have hg : d.growable := by
      rcases hroom with h | h
      · exact absurd h hlt
      · exact h
    obtain ⟨data, hres, hdlen, hslots⟩ := _darray_resize_spec hwf0 hg
    obtain ⟨hpos, h2cap, h2fit⟩ := hg
    have heq : d.length = d.capacity := by omega
    have h2 : 2 * d.capacity * d.stride = 2 * (d.capacity * d.stride) := Nat.mul_assoc _ _ _
    have hge : d.stride ≤ d.capacity * d.stride := Nat.le_mul_of_pos_left _ hpos
    have hin : d.length * d.stride + d.stride ≤ data.length := by
      rw [heq]
      omega
    refine ⟨{ capacity := 2 * d.capacity, length := d.length + 1, stride := d.stride,
              data := data.take (d.length * d.stride) ++ v ++
                data.drop (d.length * d.stride + v.length) },
      ?_, ?_, rfl, rfl, ?_, ?_, ?_⟩
    · unfold _darray_push
      dsimp only
      rw [if_pos (show d.length ≥ d.capacity by omega), hres, Option.some_bind]
      dsimp only
      rw [kcopy_memory_elem hv hin (by omega), Option.some_bind, u64_of_lt (by omega)]
    · refine ⟨?_, ?_, h2cap, h2fit⟩
      · show d.length + 1 ≤ 2 * d.capacity
        omega
      · simp only [List.length_append, List.length_take, List.length_drop]
        omega
    · simp only [if_neg hlt]
    · intro i hi
      show slot (data.take (d.length * d.stride) ++ v ++
        data.drop (d.length * d.stride + v.length)) d.stride i = _
      rw [slot_store_ne data v d.stride i d.length hv hin (by omega)]
      exact hslots i hi
    · exact slot_store_same data v d.stride d.length hv hin

/-- The element list after a push is the old one with the value at the end. -/
theorem elems_of_push {d d1 : DArray} {v : List Byte} (hs : d1.stride = d.stride)
    (hl : d1.length = d.length + 1)
    (hold : ∀ i, i < d.length → slot d1.data d.stride i = slot d.data d.stride i)
    (hnew : slot d1.data d.stride d.length = v) : d1.elems = d.elems ++ [v] := by
  unfold DArray.elems
  rw [hl, hs, List.range_succ, List.map_append, List.map_singleton, hnew]
  congr 1
  apply List.map_congr_left
  intro i hi
  exact hold i (List.mem_range.mp hi)

/-- Pushing a list of values into a well-formed container whose capacity and
whose doubled final length stay below a bound `B` that fits `u64`. -/
theorem push_all_spec (stride B : Nat) (hB : B < 2 ^ 64) (hBfit : 24 + B * stride < 2 ^ 64) :
    ∀ (vs : List (List Byte)) (d : DArray), d.WF → d.stride = stride → 1 ≤ d.capacity →
      d.capacity ≤ B → 2 * (d.length + vs.length) ≤ B → (∀ v ∈ vs, v.length = stride) →
      ∃ d1, push_all d vs = some d1 ∧ d1.WF ∧ d1.stride = stride ∧
        d1.length = d.length + vs.length ∧ d1.elems = d.elems ++ vs := by
  intro vs
  induction vs with
  | nil =>
    intro d hwf hs _ _ _ _
    exact ⟨d, rfl, hwf, hs, by simp, by simp⟩
  | cons v rest ih =>
    intro d hwf hs hpos hcapB hlenB hvs
    have hv : v.length = d.stride := by
      rw [hs]
      exact hvs v (List.mem_cons_self _ _)
    have hlen : d.length ≤ d.capacity := hwf.1
    simp only [List.length_cons] at hlenB
    have hroom : d.length < d.capacity ∨ d.growable := by
      by_cases hlt : d.length < d.capacity
      · exact Or.inl hlt
      · right
        have hmul : 2 * d.capacity * d.stride ≤ B * d.stride :=
          Nat.mul_le_mul_right _ (by omega)
        rw [hs] at hmul
        refine ⟨hpos, by omega, ?_⟩
        rw [hs]
        omega
    obtain ⟨d1, hpush, hwf1, hs1, hl1, hc1, hold, hnew⟩ := _darray_push_spec hwf hv hroom
    have hcap1 : 1 ≤ d1.capacity ∧ d1.capacity ≤ B := by
      rw [hc1]
      split <;> omega
    obtain ⟨d2, hall, hwf2, hs2, hl2, he2⟩ :=
      ih d1 hwf1 (hs1.trans hs) hcap1.1 hcap1.2 (by omega)
        (fun w hw => hvs w (List.mem_cons_of_mem _ hw))
    refine ⟨d2, ?_, hwf2, hs2, ?_, ?_⟩
    · show (_darray_push d v).bind (fun d1 => push_all d1 rest) = some d2
      rw [hpush, Option.some_bind, hall]
    · rw [hl2, hl1, List.length_cons]
      omega
    · rw [he2, elems_of_push hs1 hl1 hold hnew, List.append_assoc, List.singleton_append]

/-! ## Claims about the container -/

/-- C1, as stated, fails when the block size wraps: `_darray_create(2^63, 2)`
computes `array_size = 2^64 mod 2^64 = 0`, allocates the header only, and the
first push stores 2 bytes outside the block. -/
theorem push_all_fresh_wraps :
    1 ≤ 2 ^ 63 ∧ 2 ^ 63 < 2 ^ 64 ∧ (∀ v ∈ [[(1 : Byte), 2]], v.length = 2) ∧
      (_darray_create (2 ^ 63) 2).map (fun d => (d.capacity, d.data.length)) =
        some (2 ^ 63, 0) ∧
      ((_darray_create (2 ^ 63) 2).bind fun d => push_all d [[1, 2]]) = none := by
  decide

/-- C1 (amended): for every stride, every initial capacity `C ≥ 1` and every
list `vs` of `N` values of `stride` bytes such that `max C (2 N)` and the block
of that many elements fit `u64`, pushing `vs` one by one into the container
made by `_darray_create C stride` returns a container of length `N`, capacity
at least `N`, whose elements `0..N-1` are `vs` in push order. -/
theorem push_all_fresh (C stride : Nat) (vs : List (List Byte)) (hC : 1 ≤ C)
    (hvs : ∀ v ∈ vs, v.length = stride) (hcap : max C (2 * vs.length) < 2 ^ 64)
    (hfit : 24 + max C (2 * vs.length) * stride < 2 ^ 64) :
    ∃ d0 d, _darray_create C stride = some d0 ∧ push_all d0 vs = some d ∧
      d.length = vs.length ∧ vs.length ≤ d.capacity ∧ d.elems = vs := by
  have hCle : C ≤ max C (2 * vs.length) := Nat.le_max_left _ _
  have hNle : 2 * vs.length ≤ max C (2 * vs.length) := Nat.le_max_right _ _
  have hmul : C * stride ≤ max C (2 * vs.length) * stride := Nat.mul_le_mul_right _ hCle
  have hfit0 : 24 + C * stride < 2 ^ 64 := by omega
  obtain ⟨d, hall, hwf, _, hl, he⟩ :=
    push_all_spec stride (max C (2 * vs.length)) hcap hfit vs
      { capacity := C, length := 0, stride := stride, data := List.replicate (C * stride) 0 }
      (_darray_create_WF (by omega) hfit0) rfl hC hCle (by simp) hvs
  refine ⟨_, d, _darray_create_of_fits hfit0, hall, ?_, ?_, ?_⟩
  · simpa using hl
  · have := hwf.1
    simp only [Nat.zero_add] at hl
    omega
  · simpa [DArray.elems] using he

/-- Witness of C1 (amended): capacity 1, stride 1, three one-byte values. -/
theorem push_all_fresh_witness :
    ∃ d0 d, _darray_create 1 1 = some d0 ∧ push_all d0 [[7], [8], [9]] = some d ∧
      d.length = [[(7 : Byte)], [8], [9]].length ∧ [[(7 : Byte)], [8], [9]].length ≤ d.capacity ∧
      d.elems = [[7], [8], [9]] :=
  push_all_fresh 1 1 [[7], [8], [9]] (by decide) (by decide) (by decide) (by decide)

/-- C2, as stated, fails for initial capacity 0: twice 0 is 0. With stride 4 the
container made by `_darray_create(0, 4)` has `length == capacity`, the growth
allocates a payload of 0 bytes again and the store of the pushed value leaves
the block; with stride 0 the push returns, but the capacity is still 0, not
strictly greater, and the length 1 exceeds it. -/
theorem push_growth_law_capacity_zero :
    (_darray_create 0 4).map (fun d => (d.length, d.capacity)) = some (0, 0) ∧
      ((_darray_create 0 4).bind fun d => _darray_push d (le32 1)) = none ∧
      ((_darray_create 0 0).bind fun d => _darray_push d []).map
        (fun d => (d.length, d.capacity)) = some (1, 0) := by
  decide

/-- C2 (amended): growth law for initial capacity `C ≥ 1` and sizes that fit
`u64`. The container made by `_darray_create C stride` is well formed with
capacity `C`; a push into a well-formed container with `length == capacity`
that can still grow returns a well-formed container of exactly twice the
capacity, strictly greater, holding the old elements and the pushed value; a
push made while `length < capacity` leaves the capacity unchanged; and
`create(2, 4)` followed by pushes of 1,2,3,4,5 ends with capacity 8
(2 -> 4 -> 8), length 5 and contents `[1,2,3,4,5]`. -/
theorem push_growth_law :
    (∀ C stride : Nat, 1 ≤ C → C < 2 ^ 64 → 24 + C * stride < 2 ^ 64 →
      ∃ d0, _darray_create C stride = some d0 ∧ d0.WF ∧ d0.capacity = C ∧ d0.length = 0 ∧
        d0.stride = stride) ∧
    (∀ (d : DArray) (v : List Byte), d.WF → v.length = d.stride → d.growable →
      d.length = d.capacity →
      ∃ d1, _darray_push d v = some d1 ∧ d1.WF ∧ d1.capacity = 2 * d.capacity ∧
        d.capacity < d1.capacity ∧ d1.length = d.length + 1 ∧ d1.elems = d.elems ++ [v]) ∧
    (∀ (d : DArray) (v : List Byte), d.WF → v.length = d.stride → d.length < d.capacity →
      ∃ d1, _darray_push d v = some d1 ∧ d1.WF ∧ d1.capacity = d.capacity ∧
        d1.length = d.length + 1 ∧ d1.elems = d.elems ++ [v]) ∧
    ([0, 1, 2, 3, 4, 5].map fun n =>
        ((_darray_create 2 4).bind fun d => push_all d (([1, 2, 3, 4, 5].take n).map le32)).map
          fun d => (d.capacity, d.length, d.elems)) =
      [some (2, 0, []), some (2, 1, [le32 1]), some (2, 2, [le32 1, le32 2]),
       some (4, 3, [le32 1, le32 2, le32 3]), some (4, 4, [le32 1, le32 2, le32 3, le32 4]),
       some (8, 5, [le32 1, le32 2, le32 3, le32 4, le32 5])] := by
  refine ⟨?_, ?_, ?_, by decide⟩
  · intro C stride _ hC hfit
    exact ⟨_, _darray_create_of_fits hfit, _darray_create_WF hC hfit, rfl, rfl, rfl⟩
  · intro d v hwf hv hg heq
    obtain ⟨d1, hpush, hwf1, hs1, hl1, hc1, hold, hnew⟩ := _darray_push_spec hwf hv (Or.inr hg)
    rw [if_neg (by omega)] at hc1
    have hpos := hg.1
    exact ⟨d1, hpush, hwf1, hc1, by omega, hl1, elems_of_push hs1 hl1 hold hnew⟩
  · intro d v hwf hv hlt
    obtain ⟨d1, hpush, hwf1, hs1, hl1, hc1, hold, hnew⟩ := _darray_push_spec hwf hv (Or.inl hlt)
    rw [if_pos hlt] at hc1
    exact ⟨d1, hpush, hwf1, hc1, hl1, elems_of_push hs1 hl1 hold hnew⟩

/-- Witness of C2 (amended): a full container of capacity 1 doubles to 2. -/
theorem push_growth_law_witness :
    ∃ d1, _darray_push { capacity := 1, length := 1, stride := 1, data := [7] } [9] = some d1 ∧
      d1.WF ∧ d1.capacity = 2 * 1 ∧ 1 < d1.capacity ∧ d1.length = 1 + 1 ∧
      d1.elems = [[7]] ++ [[9]] :=
  push_growth_law.2.1 { capacity := 1, length := 1, stride := 1, data := [7] } [9]
    (by decide) (by decide) (by decide) (by decide)

/-- What a growth keeps: stride and length of the container. -/
theorem _darray_resize_fields {d a : DArray} (h : _darray_resize d = some a) :
    a.stride = d.stride ∧ a.length = d.length := by
  unfold _darray_resize at h
  dsimp only at h
  cases hc : _darray_create (u64 (DARRAY_RESIZE_FACTOR * d.capacity)) d.stride with
  | none => simp [hc] at h
  | some tmp =>
    rw [hc, Option.some_bind] at h
    have hts : tmp.stride = d.stride := by
      unfold _darray_create at hc
      dsimp only at hc
      split at hc
      · simp at hc
      · simp only [Option.some.injEq] at hc
        rw [← hc]
    cases hk : kcopy_memory tmp.data 0 d.data 0 (u64 (d.length * d.stride)) with
    | none => simp [hk] at h
    | some data =>
      rw [hk, Option.some_bind, Option.some.injEq] at h
      rw [← h]
      exact ⟨hts, rfl⟩

/-- C3: for every well-formed container of length `L ≥ 1` and every destination
of at least `stride` bytes, `_darray_pop` stores the element at position `L-1`
(the last element) in the destination, sets the length to `L-1` and leaves
capacity, stride and payload, hence elements `0..L-2`, unchanged; and a pop
directly after a push of `v` returns `v` and restores the previous length. -/
theorem _darray_pop_spec (d : DArray) (dest : List Byte) (hwf : d.WF)
    (hdest : d.stride ≤ dest.length) :
    (1 ≤ d.length →
      _darray_pop d dest =
        some ({ d with length := d.length - 1 },
          slot d.data d.stride (d.length - 1) ++ dest.drop d.stride) ∧
      d.elems.getLast? = some (slot d.data d.stride (d.length - 1)) ∧
      ({ d with length := d.length - 1 } : DArray).elems = d.elems.dropLast) ∧
    (∀ (v : List Byte) (d1 : DArray), v.length = d.stride → _darray_push d v = some d1 →
      _darray_pop d1 dest = some ({ d1 with length := d.length }, v ++ dest.drop d.stride)) := by
  obtain ⟨hlen, hsize, hcap, hfit⟩ := hwf
  constructor
  · intro hL
    have hsub : u64_sub d.length 1 = d.length - 1 := u64_sub_of_le hL (by omega)
    have h1 : (d.length - 1 + 1) * d.stride ≤ d.capacity * d.stride :=
      Nat.mul_le_mul_right _ (by omega)
    have h2 : (d.length - 1 + 1) * d.stride = (d.length - 1) * d.stride + d.stride :=
      Nat.succ_mul _ _
    have hrange : List.range d.length = List.range (d.length - 1) ++ [d.length - 1] := by
      have h := List.range_succ (d.length - 1)
      rwa [show (d.length - 1).succ = d.length by omega] at h
    refine ⟨?_, ?_, ?_⟩
    · unfold _darray_pop
      dsimp only
      rw [hsub, u64_of_lt (by omega), kcopy_memory_of_le (by omega) (by omega), Option.some_bind]
      simp only [slot, List.take_zero, List.nil_append, Nat.zero_add]
    · unfold DArray.elems
      rw [hrange, List.map_append, List.map_singleton, List.getLast?_append]
      simp
    · unfold DArray.elems
      dsimp only
      rw [hrange, List.map_append, List.map_singleton, List.dropLast_concat]
  · intro v d1 hv hpush
    unfold _darray_push at hpush
    dsimp only at hpush
    have hback : u64_sub (u64 (d.length + 1)) 1 = d.length := by
      unfold u64_sub u64
      omega
    have key : ∀ a : DArray, a.stride = d.stride →
        ((kcopy_memory a.data (u64 (d.length * d.stride)) v 0 d.stride).bind fun data =>
          some ({ a with data := data, length := u64 (d.length + 1) } : DArray)) = some d1 →
        _darray_pop d1 dest = some ({ d1 with length := d.length }, v ++ dest.drop d.stride) := by
      intro a ha hk
      cases hc : kcopy_memory a.data (u64 (d.length * d.stride)) v 0 d.stride with
      | none => simp [hc] at hk
      | some data =>
        rw [hc, Option.some_bind, Option.some.injEq] at hk
        generalize hoff : u64 (d.length * d.stride) = off at hc
        obtain ⟨_, hin, hdata⟩ := kcopy_memory_some hc
        have hv1 : (v.drop 0).take d.stride = v := by
          rw [List.drop_zero, ← hv, List.take_length]
        rw [hv1, ← hv] at hdata
        have hsame := slice_store_same a.data v off (by omega)
        rw [← hdata, hv] at hsame
        have hlen1 : data.length = a.data.length := by
          rw [hdata]
          simp only [List.length_append, List.length_take, List.length_drop]
          omega
        subst hk
        unfold _darray_pop
        dsimp only
        rw [hback, ha, hoff, kcopy_memory_of_le (by omega) (by omega), Option.some_bind, hsame]
        simp only [List.take_zero, List.nil_append, Nat.zero_add]
    by_cases hge : d.length ≥ d.capacity
    · rw [if_pos hge] at hpush
      cases hr : _darray_resize d with
      | none => simp [hr] at hpush
      | some a =>
        rw [hr, Option.some_bind] at hpush
        exact key a (_darray_resize_fields hr).1 hpush
    · rw [if_neg hge, Option.some_bind] at hpush
      exact key d rfl hpush

/-- Witness of C3: popping the last of two one-byte elements. -/
theorem _darray_pop_spec_witness :
    _darray_pop { capacity := 2, length := 2, stride := 1, data := [7, 8] } [0] =
      some ({ capacity := 2, length := 1, stride := 1, data := [7, 8] }, [8]) :=
  ((_darray_pop_spec { capacity := 2, length := 2, stride := 1, data := [7, 8] } [0]
    (by decide) (by decide)).1 (by decide)).1

/-- C4 at a failing input: the full container `[10, 20]` (capacity 2, stride 1) is
what `_darray_create(2, 1)` and two pushes give; `_darray_pop_at` at index 0
copies `stride * (length - index) = 2` bytes from offset 1, one element more
than the payload holds, so the copy leaves the block; the claim asks for the
container `[20]` and `dest = [10]`. Removing the last index, or removing from a
container with spare capacity, does not leave the block. -/
theorem _darray_pop_at_full_leaves_block :
    ((_darray_create 2 1).bind fun d => push_all d [[10], [20]]) =
        some { capacity := 2, length := 2, stride := 1, data := [10, 20] } ∧
      _darray_pop_at { capacity := 2, length := 2, stride := 1, data := [10, 20] } 0 [0] = none ∧
      _darray_pop_at { capacity := 2, length := 2, stride := 1, data := [10, 20] } 1 [0] =
        some ({ capacity := 2, length := 1, stride := 1, data := [10, 20] }, [20]) ∧
      (((_darray_create 4 1).bind fun d => push_all d [[10], [20], [30]]).bind fun d =>
        _darray_pop_at d 0 [0]).map (fun r => (r.1.elems, r.2)) =
        some ([[20], [30]], [10]) := by
  decide

/-- C5 at a failing input: inserting 9 at the last index 2 of `[1, 2, 3]`
(capacity 4, stride 1) skips the shift, overwrites the 3 and gives
`[1, 2, 9, 0]`; the claim asks for `[1, 2, 9, 3]`. At an index before the
last one the shift is done and the result is the insertion. -/
theorem _darray_insert_at_last_overwrites :
    ((_darray_create 4 1).bind fun d => push_all d [[1], [2], [3]]) =
        some { capacity := 4, length := 3, stride := 1, data := [1, 2, 3, 0] } ∧
      (_darray_insert_at { capacity := 4, length := 3, stride := 1, data := [1, 2, 3, 0] } 2 [9]).map
        (fun d => (d.length, d.elems)) = some (4, [[1], [2], [9], [0]]) ∧
      (_darray_insert_at { capacity := 4, length := 3, stride := 1, data := [1, 2, 3, 0] } 1 [9]).map
        (fun d => (d.length, d.elems)) = some (4, [[1], [9], [2], [3]]) := by
  decide

/-- C6: for every container and every index `≥ length`, `_darray_pop_at` returns
the container as it was (same length, capacity, stride and payload) and leaves
the destination as it was. -/
theorem _darray_pop_at_out_of_range (d : DArray) (index : Nat) (dest : List Byte)
    (h : d.length ≤ index) : _darray_pop_at d index dest = some (d, dest) := by
  unfold _darray_pop_at
  dsimp only
  rw [if_pos h]

/-- Witness of C6: index 3 on a container of length 2. -/
theorem _darray_pop_at_out_of_range_witness :
    _darray_pop_at { capacity := 2, length := 2, stride := 1, data := [10, 20] } 3 [0] =
      some ({ capacity := 2, length := 2, stride := 1, data := [10, 20] }, [0]) :=
  _darray_pop_at_out_of_range { capacity := 2, length := 2, stride := 1, data := [10, 20] } 3 [0]
    (by decide)

/-- C7: for every container, every value and every index `≥ length` (also
`index == length`, also on an empty container, also when `length == capacity`),
`_darray_insert_at` returns the container as it was: no growth, same length,
capacity and payload. -/
theorem _darray_insert_at_out_of_range (d : DArray) (index : Nat) (v : List Byte)
    (h : d.length ≤ index) : _darray_insert_at d index v = some d := by
  unfold _darray_insert_at
  dsimp only
  rw [if_pos h]

/-- Witness of C7: `index == length` on a full container. -/
theorem _darray_insert_at_out_of_range_witness :
    _darray_insert_at { capacity := 2, length := 2, stride := 1, data := [10, 20] } 2 [9] =
      some { capacity := 2, length := 2, stride := 1, data := [10, 20] } :=
  _darray_insert_at_out_of_range { capacity := 2, length := 2, stride := 1, data := [10, 20] } 2 [9]
    (by decide)

/-! ## `_darray_pop_at` where the copy stays inside the block -/

/-- Byte `k` of a block after a copy of `n` bytes of `src` from `soff` to `doff`. -/
theorem getElem?_copy (m src : List Byte) (doff soff n k : Nat) (hs : soff + n ≤ src.length)
    (hd : doff + n ≤ m.length) :
    (m.take doff ++ (src.drop soff).take n ++ m.drop (doff + n))[k]? =
      if k < doff then m[k]? else if k < doff + n then src[soff + (k - doff)]? else m[k]? := by
  have hlen : ((src.drop soff).take n).length = n := by
    rw [List.length_take, List.length_drop]
    omega
  have h := getElem?_store m ((src.drop soff).take n) doff k (by omega)
  rw [hlen] at h
  rw [h]
  by_cases h1 : k < doff
  · rw [if_pos h1, if_pos h1]
  · rw [if_neg h1, if_neg h1]
    by_cases h2 : k < doff + n
    · rw [if_pos h2, if_pos h2, getElem?_slice, if_pos (by omega)]
    · rw [if_neg h2, if_neg h2]

theorem getElem?_map_range {α : Type} (f : Nat → α) (n j : Nat) :
    ((List.range n).map f)[j]? = if j < n then some (f j) else none := by
  rw [List.getElem?_map]
  by_cases h : j < n
  · rw [List.getElem?_range h, if_pos h]
    rfl
  · rw [List.getElem?_eq_none (by rw [List.length_range]; omega), if_neg h]
    rfl

/-- After the gap-closing copy of `_darray_pop_at` the elements before the index
are as before and every element from the index on is the old next one. -/
theorem slot_shift_down (m : List Byte) (s i L j : Nat) (h : (L + 1) * s ≤ m.length)
    (hiL : i < L) (hjL : j < L) :
    slot (m.take (i * s) ++ (m.drop ((i + 1) * s)).take (s * (L - i)) ++
        m.drop (i * s + s * (L - i))) s j =
      if j < i then slot m s j else slot m s (j + 1) := by
  have hn : s * (L - i) = L * s - i * s := by
    rw [Nat.mul_comm, Nat.sub_mul]
  have hi1 : (i + 1) * s = i * s + s := Nat.succ_mul _ _
  have hj1 : (j + 1) * s = j * s + s := Nat.succ_mul _ _
  have hL1 : (L + 1) * s = L * s + s := Nat.succ_mul _ _
  have hiLs : (i + 1) * s ≤ L * s := Nat.mul_le_mul_right _ hiL
  have hjLs : (j + 1) * s ≤ L * s := Nat.mul_le_mul_right _ hjL
  unfold slot
  apply List.ext_getElem?
  intro k
  rw [getElem?_slice, getElem?_copy m m (i * s) ((i + 1) * s) (s * (L - i)) (j * s + k)
    (by omega) (by omega)]
  by_cases hk : k < s
  · rw [if_pos hk]
    by_cases hji : j < i
    · have hjis : (j + 1) * s ≤ i * s := Nat.mul_le_mul_right _ hji
      rw [if_pos hji, if_pos (by omega), getElem?_slice, if_pos hk]
    · have hijs : i * s ≤ j * s := Nat.mul_le_mul_right _ (by omega)
      rw [if_neg hji, if_neg (by omega), if_pos (by omega), getElem?_slice, if_pos hk]
      congr 1
      omega
  · rw [if_neg hk]
    by_cases hji : j < i
    · rw [if_pos hji, getElem?_slice, if_neg hk]
    · rw [if_neg hji, getElem?_slice, if_neg hk]

/-- `_darray_pop_at` on a well-formed container at a valid index, when the copy
stays inside the block (the index is the last one, or the container has spare
capacity): the element at the index goes to the destination and the sequence
loses it, the later elements moving down by one. -/
theorem _darray_pop_at_spec {d : DArray} {index : Nat} {dest : List Byte} (hwf : d.WF)
    (hi : index < d.length) (hdest : d.stride ≤ dest.length)
    (hin : index = d.length - 1 ∨ d.length < d.capacity) :
    ∃ d1, _darray_pop_at d index dest =
        some (d1, slot d.data d.stride index ++ dest.drop d.stride) ∧
      d1.WF ∧ d1.capacity = d.capacity ∧ d1.stride = d.stride ∧ d1.length = d.length - 1 ∧
      d1.elems = d.elems.eraseIdx index := by
  obtain ⟨hlen, hsize, hcap, hfit⟩ := hwf
  have hsub : u64_sub d.length 1 = d.length - 1 := u64_sub_of_le (by omega) (by omega)
  have hi1 : (index + 1) * d.stride = index * d.stride + d.stride := Nat.succ_mul _ _
  have hiL : (index + 1) * d.stride ≤ d.length * d.stride := Nat.mul_le_mul_right _ hi
  have hLc : d.length * d.stride ≤ d.capacity * d.stride := Nat.mul_le_mul_right _ hlen
  have hread : kcopy_memory dest 0 d.data (u64 (index * d.stride)) d.stride =
      some (slot d.data d.stride index ++ dest.drop d.stride) := by
    rw [u64_of_lt (by omega), kcopy_memory_of_le (by omega) (by omega)]
    simp only [slot, List.take_zero, List.nil_append, Nat.zero_add]
  by_cases hlast : index = d.length - 1
  · refine ⟨{ d with length := d.length - 1 }, ?_, ⟨?_, hsize, hcap, hfit⟩, rfl, rfl, rfl, ?_⟩
    · unfold _darray_pop_at
      dsimp only
      rw [if_neg (show ¬ index ≥ d.length by omega), hread, Option.some_bind, hsub,
        if_neg (show ¬ index ≠ d.length - 1 from fun h => h hlast), Option.some_bind]
    · show d.length - 1 ≤ d.capacity
      omega
    · apply List.ext_getElem?
      intro j
      unfold DArray.elems
      dsimp only
      rw [List.getElem?_eraseIdx, getElem?_map_range, getElem?_map_range, getElem?_map_range]
      by_cases hj : j < d.length - 1
      · rw [if_pos hj, if_pos (by omega), if_pos (by omega)]
      · rw [if_neg hj, if_neg (by omega), if_neg (by omega)]
  · have hroom : d.length < d.capacity := by
      rcases hin with h | h
      · exact absurd h hlast
      · exact h
    have hL1 : (d.length + 1) * d.stride = d.length * d.stride + d.stride := Nat.succ_mul _ _
    have hL1c : (d.length + 1) * d.stride ≤ d.capacity * d.stride :=
      Nat.mul_le_mul_right _ hroom
    have hn : d.stride * (d.length - index) = d.length * d.stride - index * d.stride := by
      rw [Nat.mul_comm, Nat.sub_mul]
    have hsubi : u64_sub d.length index = d.length - index := u64_sub_of_le (by omega) (by omega)
    refine ⟨{ d with
        data := d.data.take (index * d.stride) ++
          (d.data.drop ((index + 1) * d.stride)).take (d.stride * (d.length - index)) ++
          d.data.drop (index * d.stride + d.stride * (d.length - index)),
        length := d.length - 1 }, ?_, ⟨?_, ?_, hcap, hfit⟩, rfl, rfl, rfl, ?_⟩
    · unfold _darray_pop_at
      dsimp only
      rw [if_neg (show ¬ index ≥ d.length by omega), hread, Option.some_bind, hsub,
        if_pos hlast, hsubi, u64_of_lt (show index * d.stride < 2 ^ 64 by omega),
        u64_of_lt (show index + 1 < 2 ^ 64 by omega),
        u64_of_lt (show (index + 1) * d.stride < 2 ^ 64 by omega),
        u64_of_lt (show d.stride * (d.length - index) < 2 ^ 64 by omega),
        kcopy_memory_of_le (by omega) (by omega), Option.some_bind]
    · show d.length - 1 ≤ d.capacity
      omega
    · simp only [List.length_append, List.length_take, List.length_drop]
      omega
    · apply List.ext_getElem?
      intro j
      unfold DArray.elems
      dsimp only
      rw [List.getElem?_eraseIdx, getElem?_map_range, getElem?_map_range, getElem?_map_range]
      by_cases hj : j < d.length - 1
      · rw [if_pos hj, if_pos (show j < d.length by omega), if_pos (show j + 1 < d.length by omega),
          slot_shift_down d.data d.stride index d.length j (by omega) hi (by omega)]
        by_cases hji : j < index
        · rw [if_pos hji, if_pos hji]
        · rw [if_neg hji, if_neg hji]
      · rw [if_neg hj, if_neg (show ¬ j + 1 < d.length by omega)]
        by_cases hji : j < index
        · omega
        · rw [if_neg hji]

/-! ## `_darray_insert_at` before the last index -/

/-- After the gap-opening copy of `_darray_insert_at` the elements up to the
index are as before and every later element is the old previous one. -/
theorem slot_shift_up (m : List Byte) (s i L j : Nat) (h : (L + 1) * s ≤ m.length)
    (hiL : i < L) (hjL : j ≤ L) :
    slot (m.take ((i + 1) * s) ++ (m.drop (i * s)).take (s * (L - i)) ++
        m.drop ((i + 1) * s + s * (L - i))) s j =
      if j ≤ i then slot m s j else slot m s (j - 1) := by
  have hn : s * (L - i) = L * s - i * s := by
    rw [Nat.mul_comm, Nat.sub_mul]
  have hi1 : (i + 1) * s = i * s + s := Nat.succ_mul _ _
  have hj1 : (j + 1) * s = j * s + s := Nat.succ_mul _ _
  have hL1 : (L + 1) * s = L * s + s := Nat.succ_mul _ _
  have hiLs : (i + 1) * s ≤ L * s := Nat.mul_le_mul_right _ hiL
  have hjLs : j * s ≤ L * s := Nat.mul_le_mul_right _ hjL
  unfold slot
  apply List.ext_getElem?
  intro k
  rw [getElem?_slice, getElem?_copy m m ((i + 1) * s) (i * s) (s * (L - i)) (j * s + k)
    (by omega) (by omega)]
  by_cases hk : k < s
  · rw [if_pos hk]
    by_cases hji : j ≤ i
    · have hjis : (j + 1) * s ≤ (i + 1) * s := Nat.mul_le_mul_right _ (by omega)
      rw [if_pos hji, if_pos (by omega), getElem?_slice, if_pos hk]
    · have hijs : (i + 1) * s ≤ j * s := Nat.mul_le_mul_right _ (by omega)
      have hjm : (j - 1 + 1) * s = (j - 1) * s + s := Nat.succ_mul _ _
      have hjm1 : j - 1 + 1 = j := by omega
      rw [hjm1] at hjm
      rw [if_neg hji, if_neg (by omega), if_pos (by omega), getElem?_slice, if_pos hk]
      congr 1
      omega
  · rw [if_neg hk]
    by_cases hji : j ≤ i
    · rw [if_pos hji, getElem?_slice, if_neg hk]
    · rw [if_neg hji, getElem?_slice, if_neg hk]

/-- `_darray_insert_at` on a well-formed container that has room or can grow, at
an index before the last one: the value is inserted at the index and the
elements from the index on move up by one. -/
theorem _darray_insert_at_spec {d : DArray} {index : Nat} {v : List Byte} (hwf : d.WF)
    (hi : index + 1 < d.length) (hv : v.length = d.stride)
    (hroom : d.length < d.capacity ∨ d.growable) :
    ∃ d1, _darray_insert_at d index v = some d1 ∧ d1.WF ∧ d1.stride = d.stride ∧
      d1.length = d.length + 1 ∧
      d1.elems = d.elems.take index ++ v :: d.elems.drop index := by
  have hwf0 := hwf
  obtain ⟨hlen, hsize, hcap, hfit⟩ := hwf
  have hsubi : u64_sub d.length index = d.length - index := u64_sub_of_le (by omega) (by omega)
  have hsub1 : u64_sub d.length 1 = d.length - 1 := u64_sub_of_le (by omega) (by omega)
  have hi1 : (index + 1) * d.stride = index * d.stride + d.stride := Nat.succ_mul _ _
  have hL1 : (d.length + 1) * d.stride = d.length * d.stride + d.stride := Nat.succ_mul _ _
  have hiL : (index + 1) * d.stride ≤ d.length * d.stride := Nat.mul_le_mul_right _ (by omega)
  have hn : d.stride * (d.length - index) = d.length * d.stride - index * d.stride := by
    rw [Nat.mul_comm, Nat.sub_mul]
  -- the container the stores go to: the old one, or the grown one
  have harr : ∃ a : DArray,
      (if d.length ≥ d.capacity then _darray_resize d else some d) = some a ∧
      a.stride = d.stride ∧ d.length + 1 ≤ a.capacity ∧ a.capacity < 2 ^ 64 ∧
      24 + a.capacity * a.stride < 2 ^ 64 ∧ a.data.length = a.capacity * a.stride ∧
      ∀ j, j < d.length → slot a.data d.stride j = slot d.data d.stride j := by
    by_cases hlt : d.length < d.capacity
    · exact ⟨d, by rw [if_neg (by omega)], rfl, hlt, hcap, hfit, hsize, fun _ _ => rfl⟩
    · have hg : d.growable := by
        rcases hroom with h | h
        · exact absurd h hlt
        · exact h
      obtain ⟨data, hres, hdlen, hslots⟩ := _darray_resize_spec hwf0 hg
      obtain ⟨hpos, h2cap, h2fit⟩ := hg
      exact ⟨⟨2 * d.capacity, d.length, d.stride, data⟩, by rw [if_pos (by omega), hres], rfl,
        by show d.length + 1 ≤ 2 * d.capacity; omega, h2cap, h2fit, hdlen, hslots⟩
  obtain ⟨a, ha, has, hacap, hacap64, hafit, hasize, haslots⟩ := harr
  rw [has] at hafit hasize
  have hLa : (d.length + 1) * d.stride ≤ a.capacity * d.stride := Nat.mul_le_mul_right _ hacap
  obtain ⟨data1, hdata1⟩ : ∃ data1 : List Byte,
      data1 = a.data.take ((index + 1) * d.stride) ++
        (a.data.drop (index * d.stride)).take (d.stride * (d.length - index)) ++
        a.data.drop ((index + 1) * d.stride + d.stride * (d.length - index)) := ⟨_, rfl⟩
  have hlen1 : data1.length = a.data.length := by
    rw [hdata1]
    simp only [List.length_append, List.length_take, List.length_drop]
    omega
  have hshift : kcopy_memory a.data (u64 (u64 (index + 1) * d.stride)) a.data
      (u64 (index * d.stride)) (u64 (d.stride * u64_sub d.length index)) = some data1 := by
    rw [hsubi, u64_of_lt (show index + 1 < 2 ^ 64 by omega),
      u64_of_lt (show (index + 1) * d.stride < 2 ^ 64 by omega),
      u64_of_lt (show index * d.stride < 2 ^ 64 by omega),
      u64_of_lt (show d.stride * (d.length - index) < 2 ^ 64 by omega),
      kcopy_memory_of_le (by omega) (by omega), hdata1]
  have hin : index * d.stride + d.stride ≤ data1.length := by omega
  refine ⟨⟨a.capacity, d.length + 1, a.stride, data1.take (index * d.stride) ++ v ++
      data1.drop (index * d.stride + v.length)⟩, ?_, ⟨hacap, ?_, hacap64, ?_⟩, has, rfl, ?_⟩
  · unfold _darray_insert_at
    dsimp only
    rw [if_neg (show ¬ index ≥ d.length by omega), ha, Option.some_bind, hsub1,
      if_pos (show index ≠ d.length - 1 by omega), hshift, Option.some_bind,
      kcopy_memory_elem hv hin (by omega), Option.some_bind,
      u64_of_lt (show d.length + 1 < 2 ^ 64 by omega)]
  · show (data1.take (index * d.stride) ++ v ++ data1.drop (index * d.stride + v.length)).length =
      a.capacity * a.stride
    simp only [List.length_append, List.length_take, List.length_drop]
    rw [has]
    omega
  · show 24 + a.capacity * a.stride < 2 ^ 64
    rw [has]
    exact hafit
  · apply List.ext_getElem?
    intro j
    have helen : d.elems.length = d.length := by
      unfold DArray.elems
      rw [List.length_map, List.length_range]
    have htake : (d.elems.take index).length = index := by
      rw [List.length_take, helen]
      omega
    have hgetd : ∀ k, d.elems[k]? = if k < d.length then some (slot d.data d.stride k) else none :=
      fun k => getElem?_map_range _ _ _
    have hgeta : ∀ k, k ≤ d.length →
        slot data1 d.stride k =
          if k ≤ index then slot a.data d.stride k else slot a.data d.stride (k - 1) := by
      intro k hk
      rw [hdata1]
      exact slot_shift_up a.data d.stride index d.length k (by omega) (by omega) hk
    have hlhs : (DArray.mk a.capacity (d.length + 1) a.stride (data1.take (index * d.stride) ++ v ++
        data1.drop (index * d.stride + v.length))).elems[j]? =
        if j < d.length + 1 then
          some (slot (data1.take (index * d.stride) ++ v ++
            data1.drop (index * d.stride + v.length)) d.stride j)
        else none := by
      unfold DArray.elems
      dsimp only
      rw [has]
      exact getElem?_map_range _ _ _
    rw [hlhs]
    by_cases hj : j < index
    · rw [if_pos (by omega), slot_store_ne data1 v d.stride j index hv hin (by omega),
        hgeta j (by omega), if_pos (by omega), haslots j (by omega),
        List.getElem?_append_left (by omega), List.getElem?_take_of_lt hj, hgetd,
        if_pos (by omega)]
    · rw [List.getElem?_append_right (by omega), htake]
      by_cases hje : j = index
      · rw [hje, if_pos (by omega), slot_store_same data1 v d.stride index hv hin,
          Nat.sub_self, List.getElem?_cons_zero]
      · obtain ⟨k, hk⟩ : ∃ k, j - index = k + 1 := ⟨j - index - 1, by omega⟩
        have hk1 : index + k = j - 1 := by omega
        rw [hk, List.getElem?_cons_succ, List.getElem?_drop, hk1, hgetd]
        by_cases hjL : j < d.length + 1
        · rw [if_pos hjL, if_pos (show j - 1 < d.length by omega),
            slot_store_ne data1 v d.stride j index hv hin hje, hgeta j (by omega),
            if_neg (show ¬ j ≤ index by omega), haslots (j - 1) (by omega)]
        · rw [if_neg hjL, if_neg (show ¬ j - 1 < d.length by omega)]

/-! ## Header fields after each operation -/

theorem _darray_create_fields {C stride : Nat} {d : DArray} (h : _darray_create C stride = some d) :
    d.capacity = C ∧ d.length = 0 ∧ d.stride = stride := by
  unfold _darray_create at h
  dsimp only at h
  split at h
  · simp at h
  · simp only [Option.some.injEq] at h
    rw [← h]
    exact ⟨rfl, rfl, rfl⟩

theorem _darray_resize_capacity {d a : DArray} (h : _darray_resize d = some a) :
    a.capacity = u64 (2 * d.capacity) := by
  unfold _darray_resize at h
  dsimp only at h
  obtain ⟨tmp, hc, h⟩ := Option.bind_eq_some.mp h
  obtain ⟨data, _, h⟩ := Option.bind_eq_some.mp h
  simp only [Option.some.injEq] at h
  rw [← h]
  exact (_darray_create_fields hc).1

theorem _darray_push_fields {d d1 : DArray} {v : List Byte} (h : _darray_push d v = some d1) :
    d1.stride = d.stride ∧ d1.length = u64 (d.length + 1) ∧
      d1.capacity = if d.length ≥ d.capacity then u64 (2 * d.capacity) else d.capacity := by
  unfold _darray_push at h
  dsimp only at h
  obtain ⟨a, ha, h⟩ := Option.bind_eq_some.mp h
  obtain ⟨data, _, h⟩ := Option.bind_eq_some.mp h
  simp only [Option.some.injEq] at h
  rw [← h]
  dsimp only
  split at ha
  · rename_i hfull
    rw [if_pos hfull]
    exact ⟨(_darray_resize_fields ha).1, rfl, _darray_resize_capacity ha⟩
  · rename_i hroom
    simp only [Option.some.injEq] at ha
    rw [← ha, if_neg hroom]
    exact ⟨rfl, rfl, rfl⟩

theorem _darray_pop_fields {d d1 : DArray} {dest dest1 : List Byte}
    (h : _darray_pop d dest = some (d1, dest1)) :
    d1.stride = d.stride ∧ d1.length = u64_sub d.length 1 ∧ d1.capacity = d.capacity := by
  unfold _darray_pop at h
  dsimp only at h
  obtain ⟨out, _, h⟩ := Option.bind_eq_some.mp h
  simp only [Option.some.injEq, Prod.mk.injEq] at h
  rw [← h.1]
  exact ⟨rfl, rfl, rfl⟩

theorem _darray_pop_at_fields {d d1 : DArray} {index : Nat} {dest dest1 : List Byte}
    (h : _darray_pop_at d index dest = some (d1, dest1)) :
    d1.stride = d.stride ∧ d1.capacity = d.capacity ∧
      d1.length = if index ≥ d.length then d.length else u64_sub d.length 1 := by
  unfold _darray_pop_at at h
  dsimp only at h
  split at h
  · rename_i hge
    simp only [Option.some.injEq, Prod.mk.injEq] at h
    rw [← h.1, if_pos hge]
    exact ⟨rfl, rfl, rfl⟩
  · rename_i hlt
    obtain ⟨out, _, h⟩ := Option.bind_eq_some.mp h
    obtain ⟨data, _, h⟩ := Option.bind_eq_some.mp h
    simp only [Option.some.injEq, Prod.mk.injEq] at h
    rw [← h.1, if_neg hlt]
    exact ⟨rfl, rfl, rfl⟩

theorem _darray_insert_at_fields {d d1 : DArray} {index : Nat} {v : List Byte}
    (h : _darray_insert_at d index v = some d1) :
    d1.stride = d.stride ∧
      (d1.length = if index ≥ d.length then d.length else u64 (d.length + 1)) ∧
      d1.capacity = if index < d.length ∧ d.length ≥ d.capacity then u64 (2 * d.capacity)
        else d.capacity := by
  unfold _darray_insert_at at h
  dsimp only at h
  split at h
  · rename_i hge
    simp only [Option.some.injEq] at h
    rw [← h, if_pos hge, if_neg (by omega)]
    exact ⟨rfl, rfl, rfl⟩
  · rename_i hlt
    obtain ⟨a, ha, h⟩ := Option.bind_eq_some.mp h
    obtain ⟨data, _, h⟩ := Option.bind_eq_some.mp h
    obtain ⟨data1, _, h⟩ := Option.bind_eq_some.mp h
    simp only [Option.some.injEq] at h
    rw [← h, if_neg hlt]
    dsimp only
    split at ha
    · rename_i hfull
      rw [if_pos ⟨by omega, hfull⟩]
      exact ⟨(_darray_resize_fields ha).1, rfl, _darray_resize_capacity ha⟩
    · rename_i hroom
      simp only [Option.some.injEq] at ha
      rw [← ha, if_neg (fun hh => hroom hh.2)]
      exact ⟨rfl, rfl, rfl⟩

/-- The invariant carried along every guarded call sequence. -/
theorem reachable_no_wrap_inv {C stride : Nat} (hC : 1 ≤ C) {d : DArray}
    (h : Reachable no_wrap C stride d) :
    d.length ≤ d.capacity ∧ d.stride = stride ∧ 1 ≤ d.capacity := by
  induction h with
  | create hc =>
    obtain ⟨h1, h2, h3⟩ := _darray_create_fields hc
    omega
  | push _ hg hp ih =>
    obtain ⟨h1, h2, h3⟩ := _darray_push_fields hp
    obtain ⟨i1, i2, i3⟩ := ih
    unfold no_wrap at hg
    unfold u64 at h2 h3
    refine ⟨?_, h1.trans i2, ?_⟩ <;> split at h3 <;> omega
  | pop _ hpos hp ih =>
    obtain ⟨h1, h2, h3⟩ := _darray_pop_fields hp
    obtain ⟨i1, i2, i3⟩ := ih
    unfold u64_sub at h2
    refine ⟨?_, h1.trans i2, ?_⟩ <;> omega
  | pop_at _ hp ih =>
    obtain ⟨h1, h2, h3⟩ := _darray_pop_at_fields hp
    obtain ⟨i1, i2, i3⟩ := ih
    unfold u64_sub at h3
    refine ⟨?_, h1.trans i2, ?_⟩ <;> split at h3 <;> omega
  | insert_at _ hg hp ih =>
    obtain ⟨h1, h2, h3⟩ := _darray_insert_at_fields hp
    obtain ⟨i1, i2, i3⟩ := ih
    unfold no_wrap at hg
    unfold u64 at h2 h3
    refine ⟨?_, h1.trans i2, ?_⟩ <;> split at h2 <;> split at h3 <;> omega

/-- C8, as stated, fails for initial capacity 0: `_darray_create(0, 0)` followed
by one push of a zero-size value touches no byte and returns a container of
length 1 and capacity 0. -/
theorem reachable_capacity_zero :
    ∃ d, Reachable (fun _ => True) 0 0 d ∧ ¬ d.length ≤ d.capacity := by
  refine ⟨{ capacity := 0, length := 1, stride := 0, data := [] }, ?_, by decide⟩
  exact Reachable.push (d := { capacity := 0, length := 0, stride := 0, data := [] }) (v := [])
    (Reachable.create (by decide)) trivial (by decide)

/-- C8 (amended): for every container reachable from `_darray_create C stride`
with `C ≥ 1` by any sequence of `_darray_push`, `_darray_pop` (only when
`length > 0`), `_darray_pop_at` and `_darray_insert_at` in which no growth
doubles a capacity of `2 ^ 63` or more, `length ≤ capacity` holds and the stride
is the stride given at creation. -/
theorem reachable_length_le_capacity (C stride : Nat) (d : DArray) (hC : 1 ≤ C)
    (h : Reachable no_wrap C stride d) : d.length ≤ d.capacity ∧ d.stride = stride :=
  ⟨(reachable_no_wrap_inv hC h).1, (reachable_no_wrap_inv hC h).2.1⟩

/-- Witness of C8 (amended): the container after `create(1, 1)` and two pushes. -/
theorem reachable_length_le_capacity_witness :
    Reachable no_wrap 1 1 { capacity := 2, length := 2, stride := 1, data := [7, 8] } ∧
      (2 : Nat) ≤ 2 ∧ (1 : Nat) = 1 :=
  have hr : Reachable no_wrap 1 1 { capacity := 2, length := 2, stride := 1, data := [7, 8] } :=
    Reachable.push (d := { capacity := 1, length := 1, stride := 1, data := [7] }) (v := [8])
      (Reachable.push (d := { capacity := 1, length := 0, stride := 1, data := [0] }) (v := [7])
        (Reachable.create (by decide)) (by unfold no_wrap; decide) (by decide))
      (by unfold no_wrap; decide) (by decide)
  ⟨hr, reachable_length_le_capacity 1 1 { capacity := 2, length := 2, stride := 1, data := [7, 8] }
    (by decide) hr⟩

/-! ## Listener records in memory -/

theorem toNat_byte (n : Nat) : (UInt8.ofNat (n % 256)).toNat = n % 256 :=
  UInt8.toNat_ofNat_of_lt (Nat.mod_lt n (by decide))

/-- Reading back the bytes of a 64-bit value gives the value. -/
theorem of_le_le64 {n : Nat} (h : n < 2 ^ 64) : of_le (le64 n) = n := by
  unfold le64
  simp only [of_le, toNat_byte]
  omega

theorem le64_length (n : Nat) : (le64 n).length = 8 := rfl

theorem registered_event.bytes_length (e : registered_event) :
    e.bytes.length = sizeof_registered_event := rfl

/-- Reading back the bytes of a record gives the record. -/
theorem registered_event.of_bytes_bytes (e : registered_event) (hl : e.listener < 2 ^ 64)
    (hc : e.callback < 2 ^ 64) : registered_event.of_bytes e.bytes = e := by
  have h1 : (le64 e.listener ++ le64 e.callback).take 8 = le64 e.listener :=
    List.take_left' (le64_length _)
  have h2 : ((le64 e.listener ++ le64 e.callback).drop 8).take 8 = le64 e.callback := by
    rw [List.drop_left' (le64_length _)]
    exact List.take_of_length_le (by rw [le64_length])
  unfold registered_event.of_bytes registered_event.bytes
  rw [h1, h2, of_le_le64 hl, of_le_le64 hc]

/-- The `listener` field the scan reads at index `i` is the one of element `i`. -/
theorem listener_of_slot (m : List Byte) (i : Nat) :
    of_le ((m.drop (i * sizeof_registered_event)).take 8) =
      (registered_event.of_bytes (slot m sizeof_registered_event i)).listener := by
  unfold registered_event.of_bytes slot sizeof_registered_event
  simp only [List.take_take]
  rfl

/-- The duplicate scan over indices inside the payload finishes and reports
whether one of the visited records has the listener. -/
theorem register_scan_spec (d : DArray) (listener : Nat) :
    ∀ idxs : List Nat, (∀ i ∈ idxs, (i + 1) * sizeof_registered_event ≤ d.data.length) →
      register_scan d listener idxs = some (idxs.any fun i =>
        decide ((registered_event.of_bytes (slot d.data sizeof_registered_event i)).listener =
          listener)) := by
  intro idxs
  induction idxs with
  | nil => intro _; rfl
  | cons i rest ih =>
    intro hin
    have hi := hin i (List.mem_cons_self _ _)
    have h16 : (i + 1) * sizeof_registered_event = i * sizeof_registered_event + 16 :=
      Nat.succ_mul _ _
    unfold register_scan
    rw [read_bytes_of_le (by omega), Option.some_bind, listener_of_slot,
      ih (fun j hj => hin j (List.mem_cons_of_mem _ hj)), List.any_cons]
    by_cases heq : (registered_event.of_bytes (slot d.data sizeof_registered_event i)).listener =
        listener
    · simp [heq]
    · simp [heq]

/-! ## `event_register` -/

/-- `event_register` on an occupied slot of an initialised registry: the scan
decides between the duplicate answer and the push. -/
theorem event_register_occupied (K : Nat) {s : event_system_state} {code : Nat} {d : DArray}
    (listener on_event : Nat) (hinit : s.is_initialized = true) (hcode : code < MAX_MESSAGE_CODES)
    (hslot : s.registered code = some d) :
    event_register K s code listener on_event =
      (register_scan d listener (List.range d.length)).bind fun dup =>
        if dup then some (false, s)
        else (_darray_push d
            (registered_event.bytes { listener := listener, callback := on_event })).map
          fun events1 => (true, s.set_events code (some events1)) := by
  unfold event_register darray_push
  rw [hinit, hslot]
  simp only [Bool.not_true, Bool.false_eq_true, if_false, if_neg (Nat.not_le.mpr hcode),
    Option.some_bind]

/-- `event_register` on an empty slot of an initialised registry: the slot gets
a new container first. -/
theorem event_register_empty (K : Nat) {s : event_system_state} {code : Nat} {d0 : DArray}
    (listener on_event : Nat) (hinit : s.is_initialized = true) (hcode : code < MAX_MESSAGE_CODES)
    (hslot : s.registered code = none)
    (hcreate : _darray_create K sizeof_registered_event = some d0) :
    event_register K s code listener on_event =
      (register_scan d0 listener (List.range d0.length)).bind fun dup =>
        if dup then some (false, s.set_events code (some d0))
        else (_darray_push d0
            (registered_event.bytes { listener := listener, callback := on_event })).map
          fun events1 => (true, (s.set_events code (some d0)).set_events code (some events1)) := by
  unfold event_register darray_push darray_create
  rw [hinit, hslot, hcreate]
  simp only [Bool.not_true, Bool.false_eq_true, if_false, if_neg (Nat.not_le.mpr hcode),
    Option.map_some', Option.some_bind]

/-- The indices of the live records lie inside the payload. -/
theorem live_index_in_payload {d : DArray} (hwf : d.WF) (hs : d.stride = sizeof_registered_event) :
    ∀ i ∈ List.range d.length, (i + 1) * sizeof_registered_event ≤ d.data.length := by
  intro i hi
  obtain ⟨hlen, hsize, _, _⟩ := hwf
  have hi1 : i + 1 ≤ d.capacity := by
    have := List.mem_range.mp hi
    omega
  rw [hsize, hs]
  exact Nat.mul_le_mul_right _ hi1

/-- The scan of a well-formed container of records answers whether a live
record has the listener. -/
theorem register_scan_live {d : DArray} (hwf : d.WF) (hs : d.stride = sizeof_registered_event)
    (listener : Nat) :
    register_scan d listener (List.range d.length) =
      some ((d.elems.map registered_event.of_bytes).any fun e => decide (e.listener = listener)) := by
  rw [register_scan_spec d listener _ (live_index_in_payload hwf hs)]
  unfold DArray.elems
  rw [hs, List.map_map]
  congr 1
  induction List.range d.length with
  | nil => rfl
  | cons i rest ih => simp only [List.any_cons, List.map_cons, Function.comp_apply, ih]

theorem listeners_set_events (s : event_system_state) (code : Nat) (d : DArray) :
    (s.set_events code (some d)).listeners code = d.elems.map registered_event.of_bytes := by
  unfold event_system_state.listeners event_system_state.set_events
  simp only [if_true]

/-- The part of `event_register` after the slot is known, when a live record has
the listener: the answer is FALSE and the registry stays as it is. -/
theorem register_tail_duplicate {s1 : event_system_state} {code : Nat} {d : DArray} (hwf : d.WF)
    (hs : d.stride = sizeof_registered_event) (listener on_event : Nat)
    (hdup : ∃ e ∈ d.elems.map registered_event.of_bytes, e.listener = listener) :
    ((register_scan d listener (List.range d.length)).bind fun dup =>
        if dup then some (false, s1)
        else (_darray_push d
            (registered_event.bytes { listener := listener, callback := on_event })).map
          fun events1 => (true, s1.set_events code (some events1))) = some (false, s1) := by
  have hany : ((d.elems.map registered_event.of_bytes).any fun e =>
      decide (e.listener = listener)) = true := by
    obtain ⟨e, he, hl⟩ := hdup
    exact List.any_eq_true.mpr ⟨e, he, by simp [hl]⟩
  rw [register_scan_live hwf hs, hany, Option.some_bind, if_pos rfl]

/-- The part of `event_register` after the slot is known, when no live record
has the listener and the container can take the record: the answer is TRUE and
the record is appended. -/
theorem register_tail_append (s1 : event_system_state) (code : Nat) {d : DArray} (hwf : d.WF)
    (hs : d.stride = sizeof_registered_event) (hroom : d.length < d.capacity ∨ d.growable)
    {listener : Nat} (on_event : Nat) (hl : listener < 2 ^ 64) (hc : on_event < 2 ^ 64)
    (hnew : ∀ e ∈ d.elems.map registered_event.of_bytes, e.listener ≠ listener) :
    ∃ d1, ((register_scan d listener (List.range d.length)).bind fun dup =>
        if dup then some (false, s1)
        else (_darray_push d
            (registered_event.bytes { listener := listener, callback := on_event })).map
          fun events1 => (true, s1.set_events code (some events1))) =
        some (true, s1.set_events code (some d1)) ∧
      d1.WF ∧ d1.stride = sizeof_registered_event ∧
      d1.elems.map registered_event.of_bytes =
        d.elems.map registered_event.of_bytes ++ [{ listener := listener, callback := on_event }] := by
  have hany : ((d.elems.map registered_event.of_bytes).any fun e =>
      decide (e.listener = listener)) = false := by
    rw [List.any_eq_false]
    intro e he
    simpa using hnew e he
  obtain ⟨d1, hpush, hwf1, hs1, hl1, _, hold, hnew1⟩ :=
    _darray_push_spec (v := registered_event.bytes { listener := listener, callback := on_event })
      hwf (by rw [hs]; rfl) hroom
  refine ⟨d1, ?_, hwf1, hs1.trans hs, ?_⟩
  · rw [register_scan_live hwf hs, hany, Option.some_bind, if_neg (by simp), hpush,
      Option.map_some']
  · rw [elems_of_push hs1 hl1 hold hnew1, List.map_append, List.map_singleton,
      registered_event.of_bytes_bytes _ hl hc]

/-- `event_register` when a record of the code has the listener identity: FALSE,
registry unchanged. -/
theorem event_register_identity_present (K : Nat) {s : event_system_state} {code : Nat}
    (listener on_event : Nat) (hinit : s.is_initialized = true) (hcode : code < MAX_MESSAGE_CODES)
    (hwf : ∀ d, s.registered code = some d → d.WF ∧ d.stride = sizeof_registered_event)
    (hdup : ∃ e ∈ s.listeners code, e.listener = listener) :
    event_register K s code listener on_event = some (false, s) := by
  cases hslot : s.registered code with
  | none =>
    obtain ⟨e, he, _⟩ := hdup
    unfold event_system_state.listeners at he
    rw [hslot] at he
    simp at he
  | some d =>
    obtain ⟨hwfd, hs⟩ := hwf d hslot
    rw [event_register_occupied K listener on_event hinit hcode hslot]
    apply register_tail_duplicate hwfd hs
    unfold event_system_state.listeners at hdup
    rw [hslot] at hdup
    exact hdup

/-- `event_register` when no record of the code has the listener identity and
the slot can take one more record: TRUE, the record is appended, the other
slots and the flag stay. -/
theorem event_register_identity_absent (K : Nat) {s : event_system_state} {code : Nat}
    {listener on_event : Nat} (hinit : s.is_initialized = true) (hcode : code < MAX_MESSAGE_CODES)
    (hl : listener < 2 ^ 64) (hc : on_event < 2 ^ 64) (hready : slot_ready K (s.registered code))
    (hnew : ∀ e ∈ s.listeners code, e.listener ≠ listener) :
    ∃ s1 d1, event_register K s code listener on_event = some (true, s1) ∧
      s1.is_initialized = true ∧ s1.registered code = some d1 ∧ d1.WF ∧
      d1.stride = sizeof_registered_event ∧
      (∀ c, c ≠ code → s1.registered c = s.registered c) ∧
      s1.listeners code = s.listeners code ++ [{ listener := listener, callback := on_event }] := by
  cases hslot : s.registered code with
  | none =>
    rw [hslot] at hready
    obtain ⟨hK1, hK64, hKfit⟩ := hready
    have hcreate := _darray_create_of_fits hKfit
    have hwf0 := _darray_create_WF hK64 hKfit
    obtain ⟨d0, hd0⟩ : ∃ d0 : DArray,
        d0 = ⟨K, 0, sizeof_registered_event, List.replicate (K * sizeof_registered_event) 0⟩ :=
      ⟨_, rfl⟩
    rw [← hd0] at hcreate hwf0
    have hs0 : d0.stride = sizeof_registered_event := by rw [hd0]
    have hroom0 : d0.length < d0.capacity := by
      rw [hd0]
      exact hK1
    have he0 : d0.elems = [] := by
      rw [hd0]
      rfl
    obtain ⟨d1, hreg, hwf1, hs1, he1⟩ :=
      register_tail_append (s.set_events code (some d0)) code hwf0 hs0 (Or.inl hroom0)
        on_event hl hc
        (by intro e he; rw [he0] at he; simp at he)
    refine ⟨(s.set_events code (some d0)).set_events code (some d1), d1, ?_, ?_, ?_, hwf1, hs1,
      ?_, ?_⟩
    · rw [event_register_empty K listener on_event hinit hcode hslot hcreate]
      exact hreg
    · exact hinit
    · simp [event_system_state.set_events]
    · intro c hne
      simp [event_system_state.set_events, hne]
    · rw [listeners_set_events, he1, he0]
      simp [event_system_state.listeners, hslot]
  | some d =>
    rw [hslot] at hready
    obtain ⟨hwfd, hs, hroom⟩ := hready
    have hnew1 : ∀ e ∈ d.elems.map registered_event.of_bytes, e.listener ≠ listener := by
      unfold event_system_state.listeners at hnew
      rw [hslot] at hnew
      exact hnew
    obtain ⟨d1, hreg, hwf1, hs1, he1⟩ :=
      register_tail_append s code hwfd hs hroom on_event hl hc hnew1
    refine ⟨s.set_events code (some d1), d1, ?_, ?_, ?_, hwf1, hs1, ?_, ?_⟩
    · rw [event_register_occupied K listener on_event hinit hcode hslot]
      exact hreg
    · exact hinit
    · simp [event_system_state.set_events]
    · intro c hne
      simp [event_system_state.set_events, hne]
    · rw [listeners_set_events, he1]
      simp [event_system_state.listeners, hslot]

/-! ## Claims about `event_register` -/

/-- C9: in an initialised registry whose containers are well-formed containers
of records, if the listener sequence of a code holds the pair `(A, X)`, then
`event_register code A X` returns FALSE and leaves the registry as it is; and
when no record of the code has identity `A` yet and the slot can take a record,
two identical calls in a row return TRUE then FALSE, the second one changing
nothing, so that on a code without listeners the listener count stays 1 (shown
also on the freshly initialised registry for code 5). -/
theorem event_register_duplicate :
    (∀ (K : Nat) (s : event_system_state) (code A X : Nat), s.is_initialized = true →
      code < MAX_MESSAGE_CODES →
      (∀ d, s.registered code = some d → d.WF ∧ d.stride = sizeof_registered_event) →
      { listener := A, callback := X } ∈ s.listeners code →
      event_register K s code A X = some (false, s)) ∧
    (∀ (K : Nat) (s : event_system_state) (code A X : Nat), s.is_initialized = true →
      code < MAX_MESSAGE_CODES → A < 2 ^ 64 → X < 2 ^ 64 → slot_ready K (s.registered code) →
      (∀ e ∈ s.listeners code, e.listener ≠ A) →
      ∃ s1, event_register K s code A X = some (true, s1) ∧
        event_register K s1 code A X = some (false, s1) ∧
        s1.listeners code = s.listeners code ++ [{ listener := A, callback := X }] ∧
        (s.listeners code = [] → (s1.listeners code).length = 1)) ∧
    ((event_register 1 ( event_initialize event_system_state.zero).2 5 1000 2000).map
        (fun r => (r.1, (r.2.listeners 5).length)) = some (true, 1) ∧
      ((event_register 1 ( event_initialize event_system_state.zero).2 5 1000 2000).bind
        fun r => event_register 1 r.2 5 1000 2000).map
        (fun r => (r.1, (r.2.listeners 5).length)) = some (false, 1)) := by
  refine ⟨?_, ?_, by decide⟩
  · intro K s code A X hinit hcode hwf hmem
    exact event_register_identity_present K A X hinit hcode hwf ⟨_, hmem, rfl⟩
  · intro K s code A X hinit hcode hA hX hready hnew
    obtain ⟨s1, d1, hreg, hinit1, hslot1, hwf1, hs1, _, hl1⟩ :=
      event_register_identity_absent K hinit hcode hA hX hready hnew
    refine ⟨s1, hreg, ?_, hl1, ?_⟩
    · apply event_register_identity_present K A X hinit1 hcode
      · intro d hd
        rw [hslot1] at hd
        simp only [Option.some.injEq] at hd
        rw [← hd]
        exact ⟨hwf1, hs1⟩
      · exact ⟨{ listener := A, callback := X }, by rw [hl1]; simp, rfl⟩
    · intro hnil
      rw [hl1, hnil]
      rfl

/-- Witness of C9: registering (1, 10) again on code 5 of the example registry. -/
theorem event_register_duplicate_witness :
    event_register 1 example_registry 5 1 10 = some (false, example_registry) :=
  event_register_duplicate.1 1 example_registry 5 1 10 rfl (by decide)
    (by
      intro d hd
      have h : d = ⟨1, 1, 16, registered_event.bytes ⟨1, 10⟩⟩ := by
        simpa [example_registry] using hd.symm
      rw [h]
      decide)
    (by decide)

/-- C10 does not hold of the code: the duplicate scan of `event_register`
compares the listener identity alone, where `event_unregister` compares both
fields. Code 5 of the example registry (the state one `event_register(5, 1, 10)`
gives after initialisation) holds `(1, 10)` only and no record equals `(1, 20)`:
`event_unregister(5, 1, 20)` finds no such pair and returns FALSE, and still
`event_register(5, 1, 20)` returns FALSE and appends nothing, where the claim
has it return TRUE and the sequence become `(1, 10), (1, 20)`. -/
theorem event_register_same_identity_other_callback :
    (event_register 1 ( event_initialize event_system_state.zero).2 5 1 10).map
        (fun r => (r.1, r.2.registered 5)) = some (true, example_registry.registered 5) ∧
      example_registry.listeners 5 = [{ listener := 1, callback := 10 }] ∧
      ({ listener := 1, callback := 20 } : registered_event) ∉ example_registry.listeners 5 ∧
      (event_unregister example_registry 5 1 20).map (fun r => (r.1, r.2.listeners 5)) =
        some (false, [{ listener := 1, callback := 10 }]) ∧
      (event_register 1 example_registry 5 1 20).map (fun r => (r.1, r.2.listeners 5)) =
        some (false, [{ listener := 1, callback := 10 }]) ∧
      (event_register 1 example_registry 5 1 20).map (fun r => (r.1, r.2.listeners 5)) ≠
        some (true, [{ listener := 1, callback := 10 }, { listener := 1, callback := 20 }]) := by
  decide

/-- What `event_register` does, as written: in an initialised registry, for
every code below 16384 whose slot can take one more record, every listener
identity `A` and callback `X`: if no record of the code's listener sequence has
the identity `A` (whatever its callback), `event_register code A X` returns
TRUE and the listener sequence becomes the old one with `(A, X)` appended at
the end, the other slots staying as they were; if some record has the identity
`A`, also with another callback, it returns FALSE and changes nothing. -/
theorem event_register_new_identity (K : Nat) (s : event_system_state) (code A X : Nat)
    (hinit : s.is_initialized = true) (hcode : code < MAX_MESSAGE_CODES) (hA : A < 2 ^ 64)
    (hX : X < 2 ^ 64) (hready : slot_ready K (s.registered code)) :
    ((∀ e ∈ s.listeners code, e.listener ≠ A) →
      ∃ s1, event_register K s code A X = some (true, s1) ∧
        s1.listeners code = s.listeners code ++ [{ listener := A, callback := X }] ∧
        s1.is_initialized = true ∧ ∀ c, c ≠ code → s1.registered c = s.registered c) ∧
    ((∃ e ∈ s.listeners code, e.listener = A) →
      event_register K s code A X = some (false, s)) := by
  constructor
  · intro hnew
    obtain ⟨s1, d1, hreg, hinit1, _, _, _, hother, hl1⟩ :=
      event_register_identity_absent K hinit hcode hA hX hready hnew
    exact ⟨s1, hreg, hl1, hinit1, hother⟩
  · intro hdup
    apply event_register_identity_present K A X hinit hcode _ hdup
    intro d hd
    rw [hd] at hready
    exact ⟨hready.1, hready.2.1⟩

/-- An instance: a second identity on code 5 of the example registry. -/
theorem event_register_new_identity_witness :
    ∃ s1, event_register 1 example_registry 5 2 20 = some (true, s1) ∧
      s1.listeners 5 = example_registry.listeners 5 ++ [{ listener := 2, callback := 20 }] ∧
      s1.is_initialized = true ∧ ∀ c, c ≠ 5 → s1.registered c = example_registry.registered c :=
  (event_register_new_identity 1 example_registry 5 2 20 rfl (by decide) (by decide) (by decide)
    (by
      show slot_ready 1 (some _)
      unfold slot_ready
      decide)).1
    (by decide)

/-! ## Claims about `event_initialize` and the calls before it -/

/-- C13: `event_initialize` on statics not yet initialised returns TRUE, sets
the flag and leaves every slot of the table empty; on initialised statics it
returns FALSE and leaves the statics, hence all registered listeners, as they
were. -/
theorem event_initialize_spec (s : event_system_state) :
    (s.is_initialized = false →
      ( event_initialize s).1 = true ∧ ( event_initialize s).2.is_initialized = true ∧
        ∀ code, ( event_initialize s).2.registered code = none) ∧
    (s.is_initialized = true → event_initialize s = (false, s)) := by
  constructor
  · intro h
    unfold event_initialize
    rw [h]
    exact ⟨rfl, rfl, fun _ => rfl⟩
  · intro h
    unfold event_initialize
    rw [h]
    rfl

/-- Witness of C13: the statics at program start. -/
theorem event_initialize_spec_witness :
    ( event_initialize event_system_state.zero).1 = true ∧
      ( event_initialize event_system_state.zero).2.is_initialized = true ∧
      ∀ code, ( event_initialize event_system_state.zero).2.registered code = none :=
  (event_initialize_spec event_system_state.zero).1 rfl

/-- C14: before `event_initialize` has run, for every code, listener and
callback, `event_register`, `event_unregister` and `event_fire` each return
FALSE and leave the statics as they are (no slot is created), and `event_fire`
calls no callback. -/
theorem uninitialized_calls_fail (K : Nat) (cb : Nat → Nat → Nat → Nat → event_context → Bool)
    (s : event_system_state) (code A X sender : Nat) (context : event_context)
    (h : s.is_initialized = false) :
    event_register K s code A X = some (false, s) ∧
      event_unregister s code A X = some (false, s) ∧
      event_fire cb s code sender context = some (false, []) := by
  unfold event_register event_unregister event_fire
  rw [h]
  exact ⟨rfl, rfl, rfl⟩

/-- Witness of C14: the statics at program start, code 5. -/
theorem uninitialized_calls_fail_witness :
    event_register 1 event_system_state.zero 5 1 10 = some (false, event_system_state.zero) ∧
      event_unregister event_system_state.zero 5 1 10 = some (false, event_system_state.zero) ∧
      event_fire (fun _ _ _ _ _ => true) event_system_state.zero 5 0 ⟨[]⟩ = some (false, []) :=
  uninitialized_calls_fail 1 (fun _ _ _ _ _ => true) event_system_state.zero 5 1 10 0 ⟨[]⟩ rfl

/-! ## `event_shutdown` -/

/-- The loop of `event_shutdown` from counter `i` with `k` slots left and more
fuel than that: it ends, visits the slots `i, i+1, ..` in order and empties
them, leaving the flag and the rest as they were. -/
theorem shutdown_loop_spec :
    ∀ (k i fuel : Nat) (s : event_system_state) (visited : List Nat),
      i + k = MAX_MESSAGE_CODES → k < fuel →
      ∃ s1, shutdown_loop fuel i s visited = some (s1, visited ++ List.range' i k) ∧
        s1.is_initialized = s.is_initialized ∧
        ∀ c, s1.registered c = if i ≤ c ∧ c < MAX_MESSAGE_CODES then none else s.registered c := by
  intro k
  induction k with
  | zero =>
    intro i fuel s visited hi hfuel
    obtain ⟨f, rfl⟩ : ∃ f, fuel = f + 1 := ⟨fuel - 1, by omega⟩
    refine ⟨s, ?_, rfl, ?_⟩
    · unfold shutdown_loop
      rw [if_neg (by omega)]
      simp
    · intro c
      rw [if_neg (by omega)]
  | succ k ih =>
    intro i fuel s visited hi hfuel
    obtain ⟨f, rfl⟩ : ∃ f, fuel = f + 1 := ⟨fuel - 1, by omega⟩
    have hMAX : MAX_MESSAGE_CODES = 16384 := rfl
    have hu : u16 (i + 1) = i + 1 := by
      unfold u16
      omega
    obtain ⟨s1, hloop, hflag, hreg⟩ :=
      ih (i + 1) f (shutdown_slot s i) (visited ++ [i]) (by omega) (by omega)
    have hslot_flag : (shutdown_slot s i).is_initialized = s.is_initialized := by
      unfold shutdown_slot
      cases s.registered i <;> rfl
    have hslot_reg : ∀ c, (shutdown_slot s i).registered c =
        if c = i then none else s.registered c := by
      intro c
      unfold shutdown_slot
      cases hs : s.registered i with
      | none =>
        by_cases hci : c = i
        · rw [if_pos hci, hci, hs]
        · rw [if_neg hci]
      | some d => rfl
    refine ⟨s1, ?_, hflag.trans hslot_flag, ?_⟩
    · rw [shutdown_loop, if_pos (by omega), hu, hloop, List.range'_succ]
      simp
    · intro c
      rw [hreg c, hslot_reg c]
      by_cases hc : i + 1 ≤ c ∧ c < MAX_MESSAGE_CODES
      · rw [if_pos hc, if_pos ⟨by omega, hc.2⟩]
      · rw [if_neg hc]
        by_cases hci : c = i
        · rw [if_pos hci, if_pos ⟨by omega, by omega⟩]
        · rw [if_neg hci, if_neg (by omega)]

/-- On an empty slot `event_unregister` returns FALSE and changes nothing. -/
theorem event_unregister_empty_slot (s : event_system_state) (code A X : Nat)
    (hcode : code < MAX_MESSAGE_CODES) (hslot : s.registered code = none) :
    event_unregister s code A X = some (false, s) := by
  unfold event_unregister
  rw [hslot]
  cases s.is_initialized <;> simp [Nat.not_le.mpr hcode]

/-- On an empty slot `event_fire` returns FALSE and calls nothing. -/
theorem event_fire_empty_slot (cb : Nat → Nat → Nat → Nat → event_context → Bool)
    (s : event_system_state) (code sender : Nat) (context : event_context)
    (hcode : code < MAX_MESSAGE_CODES) (hslot : s.registered code = none) :
    event_fire cb s code sender context = some (false, []) := by
  unfold event_fire
  rw [hslot]
  cases s.is_initialized <;> simp [Nat.not_le.mpr hcode]

/-- C16: `event_shutdown` ends (any fuel above 16384 is enough), its loop visits
each of the `MAX_MESSAGE_CODES` (16384) slots exactly once, in order, and
afterwards every one of these slots is empty, whatever was registered before;
so `event_fire` and `event_unregister` return FALSE for every code below 16384
and no callback is called. -/
theorem event_shutdown_spec (cb : Nat → Nat → Nat → Nat → event_context → Bool)
    (s : event_system_state) (fuel : Nat) (hfuel : MAX_MESSAGE_CODES < fuel) :
    ∃ s1 visited, event_shutdown fuel s = some (s1, visited) ∧
      visited = List.range MAX_MESSAGE_CODES ∧ visited.Nodup ∧
      (∀ i, i ∈ visited ↔ i < MAX_MESSAGE_CODES) ∧
      (∀ code, code < MAX_MESSAGE_CODES → s1.registered code = none) ∧
      ∀ (code A X sender : Nat) (context : event_context), code < MAX_MESSAGE_CODES →
        event_unregister s1 code A X = some (false, s1) ∧
          event_fire cb s1 code sender context = some (false, []) := by
  obtain ⟨s1, hloop, _, hreg⟩ :=
    shutdown_loop_spec MAX_MESSAGE_CODES 0 fuel s [] (Nat.zero_add _) hfuel
  have hempty : ∀ code, code < MAX_MESSAGE_CODES → s1.registered code = none := by
    intro code hcode
    rw [hreg code, if_pos ⟨Nat.zero_le _, hcode⟩]
  refine ⟨s1, List.range MAX_MESSAGE_CODES, ?_, rfl, List.nodup_range _,
    fun i => List.mem_range, hempty, ?_⟩
  · unfold event_shutdown
    rw [hloop, List.nil_append, List.range_eq_range']
  · intro code A X sender context hcode
    exact ⟨event_unregister_empty_slot s1 code A X hcode (hempty code hcode),
      event_fire_empty_slot cb s1 code sender context hcode (hempty code hcode)⟩

/-- Witness of C16: shutdown of the registry with two listeners on code 5. -/
theorem event_shutdown_spec_witness :
    ∃ s1 visited, event_shutdown 16385 example_registry_full = some (s1, visited) ∧
      visited = List.range MAX_MESSAGE_CODES ∧ visited.Nodup ∧
      (∀ i, i ∈ visited ↔ i < MAX_MESSAGE_CODES) ∧
      (∀ code, code < MAX_MESSAGE_CODES → s1.registered code = none) ∧
      ∀ (code A X sender : Nat) (context : event_context), code < MAX_MESSAGE_CODES →
        event_unregister s1 code A X = some (false, s1) ∧
          event_fire (fun _ _ _ _ _ => true) s1 code sender context = some (false, []) :=
  event_shutdown_spec (fun _ _ _ _ _ => true) example_registry_full 16385 (by decide)

/-! ## Runs of calls on the registry -/

/-- A call evaluated to a result with the flag `b` has a result state. -/
theorem result_state {o : Option (Bool × event_system_state)} {b : Bool}
    (h : o.map Prod.fst = some b) : ∃ s1, o = some (b, s1) := by
  cases o with
  | none => cases h
  | some r =>
    obtain ⟨b1, s1⟩ := r
    simp only [Option.map_some', Option.some.injEq] at h
    exact ⟨s1, by rw [h]⟩

/-- A run of calls with pointer arguments from a reachable state ends in a
reachable state. -/
theorem registry_run_reachable (K : Nat) :
    ∀ (calls : List registry_call) (s : event_system_state) (t : List Bool × event_system_state),
      RegistryReachable K s → (∀ c ∈ calls, c.pointers) → registry_run K s calls = some t →
      RegistryReachable K t.2
  | [], s, t, hs, _, h => by
    simp only [registry_run, Option.some.injEq] at h
    rw [← h]
    exact hs
  | .register code A X :: rest, s, t, hs, hp, h => by
    obtain ⟨hA, hX⟩ := hp _ (List.mem_cons_self _ _)
    simp only [registry_run] at h
    obtain ⟨r, hr, hrest⟩ := Option.bind_eq_some.mp h
    obtain ⟨t1, ht1, ht⟩ := Option.map_eq_some'.mp hrest
    rw [← ht]
    exact registry_run_reachable K rest r.2 t1
      (RegistryReachable.register hs hA hX hr) (fun c hc => hp c (List.mem_cons_of_mem _ hc)) ht1
  | .unregister code A X :: rest, s, t, hs, hp, h => by
    obtain ⟨hA, hX⟩ := hp _ (List.mem_cons_self _ _)
    simp only [registry_run] at h
    obtain ⟨r, hr, hrest⟩ := Option.bind_eq_some.mp h
    obtain ⟨t1, ht1, ht⟩ := Option.map_eq_some'.mp hrest
    rw [← ht]
    exact registry_run_reachable K rest r.2 t1
      (RegistryReachable.unregister hs hA hX hr) (fun c hc => hp c (List.mem_cons_of_mem _ hc)) ht1

/-! ## The operations whenever they return -/

theorem DArray.WF.sound {d : DArray} (h : d.WF) : d.sound := by
  obtain ⟨hlen, hsize, _, hfit⟩ := h
  have : d.length * d.stride ≤ d.capacity * d.stride := Nat.mul_le_mul_right _ hlen
  unfold DArray.sound
  omega

/-- The payload of a created container lies in a block of the address space. -/
theorem _darray_create_data {C stride : Nat} {d : DArray} (h : _darray_create C stride = some d) :
    d.data.length < 2 ^ 64 := by
  unfold _darray_create kallocate_zeroed at h
  dsimp only at h
  split at h
  · simp at h
  · simp only [Option.some.injEq] at h
    rw [← h]
    simp only [List.length_drop, List.length_replicate]
    unfold u64
    omega

/-- A growth that returns keeps stride, length and the live elements. -/
theorem _darray_resize_some {d a : DArray} (hs : d.sound) (h : _darray_resize d = some a) :
    a.stride = d.stride ∧ a.length = d.length ∧ a.sound ∧
      ∀ j, j < d.length → slot a.data d.stride j = slot d.data d.stride j := by
  obtain ⟨hfs, hfl⟩ := _darray_resize_fields h
  obtain ⟨hin, h64⟩ := hs
  unfold _darray_resize at h
  dsimp only at h
  obtain ⟨tmp, hc, h⟩ := Option.bind_eq_some.mp h
  obtain ⟨data, hk, h⟩ := Option.bind_eq_some.mp h
  simp only [Option.some.injEq] at h
  have htmp := _darray_create_data hc
  rw [u64_of_lt (show d.length * d.stride < 2 ^ 64 by omega)] at hk
  obtain ⟨_, hdst, hdata⟩ := kcopy_memory_some hk
  have hslice : ((d.data.drop 0).take (d.length * d.stride)).length = d.length * d.stride := by
    rw [List.length_take, List.length_drop]
    omega
  have hlen : data.length = tmp.data.length := by
    rw [hdata]
    simp only [List.length_append, List.length_take, List.length_drop]
    omega
  have hadata : a.data = data := by rw [← h]
  refine ⟨hfs, hfl, ?_, ?_⟩
  · unfold DArray.sound
    rw [hfl, hfs, hadata, hlen]
    omega
  · intro j hj
    have hj1 : (j + 1) * d.stride ≤ d.length * d.stride := Nat.mul_le_mul_right _ hj
    have hsame := slice_store_same tmp.data ((d.data.drop 0).take (d.length * d.stride)) 0
      (by rw [hslice]; exact hdst)
    rw [List.drop_zero] at hdata
    rw [hslice, List.drop_zero, List.drop_zero, ← hdata] at hsame
    rw [hadata]
    exact slot_of_prefix hsame hj1

/-- A push that returns appended the value: stride kept, length one more, the
live elements inside the payload. -/
theorem _darray_push_some {d d1 : DArray} {v : List Byte} (hs : d.sound) (hpos : 1 ≤ d.stride)
    (hv : v.length = d.stride) (h : _darray_push d v = some d1) :
    d1.stride = d.stride ∧ d1.length = d.length + 1 ∧ d1.sound ∧ d1.elems = d.elems ++ [v] := by
  unfold _darray_push at h
  dsimp only at h
  obtain ⟨a, ha, h⟩ := Option.bind_eq_some.mp h
  obtain ⟨data, hk, h⟩ := Option.bind_eq_some.mp h
  simp only [Option.some.injEq] at h
  have hfacts : a.stride = d.stride ∧ a.length = d.length ∧ a.sound ∧
      ∀ j, j < d.length → slot a.data d.stride j = slot d.data d.stride j := by
    split at ha
    · exact _darray_resize_some hs ha
    · simp only [Option.some.injEq] at ha
      rw [← ha]
      exact ⟨rfl, rfl, hs, fun _ _ => rfl⟩
  obtain ⟨has, hal, ⟨hain, ha64⟩, haslots⟩ := hfacts
  rw [has, hal] at hain
  rw [u64_of_lt (show d.length * d.stride < 2 ^ 64 by omega)] at hk
  obtain ⟨_, hdst, hdata⟩ := kcopy_memory_some hk
  have hv1 : (v.drop 0).take d.stride = v := by
    rw [List.drop_zero, ← hv, List.take_length]
  rw [hv1] at hdata
  have hsucc : (d.length + 1) * d.stride = d.length * d.stride + d.stride := Nat.succ_mul _ _
  have hge : d.length + 1 ≤ (d.length + 1) * d.stride := Nat.le_mul_of_pos_right _ hpos
  have hlen : data.length = a.data.length := by
    rw [hdata]
    simp only [List.length_append, List.length_take, List.length_drop]
    omega
  have hd1s : d1.stride = d.stride := by rw [← h]; exact has
  have hd1l : d1.length = d.length + 1 := by
    rw [← h]
    exact u64_of_lt (by omega)
  have hd1d : d1.data = data := by rw [← h]
  have hstore : data = a.data.take (d.length * d.stride) ++ v ++
      a.data.drop (d.length * d.stride + v.length) := by
    rw [hdata, hv]
  refine ⟨hd1s, hd1l, ?_, ?_⟩
  · unfold DArray.sound
    rw [hd1s, hd1l, hd1d, hlen]
    omega
  · apply elems_of_push hd1s hd1l
    · intro j hj
      rw [hd1d, hstore, slot_store_ne a.data v d.stride j d.length hv hdst (by omega)]
      exact haslots j hj
    · rw [hd1d, hstore]
      exact slot_store_same a.data v d.stride d.length hv hdst

/-- A `_darray_pop_at` at a valid index that returns removed the element at the
index: stride kept, length one less, the later elements moved down by one. -/
theorem _darray_pop_at_some {d d1 : DArray} {index : Nat} {dest dest1 : List Byte}
    (hs : d.sound) (hpos : 1 ≤ d.stride) (hi : index < d.length)
    (h : _darray_pop_at d index dest = some (d1, dest1)) :
    d1.stride = d.stride ∧ d1.length = d.length - 1 ∧ d1.sound ∧
      d1.elems = d.elems.eraseIdx index := by
  obtain ⟨hin, h64⟩ := hs
  have hge : d.length ≤ d.length * d.stride := Nat.le_mul_of_pos_right _ hpos
  have hsub : u64_sub d.length 1 = d.length - 1 := u64_sub_of_le (by omega) (by omega)
  have hsubi : u64_sub d.length index = d.length - index := u64_sub_of_le (by omega) (by omega)
  have hi1 : (index + 1) * d.stride = index * d.stride + d.stride := Nat.succ_mul _ _
  have hiL : (index + 1) * d.stride ≤ d.length * d.stride := Nat.mul_le_mul_right _ hi
  have hm1 : (d.length - 1) * d.stride ≤ d.length * d.stride := Nat.mul_le_mul_right _ (by omega)
  have hn : d.stride * (d.length - index) = d.length * d.stride - index * d.stride := by
    rw [Nat.mul_comm, Nat.sub_mul]
  unfold _darray_pop_at at h
  dsimp only at h
  rw [if_neg (show ¬ index ≥ d.length by omega)] at h
  obtain ⟨out, _, h⟩ := Option.bind_eq_some.mp h
  obtain ⟨data, hk, h⟩ := Option.bind_eq_some.mp h
  simp only [Option.some.injEq, Prod.mk.injEq] at h
  obtain ⟨h, _⟩ := h
  rw [hsub] at h hk
  have hd1s : d1.stride = d.stride := by rw [← h]
  have hd1l : d1.length = d.length - 1 := by rw [← h]
  have hd1d : d1.data = data := by rw [← h]
  have helems : ∀ f : Nat → List Byte,
      (∀ j, j < d.length - 1 → f j = if j < index then slot d.data d.stride j
        else slot d.data d.stride (j + 1)) →
      (List.range (d.length - 1)).map f = d.elems.eraseIdx index := by
    intro f hf
    apply List.ext_getElem?
    intro j
    unfold DArray.elems
    rw [List.getElem?_eraseIdx, getElem?_map_range, getElem?_map_range, getElem?_map_range]
    by_cases hj : j < d.length - 1
    · rw [if_pos hj, if_pos (show j < d.length by omega), if_pos (show j + 1 < d.length by omega),
        hf j hj]
      by_cases hji : j < index
      · rw [if_pos hji, if_pos hji]
      · rw [if_neg hji, if_neg hji]
    · rw [if_neg hj, if_neg (show ¬ j + 1 < d.length by omega)]
      by_cases hji : j < index
      · omega
      · rw [if_neg hji]
  by_cases hlast : index = d.length - 1
  · rw [if_neg (show ¬ index ≠ d.length - 1 from fun hh => hh hlast), Option.some.injEq] at hk
    refine ⟨hd1s, hd1l, ?_, ?_⟩
    · unfold DArray.sound
      rw [hd1s, hd1l, hd1d, ← hk]
      omega
    · unfold DArray.elems
      rw [hd1l, hd1s, hd1d, ← hk]
      apply helems
      intro j hj
      rw [if_pos (by omega)]
  · rw [if_pos hlast, hsubi, u64_of_lt (show index * d.stride < 2 ^ 64 by omega),
      u64_of_lt (show index + 1 < 2 ^ 64 by omega),
      u64_of_lt (show (index + 1) * d.stride < 2 ^ 64 by omega),
      u64_of_lt (show d.stride * (d.length - index) < 2 ^ 64 by omega)] at hk
    obtain ⟨hsrc, hdst, hdata⟩ := kcopy_memory_some hk
    have hL1 : (d.length + 1) * d.stride = d.length * d.stride + d.stride := Nat.succ_mul _ _
    refine ⟨hd1s, hd1l, ?_, ?_⟩
    · unfold DArray.sound
      rw [hd1s, hd1l, hd1d, hdata]
      simp only [List.length_append, List.length_take, List.length_drop]
      omega
    · unfold DArray.elems
      rw [hd1l, hd1s, hd1d, hdata]
      apply helems
      intro j hj
      exact slot_shift_down d.data d.stride index d.length j (by omega) hi (by omega)

/-! ## `event_fire` -/

/-- The record the loops read at index `i` is element `i` of the container. -/
theorem read_record {d : DArray} {i : Nat}
    (h : (i + 1) * sizeof_registered_event ≤ d.data.length) :
    read_bytes d.data (i * sizeof_registered_event) sizeof_registered_event =
      some (slot d.data sizeof_registered_event i) := by
  have h16 : (i + 1) * sizeof_registered_event =
      i * sizeof_registered_event + sizeof_registered_event := Nat.succ_mul _ _
  rw [read_bytes_of_le (by omega)]
  rfl

/-- The dispatch loop over indices inside the payload ends; it reports whether
a visited record handled the event and made the calls up to the first such
record. -/
theorem fire_loop_spec (cb : Nat → Nat → Nat → Nat → event_context → Bool) (d : DArray)
    (code sender : Nat) (context : event_context) :
    ∀ idxs : List Nat, (∀ i ∈ idxs, (i + 1) * sizeof_registered_event ≤ d.data.length) →
      fire_loop cb d code sender context idxs =
        some
          ((idxs.map fun i => registered_event.of_bytes (slot d.data sizeof_registered_event i)).any
              (fun e => cb e.callback code sender e.listener context),
            calls_until_handled (fun e => cb e.callback code sender e.listener context) code sender
              context
              (idxs.map fun i => registered_event.of_bytes (slot d.data sizeof_registered_event i))) := by
  intro idxs
  induction idxs with
  | nil => intro _; rfl
  | cons i rest ih =>
    intro hin
    have hi := hin i (List.mem_cons_self _ _)
    unfold fire_loop
    rw [read_record hi, Option.some_bind, ih (fun j hj => hin j (List.mem_cons_of_mem _ hj))]
    dsimp only
    by_cases hh : cb (registered_event.of_bytes (slot d.data sizeof_registered_event i)).callback
        code sender (registered_event.of_bytes (slot d.data sizeof_registered_event i)).listener
        context = true
    · simp [calls_until_handled, hh]
    · simp [calls_until_handled, hh]

/-- The calls up to the first handling record, when the list splits at it. -/
theorem calls_until_handled_split (handled : registered_event → Bool) (code sender : Nat)
    (context : event_context) (pre post : List registered_event) (l : registered_event)
    (hpre : ∀ e ∈ pre, handled e = false) (hl : handled l = true) :
    (pre ++ l :: post).any handled = true ∧
      calls_until_handled handled code sender context (pre ++ l :: post) =
        (pre ++ [l]).map fun e => e.call code sender context := by
  induction pre with
  | nil => simp [calls_until_handled, hl]
  | cons e pre ih =>
    have he : handled e = false := hpre e (List.mem_cons_self _ _)
    obtain ⟨h1, h2⟩ := ih (fun x hx => hpre x (List.mem_cons_of_mem _ hx))
    constructor
    · simp [hl]
    · unfold calls_until_handled at h2 ⊢
      simp only [List.cons_append, List.takeWhile_cons, List.dropWhile_cons, he, Bool.not_false,
        if_true, List.map_cons, List.map_append] at h2 ⊢
      rw [h2]

/-- The calls when no record handles the event: all of them, in order. -/
theorem calls_until_handled_none (handled : registered_event → Bool) (code sender : Nat)
    (context : event_context) (ls : List registered_event) (h : ∀ e ∈ ls, handled e = false) :
    ls.any handled = false ∧
      calls_until_handled handled code sender context ls =
        ls.map fun e => e.call code sender context := by
  induction ls with
  | nil => simp [calls_until_handled]
  | cons e ls ih =>
    have he : handled e = false := h e (List.mem_cons_self _ _)
    obtain ⟨h1, h2⟩ := ih (fun x hx => h x (List.mem_cons_of_mem _ hx))
    constructor
    · simp [he, h1]
    · unfold calls_until_handled at h2 ⊢
      simp only [List.takeWhile_cons, List.dropWhile_cons, he, Bool.not_false, if_true,
        List.map_cons, List.map_append] at h2 ⊢
      rw [List.cons_append, h2]

/-- `event_fire` on an initialised registry of well-formed containers of
records, in terms of the listener sequence of the code. -/
theorem event_fire_listeners (cb : Nat → Nat → Nat → Nat → event_context → Bool)
    (s : event_system_state) (code sender : Nat) (context : event_context)
    (hinit : s.is_initialized = true) (hcode : code < MAX_MESSAGE_CODES)
    (hwf : ∀ d, s.registered code = some d → d.WF ∧ d.stride = sizeof_registered_event) :
    event_fire cb s code sender context =
      some ((s.listeners code).any (fun e => cb e.callback code sender e.listener context),
        calls_until_handled (fun e => cb e.callback code sender e.listener context) code sender
          context (s.listeners code)) := by
  unfold event_fire event_system_state.listeners
  rw [hinit]
  simp only [Bool.not_true, Bool.false_eq_true, if_false, if_neg (Nat.not_le.mpr hcode)]
  cases hslot : s.registered code with
  | none => rfl
  | some d =>
    obtain ⟨hwfd, hs⟩ := hwf d hslot
    dsimp only
    rw [fire_loop_spec cb d code sender context _ (live_index_in_payload hwfd hs)]
    unfold DArray.elems
    rw [hs, List.map_map]
    rfl

/-- C12: in an initialised registry of well-formed containers of records, with
callbacks that are functions reporting handled or not handled and not touching
the registry, `event_fire` calls the callbacks of the code's listener sequence
in registration order, each with `(code, sender, its listener identity,
context)`, stops right after the first one that reports handled and returns
TRUE without calling the later ones; it returns FALSE after calling all of
them when none reports handled; and it returns FALSE calling nothing when the
code has no listener or an empty slot. -/
theorem event_fire_spec (cb : Nat → Nat → Nat → Nat → event_context → Bool)
    (s : event_system_state) (code sender : Nat) (context : event_context)
    (hinit : s.is_initialized = true) (hcode : code < MAX_MESSAGE_CODES)
    (hwf : ∀ d, s.registered code = some d → d.WF ∧ d.stride = sizeof_registered_event) :
    (∀ (pre post : List registered_event) (l : registered_event),
      s.listeners code = pre ++ l :: post →
      (∀ e ∈ pre, cb e.callback code sender e.listener context = false) →
      cb l.callback code sender l.listener context = true →
      event_fire cb s code sender context =
        some (true, (pre ++ [l]).map fun e => e.call code sender context)) ∧
    ((∀ e ∈ s.listeners code, cb e.callback code sender e.listener context = false) →
      event_fire cb s code sender context =
        some (false, (s.listeners code).map fun e => e.call code sender context)) ∧
    (s.listeners code = [] → event_fire cb s code sender context = some (false, [])) ∧
    (s.registered code = none → event_fire cb s code sender context = some (false, [])) := by
  have hfire := event_fire_listeners cb s code sender context hinit hcode hwf
  refine ⟨?_, ?_, ?_, ?_⟩
  · intro pre post l hsplit hpre hl
    obtain ⟨h1, h2⟩ := calls_until_handled_split
      (fun e => cb e.callback code sender e.listener context) code sender context pre post l hpre hl
    rw [hfire, hsplit, h1, h2]
  · intro hnone
    obtain ⟨h1, h2⟩ := calls_until_handled_none
      (fun e => cb e.callback code sender e.listener context) code sender context
      (s.listeners code) hnone
    rw [hfire, h1, h2]
  · intro hnil
    rw [hfire, hnil]
    rfl
  · intro hslot
    exact event_fire_empty_slot cb s code sender context hcode hslot

/-- Witness of C12: listeners L1, L2, L3 on code 5, of which only L2 (callback
20) reports handled: L1 and L2 are called, L3 is not, the result is TRUE. -/
theorem event_fire_spec_witness :
    event_fire (fun f _ _ _ _ => f == 20) example_registry_three 5 77 ⟨[]⟩ =
      some (true,
        [{ callback := 10, code := 5, sender := 77, listener := 1, context := ⟨[]⟩ },
         { callback := 20, code := 5, sender := 77, listener := 2, context := ⟨[]⟩ }]) :=
  (event_fire_spec (fun f _ _ _ _ => f == 20) example_registry_three 5 77 ⟨[]⟩ rfl (by decide)
    (by
      intro d hd
      have h : d = ⟨4, 3, 16, registered_event.bytes ⟨1, 10⟩ ++ registered_event.bytes ⟨2, 20⟩ ++
          registered_event.bytes ⟨3, 30⟩ ++ List.replicate 16 0⟩ := by
        simpa [example_registry_three] using hd.symm
      rw [h]
      decide)).1 [⟨1, 10⟩] [⟨3, 30⟩] ⟨2, 20⟩ (by decide) (by decide) (by decide)

/-! ## What a call of `event_register` or `event_unregister` that returns did -/

/-- A duplicate scan that returns visited records inside the payload and
reports whether one of them has the listener. -/
theorem register_scan_some (d : DArray) (listener : Nat) :
    ∀ (idxs : List Nat) (dup : Bool), register_scan d listener idxs = some dup →
      dup = idxs.any fun i =>
        decide ((registered_event.of_bytes (slot d.data sizeof_registered_event i)).listener =
          listener) := by
  intro idxs
  induction idxs with
  | nil =>
    intro dup h
    simp only [register_scan, Option.some.injEq] at h
    rw [← h]
    rfl
  | cons i rest ih =>
    intro dup h
    unfold register_scan at h
    obtain ⟨bs, hr, h⟩ := Option.bind_eq_some.mp h
    obtain ⟨_, hin⟩ := read_bytes_length hr
    rw [read_bytes_of_le hin, Option.some.injEq] at hr
    rw [← hr, listener_of_slot] at h
    rw [List.any_cons]
    by_cases heq : (registered_event.of_bytes (slot d.data sizeof_registered_event i)).listener =
        listener
    · rw [if_pos heq, Option.some.injEq] at h
      rw [← h]
      simp [heq]
    · rw [if_neg heq] at h
      rw [ih dup h]
      simp [heq]

/-- What `event_register` did when it returns. -/
theorem event_register_some {K : Nat} {s s1 : event_system_state} {code A X : Nat} {b : Bool}
    (h : event_register K s code A X = some (b, s1)) :
    (s.is_initialized = false ∧ b = false ∧ s1 = s) ∨
    (s.is_initialized = true ∧ code < MAX_MESSAGE_CODES ∧
      ∃ (d : DArray) (sa : event_system_state),
        ((s.registered code = some d ∧ sa = s) ∨
          (s.registered code = none ∧ _darray_create K sizeof_registered_event = some d ∧
            sa = s.set_events code (some d))) ∧
        ∃ dup, register_scan d A (List.range d.length) = some dup ∧
          ((dup = true ∧ b = false ∧ s1 = sa) ∨
            (dup = false ∧ b = true ∧
              ∃ d1, _darray_push d (registered_event.bytes { listener := A, callback := X }) =
                  some d1 ∧
                s1 = sa.set_events code (some d1)))) := by
  cases hinit : s.is_initialized with
  | false =>
    left
    unfold event_register at h
    rw [hinit] at h
    simp only [Bool.not_false, if_true, Option.some.injEq, Prod.mk.injEq] at h
    exact ⟨rfl, h.1.symm, h.2.symm⟩
  | true =>
    right
    by_cases hcode : code < MAX_MESSAGE_CODES
    · refine ⟨rfl, hcode, ?_⟩
      have tail : ∀ (d : DArray) (sa : event_system_state),
          ((register_scan d A (List.range d.length)).bind fun dup =>
            if dup then some (false, sa)
            else (_darray_push d (registered_event.bytes { listener := A, callback := X })).map
              fun events1 => (true, sa.set_events code (some events1))) = some (b, s1) →
          ∃ dup, register_scan d A (List.range d.length) = some dup ∧
            ((dup = true ∧ b = false ∧ s1 = sa) ∨
              (dup = false ∧ b = true ∧
                ∃ d1, _darray_push d (registered_event.bytes { listener := A, callback := X }) =
                    some d1 ∧
                  s1 = sa.set_events code (some d1))) := by
        intro d sa ht
        obtain ⟨dup, hscan, ht⟩ := Option.bind_eq_some.mp ht
        refine ⟨dup, hscan, ?_⟩
        cases dup with
        | true =>
          simp only [if_true, Option.some.injEq, Prod.mk.injEq] at ht
          exact Or.inl ⟨rfl, ht.1.symm, ht.2.symm⟩
        | false =>
          simp only [Bool.false_eq_true, if_false, Option.map_eq_some', Prod.mk.injEq] at ht
          obtain ⟨d1, hpush, hb, hs1⟩ := ht
          exact Or.inr ⟨rfl, hb.symm, d1, hpush, hs1.symm⟩
      cases hslot : s.registered code with
      | none =>
        cases hcreate : _darray_create K sizeof_registered_event with
        | none =>
          unfold event_register darray_create at h
          rw [hinit, hslot, hcreate] at h
          simp [Nat.not_le.mpr hcode] at h
        | some d0 =>
          rw [event_register_empty K A X hinit hcode hslot hcreate] at h
          exact ⟨d0, _, Or.inr ⟨rfl, rfl, rfl⟩, tail d0 _ h⟩
      | some d =>
        rw [event_register_occupied K A X hinit hcode hslot] at h
        exact ⟨d, s, Or.inl ⟨rfl, rfl⟩, tail d s h⟩
    · unfold event_register at h
      rw [hinit] at h
      simp [Nat.le_of_not_lt hcode] at h

/-- `event_unregister` on an occupied slot of an initialised registry. -/
theorem event_unregister_occupied {s : event_system_state} {code : Nat} {d : DArray}
    (A X : Nat) (hinit : s.is_initialized = true) (hcode : code < MAX_MESSAGE_CODES)
    (hslot : s.registered code = some d) :
    event_unregister s code A X =
      (unregister_scan d A X (List.range d.length)).bind (unregister_found s code d) := by
  unfold event_unregister
  rw [hinit, hslot]
  simp only [Bool.not_true, Bool.false_eq_true, if_false, if_neg (Nat.not_le.mpr hcode)]

/-- What `event_unregister` did when it returns. -/
theorem event_unregister_some {s s1 : event_system_state} {code A X : Nat} {b : Bool}
    (h : event_unregister s code A X = some (b, s1)) :
    (b = false ∧ s1 = s) ∨
    (b = true ∧ s.is_initialized = true ∧ code < MAX_MESSAGE_CODES ∧
      ∃ (d d1 : DArray) (i : Nat) (dest1 : List Byte), s.registered code = some d ∧
        unregister_scan d A X (List.range d.length) = some (some i) ∧
        _darray_pop_at d i (List.replicate sizeof_registered_event 0) = some (d1, dest1) ∧
        s1 = s.set_events code (some d1)) := by
  cases hinit : s.is_initialized with
  | false =>
    left
    unfold event_unregister at h
    rw [hinit] at h
    simp only [Bool.not_false, if_true, Option.some.injEq, Prod.mk.injEq] at h
    exact ⟨h.1.symm, h.2.symm⟩
  | true =>
    by_cases hcode : code < MAX_MESSAGE_CODES
    · cases hslot : s.registered code with
      | none =>
        left
        rw [event_unregister_empty_slot s code A X hcode hslot] at h
        simp only [Option.some.injEq, Prod.mk.injEq] at h
        exact ⟨h.1.symm, h.2.symm⟩
      | some d =>
        rw [event_unregister_occupied A X hinit hcode hslot] at h
        obtain ⟨found, hscan, h⟩ := Option.bind_eq_some.mp h
        cases found with
        | none =>
          left
          simp only [unregister_found, Option.some.injEq, Prod.mk.injEq] at h
          exact ⟨h.1.symm, h.2.symm⟩
        | some i =>
          right
          simp only [unregister_found, darray_pop_at, Option.map_eq_some', Prod.mk.injEq] at h
          obtain ⟨r, hpop, hb, hs1⟩ := h
          exact ⟨hb.symm, rfl, hcode, d, r.1, i, r.2, rfl, hscan, hpop, hs1.symm⟩
    · unfold event_unregister at h
      rw [hinit] at h
      simp [Nat.le_of_not_lt hcode] at h

/-- The scan of `event_unregister` over indices inside the payload ends and
finds the first visited index whose record is the pair. -/
theorem unregister_scan_spec (d : DArray) (A X : Nat) :
    ∀ idxs : List Nat, (∀ i ∈ idxs, (i + 1) * sizeof_registered_event ≤ d.data.length) →
      unregister_scan d A X idxs = some (idxs.find? fun i =>
        decide (registered_event.of_bytes (slot d.data sizeof_registered_event i) =
          { listener := A, callback := X })) := by
  intro idxs
  induction idxs with
  | nil => intro _; rfl
  | cons i rest ih =>
    intro hin
    have hi := hin i (List.mem_cons_self _ _)
    unfold unregister_scan
    rw [read_record hi, Option.some_bind, ih (fun j hj => hin j (List.mem_cons_of_mem _ hj))]
    dsimp only
    by_cases heq : registered_event.of_bytes (slot d.data sizeof_registered_event i) =
        { listener := A, callback := X }
    · simp [List.find?_cons, heq]
    · have hne : ¬ ((registered_event.of_bytes (slot d.data sizeof_registered_event i)).listener = A ∧
          (registered_event.of_bytes (slot d.data sizeof_registered_event i)).callback = X) := by
        intro hh
        apply heq
        generalize registered_event.of_bytes (slot d.data sizeof_registered_event i) = e at hh
        cases e
        simp only [registered_event.mk.injEq]
        exact hh
      rw [if_neg hne]
      simp [List.find?_cons, heq]

/-- An index the scan of `event_unregister` found is one of the visited ones. -/
theorem unregister_scan_mem (d : DArray) (A X : Nat) :
    ∀ (idxs : List Nat) (i : Nat), unregister_scan d A X idxs = some (some i) → i ∈ idxs := by
  intro idxs
  induction idxs with
  | nil =>
    intro i h
    simp [unregister_scan] at h
  | cons j rest ih =>
    intro i h
    unfold unregister_scan at h
    obtain ⟨bs, _, h⟩ := Option.bind_eq_some.mp h
    dsimp only at h
    split at h
    · simp only [Option.some.injEq] at h
      rw [← h]
      exact List.mem_cons_self _ _
    · exact List.mem_cons_of_mem _ (ih i h)

/-! ## The first match of a scan -/

/-- What `find?` over consecutive indices returns: the least index satisfying
the test, or nothing when no index does. -/
theorem find_range'_spec (q : Nat → Bool) :
    ∀ (n s : Nat),
      (∀ i, (List.range' s n).find? q = some i →
        s ≤ i ∧ i < s + n ∧ q i = true ∧ ∀ j, s ≤ j → j < i → q j = false) ∧
      ((List.range' s n).find? q = none → ∀ j, s ≤ j → j < s + n → q j = false) := by
  intro n
  induction n with
  | zero =>
    intro s
    constructor
    · intro i h
      simp at h
    · intro _ j h1 h2
      omega
  | succ n ih =>
    intro s
    obtain ⟨ih1, ih2⟩ := ih (s + 1)
    rw [List.range'_succ, List.find?_cons]
    cases hq : q s with
    | true =>
      constructor
      · intro i h
        simp only [Option.some.injEq] at h
        subst h
        exact ⟨Nat.le_refl _, by omega, hq, fun j h1 h2 => by omega⟩
      · intro h
        simp at h
    | false =>
      constructor
      · intro i h
        obtain ⟨h1, h2, h3, h4⟩ := ih1 i h
        refine ⟨by omega, by omega, h3, ?_⟩
        intro j hj1 hj2
        by_cases hjs : j = s
        · rw [hjs]
          exact hq
        · exact h4 j (by omega) hj2
      · intro h j hj1 hj2
        by_cases hjs : j = s
        · rw [hjs]
          exact hq
        · exact ih2 h j (by omega) (by omega)

/-- The same for the indices `0 .. n-1`. -/
theorem find_range_spec (q : Nat → Bool) (n : Nat) :
    (∀ i, (List.range n).find? q = some i → i < n ∧ q i = true ∧ ∀ j, j < i → q j = false) ∧
      ((List.range n).find? q = none → ∀ j, j < n → q j = false) := by
  obtain ⟨h1, h2⟩ := find_range'_spec q n 0
  rw [List.range_eq_range']
  constructor
  · intro i h
    obtain ⟨_, a, b, c⟩ := h1 i h
    exact ⟨by omega, b, fun j hj => c j (Nat.zero_le _) hj⟩
  · intro h j hj
    exact h2 h j (Nat.zero_le _) (by omega)

/-! ## Frame -/

theorem listeners_of_registered {s s1 : event_system_state} {code : Nat}
    (h : s1.registered code = s.registered code) : s1.listeners code = s.listeners code := by
  unfold event_system_state.listeners
  rw [h]

theorem set_events_other (s : event_system_state) (c d : Nat) (e : Option DArray) (h : c ≠ d) :
    (s.set_events c e).registered d = s.registered d := by
  unfold event_system_state.set_events
  simp only
  rw [if_neg (fun hh => h hh.symm)]

/-- A call of `event_register` that returns leaves the other slots as they were. -/
theorem event_register_frame {K : Nat} {s s1 : event_system_state} {c d A X : Nat} {b : Bool}
    (hcd : c ≠ d) (h : event_register K s c A X = some (b, s1)) :
    s1.registered d = s.registered d := by
  rcases event_register_some h with ⟨_, _, hs1⟩ | ⟨_, _, d0, sa, hsa, dup, _, hres⟩
  · rw [hs1]
  · have hsa' : sa.registered d = s.registered d := by
      rcases hsa with ⟨_, hsa⟩ | ⟨_, _, hsa⟩
      · rw [hsa]
      · rw [hsa, set_events_other s c d _ hcd]
    rcases hres with ⟨_, _, hs1⟩ | ⟨_, _, d1, _, hs1⟩
    · rw [hs1, hsa']
    · rw [hs1, set_events_other sa c d _ hcd, hsa']

/-- A call of `event_unregister` that returns leaves the other slots as they were. -/
theorem event_unregister_frame {s s1 : event_system_state} {c d A X : Nat} {b : Bool}
    (hcd : c ≠ d) (h : event_unregister s c A X = some (b, s1)) :
    s1.registered d = s.registered d := by
  rcases event_unregister_some h with ⟨_, hs1⟩ | ⟨_, _, _, d0, d1, i, dest1, _, _, _, hs1⟩
  · rw [hs1]
  · rw [hs1, set_events_other s c d _ hcd]

/-- Every call made for a list of records is the call of one of the records. -/
theorem calls_until_handled_mem (handled : registered_event → Bool) (code sender : Nat)
    (context : event_context) (ls : List registered_event) :
    ∀ call ∈ calls_until_handled handled code sender context ls,
      ∃ e ∈ ls, call = e.call code sender context := by
  intro call hcall
  unfold calls_until_handled at hcall
  obtain ⟨e, he, hec⟩ := List.mem_map.mp hcall
  refine ⟨e, ?_, hec.symm⟩
  rcases List.mem_append.mp he with h | h
  · exact (List.takeWhile_sublist _).subset h
  · exact (List.dropWhile_sublist _).subset ((List.take_sublist _ _).subset h)

/-- C19: for two distinct codes `c` and `d`, every call of `event_register` and of
`event_unregister` with code `c` that returns, with TRUE or with FALSE, leaves
the slot and so the listener sequence of `d` as it was; and in an initialised
registry of well-formed containers of records `event_fire` on `c` returns and
every call it makes is the call of a record of `c`'s listener sequence, so a
record registered only for `d` is not called. -/
theorem other_codes_untouched :
    (∀ (K : Nat) (s s1 : event_system_state) (c d A X : Nat) (b : Bool), c ≠ d →
      event_register K s c A X = some (b, s1) →
      s1.registered d = s.registered d ∧ s1.listeners d = s.listeners d) ∧
    (∀ (s s1 : event_system_state) (c d A X : Nat) (b : Bool), c ≠ d →
      event_unregister s c A X = some (b, s1) →
      s1.registered d = s.registered d ∧ s1.listeners d = s.listeners d) ∧
    (∀ (cb : Nat → Nat → Nat → Nat → event_context → Bool) (s : event_system_state)
      (c sender : Nat) (context : event_context), s.is_initialized = true →
      c < MAX_MESSAGE_CODES →
      (∀ dc, s.registered c = some dc → dc.WF ∧ dc.stride = sizeof_registered_event) →
      ∃ b calls, event_fire cb s c sender context = some (b, calls) ∧
        (∀ call ∈ calls, ∃ e ∈ s.listeners c, call = e.call c sender context) ∧
        ∀ r : registered_event, r ∉ s.listeners c → r.call c sender context ∉ calls) := by
  refine ⟨?_, ?_, ?_⟩
  · intro K s s1 c d A X b hcd h
    have hr := event_register_frame hcd h
    exact ⟨hr, listeners_of_registered hr⟩
  · intro s s1 c d A X b hcd h
    have hr := event_unregister_frame hcd h
    exact ⟨hr, listeners_of_registered hr⟩
  · intro cb s c sender context hinit hcode hwf
    refine ⟨_, _, event_fire_listeners cb s c sender context hinit hcode hwf, ?_, ?_⟩
    · exact calls_until_handled_mem _ c sender context _
    · intro r hr hmem
      obtain ⟨e, he, hec⟩ := calls_until_handled_mem _ c sender context _ _ hmem
      apply hr
      have : r = e := by
        cases r
        cases e
        simp only [registered_event.call, callback_call.mk.injEq] at hec
        simp only [registered_event.mk.injEq]
        exact ⟨hec.2.2.2.1, hec.1⟩
      rw [this]
      exact he

/-- Witness of C19: the registry with (1, 10), (2, 20) on code 5 and (3, 30) on
code 6. On code 5 a register that succeeds, a register that fails, an
unregister that succeeds and an unregister that fails (of the record of code
6) each leave the listener sequence of code 6 at (3, 30); `event_fire` on code 5
calls the two listeners of code 5 and not the listener registered for code 6
only. -/
theorem other_codes_untouched_witness :
    example_registry_two_codes.listeners 5 = [⟨1, 10⟩, ⟨2, 20⟩] ∧
    example_registry_two_codes.listeners 6 = [⟨3, 30⟩] ∧
    (∃ s1, event_register 4 example_registry_two_codes 5 4 40 = some (true, s1) ∧
      s1.listeners 5 = [⟨1, 10⟩, ⟨2, 20⟩, ⟨4, 40⟩] ∧
      s1.registered 6 = example_registry_two_codes.registered 6 ∧ s1.listeners 6 = [⟨3, 30⟩]) ∧
    (∃ s1, event_register 4 example_registry_two_codes 5 1 10 = some (false, s1) ∧
      s1.registered 6 = example_registry_two_codes.registered 6 ∧ s1.listeners 6 = [⟨3, 30⟩]) ∧
    (∃ s1, event_unregister example_registry_two_codes 5 1 10 = some (true, s1) ∧
      s1.listeners 5 = [⟨2, 20⟩] ∧
      s1.registered 6 = example_registry_two_codes.registered 6 ∧ s1.listeners 6 = [⟨3, 30⟩]) ∧
    (∃ s1, event_unregister example_registry_two_codes 5 3 30 = some (false, s1) ∧
      s1.registered 6 = example_registry_two_codes.registered 6 ∧ s1.listeners 6 = [⟨3, 30⟩]) ∧
    ∃ calls, event_fire (fun _ _ _ _ _ => false) example_registry_two_codes 5 7 ⟨[]⟩ =
        some (false, calls) ∧
      calls = [⟨10, 5, 7, 1, ⟨[]⟩⟩, ⟨20, 5, 7, 2, ⟨[]⟩⟩] ∧
      (⟨3, 30⟩ : registered_event).call 5 7 ⟨[]⟩ ∉ calls := by
  have h6 : example_registry_two_codes.listeners 6 = [⟨3, 30⟩] := by decide
  obtain ⟨s1, h1⟩ := result_state
    (by decide : (event_register 4 example_registry_two_codes 5 4 40).map Prod.fst = some true)
  have l1 : (event_register 4 example_registry_two_codes 5 4 40).map
      (fun r => r.2.listeners 5) = some [⟨1, 10⟩, ⟨2, 20⟩, ⟨4, 40⟩] := by decide
  obtain ⟨s2, h2⟩ := result_state
    (by decide : (event_register 4 example_registry_two_codes 5 1 10).map Prod.fst = some false)
  obtain ⟨s3, h3⟩ := result_state
    (by decide : (event_unregister example_registry_two_codes 5 1 10).map Prod.fst = some true)
  have l3 : (event_unregister example_registry_two_codes 5 1 10).map
      (fun r => r.2.listeners 5) = some [⟨2, 20⟩] := by decide
  obtain ⟨s4, h4⟩ := result_state
    (by decide : (event_unregister example_registry_two_codes 5 3 30).map Prod.fst = some false)
  have f1 := other_codes_untouched.1 4 example_registry_two_codes s1 5 6 4 40 true (by decide) h1
  have f2 := other_codes_untouched.1 4 example_registry_two_codes s2 5 6 1 10 false (by decide) h2
  have f3 := other_codes_untouched.2.1 example_registry_two_codes s3 5 6 1 10 true (by decide) h3
  have f4 := other_codes_untouched.2.1 example_registry_two_codes s4 5 6 3 30 false (by decide) h4
  obtain ⟨b, calls, hf, _, hno⟩ := other_codes_untouched.2.2 (fun _ _ _ _ _ => false)
    example_registry_two_codes 5 7 ⟨[]⟩ rfl (by decide)
    (by
      intro d hd
      have h : d = ⟨4, 2, 16, registered_event.bytes ⟨1, 10⟩ ++ registered_event.bytes ⟨2, 20⟩ ++
          List.replicate 32 0⟩ := by
        simpa [example_registry_two_codes] using hd.symm
      rw [h]
      decide)
  have hv : event_fire (fun _ _ _ _ _ => false) example_registry_two_codes 5 7 ⟨[]⟩ =
      some (false, [⟨10, 5, 7, 1, ⟨[]⟩⟩, ⟨20, 5, 7, 2, ⟨[]⟩⟩]) := by decide
  rw [hv] at hf
  simp only [Option.some.injEq, Prod.mk.injEq] at hf
  rw [h1] at l1
  rw [h3] at l3
  refine ⟨by decide, h6, ⟨s1, h1, Option.some.inj l1, f1.1, f1.2.trans h6⟩,
    ⟨s2, h2, f2.1, f2.2.trans h6⟩, ⟨s3, h3, Option.some.inj l3, f3.1, f3.2.trans h6⟩,
    ⟨s4, h4, f4.1, f4.2.trans h6⟩, calls, ?_, hf.2.symm, hno ⟨3, 30⟩ (by decide)⟩
  rw [hv, hf.2]

/-! ## Register, then unregister -/

/-- `_darray_pop_at` at the last index of a container whose live elements lie
inside the payload returns: nothing is shifted. -/
theorem _darray_pop_at_last {d : DArray} {dest : List Byte} (hs : d.sound) (hpos : 1 ≤ d.stride)
    (hL : 1 ≤ d.length) (hdest : d.stride ≤ dest.length) :
    _darray_pop_at d (d.length - 1) dest =
      some ({ d with length := d.length - 1 },
        slot d.data d.stride (d.length - 1) ++ dest.drop d.stride) := by
  obtain ⟨hin, h64⟩ := hs
  have hge : d.length ≤ d.length * d.stride := Nat.le_mul_of_pos_right _ hpos
  have hsub : u64_sub d.length 1 = d.length - 1 := u64_sub_of_le hL (by omega)
  have h1 : (d.length - 1 + 1) * d.stride = (d.length - 1) * d.stride + d.stride :=
    Nat.succ_mul _ _
  have h2 : d.length - 1 + 1 = d.length := by omega
  rw [h2] at h1
  unfold _darray_pop_at
  dsimp only
  rw [if_neg (show ¬ d.length - 1 ≥ d.length by omega), hsub,
    u64_of_lt (show (d.length - 1) * d.stride < 2 ^ 64 by omega),
    kcopy_memory_of_le (by omega) (by omega), Option.some_bind,
    if_neg (show ¬ d.length - 1 ≠ d.length - 1 from fun h => h rfl), Option.some_bind]
  simp only [slot, List.take_zero, List.nil_append, Nat.zero_add]

/-- The container `event_register` works on, the one of the slot or a new one,
has its live records inside the payload when the slot's container is well
formed. -/
theorem register_container_sound {K : Nat} {s sa : event_system_state} {code : Nat} {d : DArray}
    (hwf : ∀ d, s.registered code = some d → d.WF ∧ d.stride = sizeof_registered_event)
    (hsa : (s.registered code = some d ∧ sa = s) ∨
      (s.registered code = none ∧ _darray_create K sizeof_registered_event = some d ∧
        sa = s.set_events code (some d))) :
    d.sound ∧ d.stride = sizeof_registered_event ∧
      d.elems.map registered_event.of_bytes = s.listeners code ∧
      sa.is_initialized = s.is_initialized ∧ ∀ c, c ≠ code → sa.registered c = s.registered c := by
  rcases hsa with ⟨hslot, hsa⟩ | ⟨hslot, hcreate, hsa⟩
  · obtain ⟨hwfd, hs⟩ := hwf d hslot
    refine ⟨hwfd.sound, hs, ?_, by rw [hsa], fun c _ => by rw [hsa]⟩
    unfold event_system_state.listeners
    rw [hslot]
  · obtain ⟨_, hl, hs⟩ := _darray_create_fields hcreate
    have h64 := _darray_create_data hcreate
    refine ⟨?_, hs, ?_, by rw [hsa]; rfl, ?_⟩
    · unfold DArray.sound
      rw [hl]
      omega
    · unfold event_system_state.listeners DArray.elems
      rw [hslot, hl]
      rfl
    · intro c hc
      rw [hsa, set_events_other s code c _ (fun h => hc h.symm)]

/-- C20: round trip. In an initialised registry whose containers are well-formed
containers of records, whenever `event_register code A X` returns TRUE, an
`event_unregister code A X` right after it returns TRUE and the listener
sequence of the code is again the sequence before the registration, same
records in the same order; the other slots are as before too. -/
theorem register_unregister_round_trip (K : Nat) (s s1 : event_system_state) (code A X : Nat)
    (hA : A < 2 ^ 64) (hX : X < 2 ^ 64)
    (hwf : ∀ d, s.registered code = some d → d.WF ∧ d.stride = sizeof_registered_event)
    (hreg : event_register K s code A X = some (true, s1)) :
    ∃ s2, event_unregister s1 code A X = some (true, s2) ∧
      s2.listeners code = s.listeners code ∧
      ∀ c, c ≠ code → s2.registered c = s.registered c := by
  rcases event_register_some hreg with ⟨_, hb, _⟩ | ⟨hinit, hcode, d, sa, hsa, dup, hscan, hres⟩
  · simp at hb
  obtain ⟨hsound, hstride, hls, hsainit, hsaother⟩ := register_container_sound hwf hsa
  rcases hres with ⟨_, hb, _⟩ | ⟨hdup, _, d1, hpush, hs1⟩
  · simp at hb
  have h16 : sizeof_registered_event = 16 := rfl
  obtain ⟨hs1s, hs1l, hs1sound, hs1e⟩ :=
    _darray_push_some hsound (by rw [hstride, h16]; omega) (by rw [hstride]; rfl) hpush
  -- the records before the new one have another listener identity
  have hnodup := register_scan_some d A _ dup hscan
  rw [hdup] at hnodup
  have hold : ∀ i, i < d.length →
      (registered_event.of_bytes (slot d.data sizeof_registered_event i)).listener ≠ A := by
    intro i hi
    have := List.any_eq_false.mp hnodup.symm i (List.mem_range.mpr hi)
    simpa using this
  -- the records of the new container
  have hrec : ∀ i, d1.elems[i]? =
      if i < d.length + 1 then some (slot d1.data sizeof_registered_event i) else none := by
    intro i
    unfold DArray.elems
    rw [hs1l, hs1s, hstride]
    exact getElem?_map_range _ _ _
  have hrecd : ∀ i, d.elems[i]? =
      if i < d.length then some (slot d.data sizeof_registered_event i) else none := by
    intro i
    unfold DArray.elems
    rw [hstride]
    exact getElem?_map_range _ _ _
  have hdlen : d.elems.length = d.length := by
    unfold DArray.elems
    rw [List.length_map, List.length_range]
  have hslot_old : ∀ i, i < d.length →
      slot d1.data sizeof_registered_event i = slot d.data sizeof_registered_event i := by
    intro i hi
    have h1 := hrec i
    rw [hs1e, List.getElem?_append_left (by omega), hrecd i, if_pos hi, if_pos (by omega)] at h1
    exact (Option.some.inj h1).symm
  have hslot_new : slot d1.data sizeof_registered_event d.length =
      registered_event.bytes { listener := A, callback := X } := by
    have h1 := hrec d.length
    rw [hs1e, List.getElem?_append_right (by omega), hdlen, Nat.sub_self, if_pos (by omega)] at h1
    exact (Option.some.inj h1).symm
  -- the state after the registration
  have hs1init : s1.is_initialized = true := by
    rw [hs1]
    exact hsainit.trans hinit
  have hs1slot : s1.registered code = some d1 := by
    rw [hs1]
    simp [event_system_state.set_events]
  have hbound : ∀ i ∈ List.range d1.length,
      (i + 1) * sizeof_registered_event ≤ d1.data.length := by
    intro i hi
    have hi1 : (i + 1) * sizeof_registered_event ≤ d1.length * sizeof_registered_event :=
      Nat.mul_le_mul_right _ (List.mem_range.mp hi)
    have := hs1sound.1
    rw [hs1s, hstride] at this
    omega
  -- the scan finds the new record at the last index
  have hfound : (List.range d1.length).find? (fun i =>
      decide (registered_event.of_bytes (slot d1.data sizeof_registered_event i) =
        { listener := A, callback := X })) = some d.length := by
    obtain ⟨hsome, hnone⟩ := find_range_spec (fun i =>
      decide (registered_event.of_bytes (slot d1.data sizeof_registered_event i) =
        { listener := A, callback := X })) d1.length
    have hq : decide (registered_event.of_bytes (slot d1.data sizeof_registered_event d.length) =
        { listener := A, callback := X }) = true := by
      rw [hslot_new, registered_event.of_bytes_bytes _ hA hX]
      simp
    cases hf : (List.range d1.length).find? (fun i =>
        decide (registered_event.of_bytes (slot d1.data sizeof_registered_event i) =
          { listener := A, callback := X })) with
    | none =>
      have := hnone hf d.length (by omega)
      rw [hq] at this
      simp at this
    | some i =>
      obtain ⟨hi, hqi, _⟩ := hsome i hf
      by_cases hlt : i < d.length
      · rw [hslot_old i hlt] at hqi
        have hne := hold i hlt
        have heq : registered_event.of_bytes (slot d.data sizeof_registered_event i) =
            { listener := A, callback := X } := by simpa using hqi
        rw [heq] at hne
        exact absurd rfl hne
      · congr 1
        omega
  have hpop := @_darray_pop_at_last d1 (List.replicate sizeof_registered_event 0)
    hs1sound (by rw [hs1s, hstride, h16]; omega) (by omega)
    (by rw [hs1s, hstride, List.length_replicate])
  have hidx : d1.length - 1 = d.length := by omega
  rw [hidx] at hpop
  obtain ⟨_, _, _, hd2e⟩ := _darray_pop_at_some hs1sound (by rw [hs1s, hstride, h16]; omega)
    (show d.length < d1.length by omega) hpop
  refine ⟨s1.set_events code (some { d1 with length := d.length }), ?_, ?_, ?_⟩
  · rw [event_unregister_occupied A X hs1init hcode hs1slot,
      unregister_scan_spec d1 A X _ hbound, hfound, Option.some_bind]
    simp only [unregister_found, darray_pop_at, hpop, Option.map_some']
  · rw [listeners_set_events, hd2e, hs1e, List.eraseIdx_append_of_length_le (by omega), hdlen,
      Nat.sub_self, List.eraseIdx_cons_zero, List.append_nil, hls]
  · intro c hc
    rw [set_events_other s1 code c _ (fun h => hc h.symm), hs1,
      set_events_other sa code c _ (fun h => hc h.symm), hsaother c hc]

/-- Witness of C20: (2, 20) registered on code 5 of the example registry and
unregistered again. -/
theorem register_unregister_round_trip_witness :
    ∃ s1 s2, event_register 1 example_registry 5 2 20 = some (true, s1) ∧
      event_unregister s1 5 2 20 = some (true, s2) ∧
      s2.listeners 5 = example_registry.listeners 5 := by
  obtain ⟨s1, d1, hreg, _⟩ :=
    @event_register_identity_absent 1 example_registry 5 2 20 rfl (by decide) (by decide)
      (by decide)
      (by
        show slot_ready 1 (some _)
        unfold slot_ready
        decide)
      (by decide)
  obtain ⟨s2, hun, hl, _⟩ :=
    register_unregister_round_trip 1 example_registry s1 5 2 20 (by decide) (by decide)
      (by
        intro d hd
        have h : d = ⟨1, 1, 16, registered_event.bytes ⟨1, 10⟩⟩ := by
          simpa [example_registry] using hd.symm
        rw [h]
        decide)
      hreg
  exact ⟨s1, s2, hreg, hun, hl⟩

/-! ## The invariant of the reachable registry states -/

theorem registry_inv_set_events {s : event_system_state} (h : registry_inv s) (code : Nat)
    {d : DArray} (hs : d.stride = sizeof_registered_event) (hsound : d.sound)
    (hnodup : ((d.elems.map registered_event.of_bytes).map registered_event.listener).Nodup) :
    registry_inv (s.set_events code (some d)) := by
  refine ⟨h.1, ?_⟩
  intro c dc hc
  by_cases hcc : c = code
  · rw [hcc] at hc
    simp only [event_system_state.set_events, if_true, Option.some.injEq] at hc
    rw [← hc]
    exact ⟨hs, hsound, hnodup⟩
  · rw [set_events_other s code c _ (fun hh => hcc hh.symm)] at hc
    exact h.2 c dc hc

/-- The duplicate scan in terms of the records of the container. -/
theorem any_listener_elems {d : DArray} (hs : d.stride = sizeof_registered_event) (A : Nat) :
    ((List.range d.length).any fun i =>
      decide ((registered_event.of_bytes (slot d.data sizeof_registered_event i)).listener = A)) =
    ((d.elems.map registered_event.of_bytes).map registered_event.listener).any fun a =>
      decide (a = A) := by
  unfold DArray.elems
  rw [hs, List.map_map, List.map_map]
  induction List.range d.length with
  | nil => rfl
  | cons i rest ih => simp only [List.any_cons, List.map_cons, Function.comp_apply, ih]

/-- Every registry state reachable from `event_initialize` by calls of
`event_register` and `event_unregister` satisfies the invariant. -/
theorem reachable_registry_inv {K : Nat} {s : event_system_state} (h : RegistryReachable K s) :
    registry_inv s := by
  induction h with
  | init h0 =>
    unfold event_initialize
    rw [h0]
    refine ⟨rfl, ?_⟩
    intro code d hd
    simp at hd
  | @register s s1 code A X b _ hA hX hreg ih =>
    have h16 : sizeof_registered_event = 16 := rfl
    rcases event_register_some hreg with ⟨_, _, hs1⟩ | ⟨_, _, d, sa, hsa, dup, hscan, hres⟩
    · rw [hs1]
      exact ih
    · have hd : d.stride = sizeof_registered_event ∧ d.sound ∧
          ((d.elems.map registered_event.of_bytes).map registered_event.listener).Nodup := by
        rcases hsa with ⟨hslot, _⟩ | ⟨_, hcreate, _⟩
        · exact ih.2 code d hslot
        · obtain ⟨_, hl, hs⟩ := _darray_create_fields hcreate
          have h64 := _darray_create_data hcreate
          refine ⟨hs, ?_, ?_⟩
          · unfold DArray.sound
            rw [hl]
            omega
          · unfold DArray.elems
            rw [hl]
            exact List.nodup_nil
      obtain ⟨hds, hdsound, hdnodup⟩ := hd
      have hsainv : registry_inv sa := by
        rcases hsa with ⟨_, hsa⟩ | ⟨_, _, hsa⟩
        · rw [hsa]
          exact ih
        · rw [hsa]
          exact registry_inv_set_events ih code hds hdsound hdnodup
      rcases hres with ⟨_, _, hs1⟩ | ⟨hdup, _, d1, hpush, hs1⟩
      · rw [hs1]
        exact hsainv
      · obtain ⟨hs1s, _, hs1sound, hs1e⟩ :=
          _darray_push_some hdsound (by rw [hds, h16]; omega) (by rw [hds]; rfl) hpush
        rw [hs1]
        apply registry_inv_set_events hsainv code (hs1s.trans hds) hs1sound
        rw [hs1e, List.map_append, List.map_append, List.map_singleton, List.map_singleton,
          registered_event.of_bytes_bytes _ hA hX]
        have hnone := register_scan_some d A _ dup hscan
        rw [hdup, any_listener_elems hds A] at hnone
        have hnot : A ∉ (d.elems.map registered_event.of_bytes).map registered_event.listener := by
          intro hmem
          have := List.any_eq_false.mp hnone.symm A hmem
          simp at this
        rw [List.nodup_append]
        refine ⟨hdnodup, List.nodup_singleton _, ?_⟩
        intro a ha hb
        rw [List.mem_singleton] at hb
        rw [hb] at ha
        exact hnot ha
  | @unregister s s1 code A X b _ hA hX hun ih =>
    have h16 : sizeof_registered_event = 16 := rfl
    rcases event_unregister_some hun with ⟨_, hs1⟩ | ⟨_, _, _, d, d1, i, dest1, hslot, hscan, hpop, hs1⟩
    · rw [hs1]
      exact ih
    · obtain ⟨hds, hdsound, hdnodup⟩ := ih.2 code d hslot
      have hi : i < d.length := List.mem_range.mp (unregister_scan_mem d A X _ i hscan)
      obtain ⟨hd1s, _, hd1sound, hd1e⟩ :=
        _darray_pop_at_some hdsound (by rw [hds, h16]; omega) hi hpop
      rw [hs1]
      apply registry_inv_set_events ih code (hd1s.trans hds) hd1sound
      rw [hd1e]
      exact List.Nodup.sublist (((List.eraseIdx_sublist _ _).map _).map _) hdnodup

/-- C15: in every registry state reachable from `event_initialize` by any
sequence of `event_register` and `event_unregister` calls (with any default
capacity), for every code the records of the listener sequence are pairwise
different: no two of them have both the same listener identity and the same
callback; indeed no two of them have the same listener identity. -/
theorem reachable_pairs_unique (K : Nat) (s : event_system_state) (code : Nat)
    (h : RegistryReachable K s) :
    (s.listeners code).Nodup ∧ ((s.listeners code).map registered_event.listener).Nodup := by
  have hinv := reachable_registry_inv h
  have hmap : ((s.listeners code).map registered_event.listener).Nodup := by
    unfold event_system_state.listeners
    cases hslot : s.registered code with
    | none => exact List.nodup_nil
    | some d => exact (hinv.2 code d hslot).2.2
  exact ⟨List.Nodup.of_map _ hmap, hmap⟩

/-- Witness of C15: after initialisation (default capacity 4) the calls
register (5, 1, 10), register (5, 2, 20), register (5, 1, 20), register
(5, 3, 30), register (6, 1, 10), unregister (5, 2, 20), unregister (5, 9, 90),
register (5, 2, 10) return TRUE, TRUE, FALSE, TRUE, TRUE, TRUE, FALSE, TRUE and
leave code 5 with the three records (1, 10), (3, 30), (2, 10) and code 6 with
(1, 10); the state is reachable and its records are pairwise different. -/
theorem reachable_pairs_unique_witness :
    ∃ s, registry_run 4 ( event_initialize event_system_state.zero).2
        [.register 5 1 10, .register 5 2 20, .register 5 1 20, .register 5 3 30,
          .register 6 1 10, .unregister 5 2 20, .unregister 5 9 90, .register 5 2 10] =
        some ([true, true, false, true, true, true, false, true], s) ∧
      RegistryReachable 4 s ∧
      s.listeners 5 = [⟨1, 10⟩, ⟨3, 30⟩, ⟨2, 10⟩] ∧ s.listeners 6 = [⟨1, 10⟩] ∧
      ((s.listeners 5).Nodup ∧ ((s.listeners 5).map registered_event.listener).Nodup) ∧
      ((s.listeners 6).Nodup ∧ ((s.listeners 6).map registered_event.listener).Nodup) := by
  obtain ⟨t, ht⟩ : ∃ t, registry_run 4 ( event_initialize event_system_state.zero).2
      [.register 5 1 10, .register 5 2 20, .register 5 1 20, .register 5 3 30,
        .register 6 1 10, .unregister 5 2 20, .unregister 5 9 90, .register 5 2 10] = some t :=
    Option.isSome_iff_exists.mp (by decide)
  have hv : (registry_run 4 ( event_initialize event_system_state.zero).2
      [.register 5 1 10, .register 5 2 20, .register 5 1 20, .register 5 3 30,
        .register 6 1 10, .unregister 5 2 20, .unregister 5 9 90, .register 5 2 10]).map
      (fun t => (t.1, t.2.listeners 5, t.2.listeners 6)) =
      some ([true, true, false, true, true, true, false, true],
        [⟨1, 10⟩, ⟨3, 30⟩, ⟨2, 10⟩], [⟨1, 10⟩]) := by
    decide
  have hr : RegistryReachable 4 t.2 :=
    registry_run_reachable 4 _ _ t (RegistryReachable.init rfl) (by decide) ht
  rw [ht] at hv
  simp only [Option.map_some', Option.some.injEq, Prod.mk.injEq] at hv
  obtain ⟨h1, h5, h6⟩ := hv
  refine ⟨t.2, ?_, hr, h5, h6, reachable_pairs_unique 4 t.2 5 hr, reachable_pairs_unique 4 t.2 6 hr⟩
  rw [ht, ← h1]

/-! ## `event_unregister` where the removal stays inside the block -/

theorem map_eraseIdx {α β : Type} (f : α → β) :
    ∀ (l : List α) (i : Nat), (l.eraseIdx i).map f = (l.map f).eraseIdx i
  | [], _ => rfl
  | _ :: _, 0 => rfl
  | a :: l, i + 1 => by
    simp only [List.eraseIdx_cons_succ, List.map_cons, map_eraseIdx f l i]

/-- `_darray_pop_at` on a full well-formed container at an index before the last
one has no result: the gap-closing copy reads `stride` bytes past the payload. -/
theorem _darray_pop_at_full {d : DArray} {index : Nat} {dest : List Byte} (hwf : d.WF)
    (hpos : 1 ≤ d.stride) (hfull : d.length = d.capacity) (hi : index + 1 < d.length) :
    _darray_pop_at d index dest = none := by
  obtain ⟨hlen, hsize, hcap, hfit⟩ := hwf
  have hsub : u64_sub d.length 1 = d.length - 1 := u64_sub_of_le (by omega) (by omega)
  have hsubi : u64_sub d.length index = d.length - index := u64_sub_of_le (by omega) (by omega)
  have hLc : d.length * d.stride = d.capacity * d.stride := by rw [hfull]
  have hiL : (index + 1) * d.stride ≤ d.length * d.stride := Nat.mul_le_mul_right _ (by omega)
  have hi1 : (index + 1) * d.stride = index * d.stride + d.stride := Nat.succ_mul _ _
  have hn : d.stride * (d.length - index) = d.length * d.stride - index * d.stride := by
    rw [Nat.mul_comm, Nat.sub_mul]
  have hshift : kcopy_memory d.data (u64 (index * d.stride)) d.data
      (u64 (u64 (index + 1) * d.stride)) (u64 (d.stride * u64_sub d.length index)) = none := by
    rw [hsubi, u64_of_lt (show index * d.stride < 2 ^ 64 by omega),
      u64_of_lt (show index + 1 < 2 ^ 64 by omega),
      u64_of_lt (show (index + 1) * d.stride < 2 ^ 64 by omega),
      u64_of_lt (show d.stride * (d.length - index) < 2 ^ 64 by omega)]
    unfold kcopy_memory read_bytes
    rw [if_neg (by omega)]
    rfl
  unfold _darray_pop_at
  dsimp only
  rw [if_neg (show ¬ index ≥ d.length by omega), hsub,
    if_pos (show index ≠ d.length - 1 by omega), hshift]
  cases kcopy_memory dest 0 d.data (u64 (index * d.stride)) d.stride <;> rfl

/-- `event_unregister` on an occupied slot holding a well-formed container of
records: without a record equal to the pair it returns FALSE and changes
nothing; with the first such record at index `i`, when that index is the last
one or the container has spare capacity, it returns TRUE and the listener
sequence loses the record at `i`, the others keeping their order; when the
container is full and the index is not the last one, the call has no result. -/
theorem event_unregister_spec {s : event_system_state} {code : Nat} {d : DArray} (A X : Nat)
    (hinit : s.is_initialized = true) (hcode : code < MAX_MESSAGE_CODES)
    (hslot : s.registered code = some d) (hwf : d.WF) (hs : d.stride = sizeof_registered_event) :
    (({ listener := A, callback := X } : registered_event) ∉ s.listeners code →
      event_unregister s code A X = some (false, s)) ∧
    (∀ i, (s.listeners code)[i]? = some { listener := A, callback := X } →
      (∀ j, j < i → (s.listeners code)[j]? ≠ some { listener := A, callback := X }) →
      (i = d.length - 1 ∨ d.length < d.capacity) →
      ∃ s1, event_unregister s code A X = some (true, s1) ∧
        s1.listeners code = (s.listeners code).eraseIdx i ∧ s1.is_initialized = true ∧
        ∀ c, c ≠ code → s1.registered c = s.registered c) ∧
    (∀ i, (s.listeners code)[i]? = some { listener := A, callback := X } →
      (∀ j, j < i → (s.listeners code)[j]? ≠ some { listener := A, callback := X }) →
      i + 1 < d.length → d.length = d.capacity → event_unregister s code A X = none) := by
  have h16 : sizeof_registered_event = 16 := rfl
  have hls : ∀ j, (s.listeners code)[j]? =
      if j < d.length then
        some (registered_event.of_bytes (slot d.data sizeof_registered_event j))
      else none := by
    intro j
    unfold event_system_state.listeners DArray.elems
    rw [hslot]
    dsimp only
    rw [List.map_map, hs]
    exact getElem?_map_range _ _ _
  have hscan := unregister_scan_spec d A X _ (live_index_in_payload hwf hs)
  obtain ⟨hsome, hnone⟩ := find_range_spec (fun j =>
    decide (registered_event.of_bytes (slot d.data sizeof_registered_event j) =
      { listener := A, callback := X })) d.length
  have hfirst_found : ∀ i, (s.listeners code)[i]? = some { listener := A, callback := X } →
      (∀ j, j < i → (s.listeners code)[j]? ≠ some { listener := A, callback := X }) →
      i < d.length ∧ (List.range d.length).find? (fun j =>
        decide (registered_event.of_bytes (slot d.data sizeof_registered_event j) =
          { listener := A, callback := X })) = some i := by
    intro i hi hfirst
    have hilt : i < d.length := by
      have := hls i
      rw [hi] at this
      by_cases h : i < d.length
      · exact h
      · rw [if_neg h] at this
        simp at this
    have hqi : registered_event.of_bytes (slot d.data sizeof_registered_event i) =
        { listener := A, callback := X } := by
      have := hls i
      rw [hi, if_pos hilt] at this
      exact (Option.some.inj this).symm
    refine ⟨hilt, ?_⟩
    cases hf : (List.range d.length).find? (fun j =>
        decide (registered_event.of_bytes (slot d.data sizeof_registered_event j) =
          { listener := A, callback := X })) with
    | none =>
      have := hnone hf i hilt
      rw [hqi] at this
      simp at this
    | some k =>
      obtain ⟨hk, hqk, hbefore⟩ := hsome k hf
      congr 1
      rcases Nat.lt_trichotomy k i with h | h | h
      · exfalso
        apply hfirst k h
        rw [hls k, if_pos hk, of_decide_eq_true hqk]
      · exact h
      · exfalso
        have := hbefore i h
        rw [hqi] at this
        simp at this
  rw [event_unregister_occupied A X hinit hcode hslot, hscan]
  refine ⟨?_, ?_, ?_⟩
  · intro hnot
    cases hf : (List.range d.length).find? (fun j =>
        decide (registered_event.of_bytes (slot d.data sizeof_registered_event j) =
          { listener := A, callback := X })) with
    | none => rfl
    | some k =>
      exfalso
      obtain ⟨hk, hqk, _⟩ := hsome k hf
      apply hnot
      have hget := hls k
      rw [if_pos hk, of_decide_eq_true hqk] at hget
      exact List.getElem?_mem hget
  · intro i hi hfirst hin
    obtain ⟨hilt, hfind⟩ := hfirst_found i hi hfirst
    obtain ⟨d1, hpop, _, _, _, _, hd1e⟩ :=
      @_darray_pop_at_spec d i (List.replicate sizeof_registered_event 0) hwf hilt
        (by rw [hs, List.length_replicate]) hin
    refine ⟨s.set_events code (some d1), ?_, ?_, hinit, ?_⟩
    · rw [hfind, Option.some_bind]
      simp only [unregister_found, darray_pop_at, hpop, Option.map_some']
    · rw [listeners_set_events, hd1e, map_eraseIdx]
      unfold event_system_state.listeners
      rw [hslot]
    · intro c hc
      exact set_events_other s code c _ (fun h => hc h.symm)
  · intro i hi hfirst hnotlast hfull
    obtain ⟨_, hfind⟩ := hfirst_found i hi hfirst
    have hpop := @_darray_pop_at_full d i (List.replicate sizeof_registered_event 0) hwf
      (by rw [hs, h16]; omega) hfull hnotlast
    rw [hfind, Option.some_bind]
    simp only [unregister_found, darray_pop_at, hpop, Option.map_none']

/-! ## Claims about `event_unregister` and the shift of `_darray_pop_at` -/

/-- C11 at a failing input: code 5 holds `[(1,10), (2,20)]` in a full container
of capacity 2, the state two registrations give with default capacity 1;
`event_unregister(5, 1, 10)` finds the record at index 0 and removes it with
`_darray_pop_at`, whose copy leaves the block, so the call has no result, where
the claim asks for TRUE and the sequence `[(2,20)]`. Removing the last record,
or removing from a container with spare capacity, does what the claim says,
and a later fire still reaches the remaining listeners. -/
theorem event_unregister_full_leaves_block :
    ((event_register 1 ( event_initialize event_system_state.zero).2 5 1 10).bind fun r =>
        event_register 1 r.2 5 2 20).map (fun r => (r.1, r.2.registered 5)) =
      some (true, example_registry_full.registered 5) ∧
    example_registry_full.listeners 5 =
      [{ listener := 1, callback := 10 }, { listener := 2, callback := 20 }] ∧
    (event_unregister example_registry_full 5 1 10).map (fun r => r.1) = none ∧
    (event_unregister example_registry_full 5 2 20).map (fun r => (r.1, r.2.listeners 5)) =
      some (true, [{ listener := 1, callback := 10 }]) ∧
    (event_unregister example_registry_full 5 2 10).map (fun r => (r.1, r.2.listeners 5)) =
      some (false, [{ listener := 1, callback := 10 }, { listener := 2, callback := 20 }]) ∧
    (event_unregister example_registry_three 5 1 10).map (fun r => (r.1, r.2.listeners 5)) =
      some (true, [{ listener := 2, callback := 20 }, { listener := 3, callback := 30 }]) ∧
    ((event_unregister example_registry_three 5 1 10).bind fun r =>
        event_fire (fun _ _ _ _ _ => true) r.2 5 0 ⟨[]⟩) =
      some (true, [{ callback := 20, code := 5, sender := 0, listener := 2, context := ⟨[]⟩ }]) := by
  decide

/-- The gap-closing copy inside `_darray_pop_at` is the call whose arguments
`_darray_pop_at_shift` gives. -/
theorem _darray_pop_at_uses_shift (d : DArray) (index : Nat) (dest : List Byte) :
    _darray_pop_at d index dest =
      if index ≥ d.length then some (d, dest)
      else
        (kcopy_memory dest 0 d.data (u64 (index * d.stride)) d.stride).bind fun dest1 =>
        (match _darray_pop_at_shift d index with
          | some a => kcopy_memory d.data a.1 d.data a.2.1 a.2.2
          | none => some d.data).bind fun data =>
        some ({ d with data := data, length := u64_sub d.length 1 }, dest1) := by
  unfold _darray_pop_at _darray_pop_at_shift
  dsimp only
  by_cases h1 : index ≥ d.length
  · rw [if_pos h1, if_pos h1]
  · rw [if_neg h1, if_neg h1, if_neg h1]
    by_cases h2 : index ≠ u64_sub d.length 1
    · rw [if_pos h2, if_pos h2]
    · rw [if_neg h2, if_neg h2]

/-- The byte count of the gap-closing copy, for a well-formed container and an
index before the last one: `stride * (length - index)`, one element more than
the `(length - index - 1) * stride` bytes of the elements after the index. -/
theorem _darray_pop_at_shift_size {d : DArray} {index : Nat} (hwf : d.WF)
    (hi : index + 1 < d.length) :
    _darray_pop_at_shift d index =
        some (index * d.stride, (index + 1) * d.stride, d.stride * (d.length - index)) ∧
      d.stride * (d.length - index) = (d.length - index - 1) * d.stride + d.stride ∧
      (index + 1) * d.stride + d.stride * (d.length - index) = (d.length + 1) * d.stride := by
  obtain ⟨hlen, hsize, hcap, hfit⟩ := hwf
  have hLc : d.length * d.stride ≤ d.capacity * d.stride := Nat.mul_le_mul_right _ hlen
  have hiL : (index + 1) * d.stride ≤ d.length * d.stride := Nat.mul_le_mul_right _ (by omega)
  have hi1 : (index + 1) * d.stride = index * d.stride + d.stride := Nat.succ_mul _ _
  have hL1 : (d.length + 1) * d.stride = d.length * d.stride + d.stride := Nat.succ_mul _ _
  have hn : d.stride * (d.length - index) = d.length * d.stride - index * d.stride := by
    rw [Nat.mul_comm, Nat.sub_mul]
  have hn1 : (d.length - index - 1) * d.stride = d.length * d.stride - (index + 1) * d.stride := by
    rw [Nat.sub_sub, Nat.sub_mul]
  refine ⟨?_, by omega, by omega⟩
  unfold _darray_pop_at_shift
  dsimp only
  rw [if_neg (show ¬ index ≥ d.length by omega),
    u64_sub_of_le (show 1 ≤ d.length by omega) (by omega),
    if_pos (show index ≠ d.length - 1 by omega),
    u64_sub_of_le (show index ≤ d.length by omega) (by omega),
    u64_of_lt (show index * d.stride < 2 ^ 64 by omega),
    u64_of_lt (show index + 1 < 2 ^ 64 by omega),
    u64_of_lt (show (index + 1) * d.stride < 2 ^ 64 by omega),
    u64_of_lt (show d.stride * (d.length - index) < 2 ^ 64 by omega)]

/-- C17 at a failing input: on the full container `[10, 20]` (capacity 2, length
2, stride 1) the gap-closing copy of `_darray_pop_at` at index 0 is called with
2 bytes from offset 1, not `(length - index - 1) * stride = 1` byte; it reads
the element at position 2 `≥ length`, outside the `capacity * stride = 2` bytes
of the buffer, and the call has no result. With spare capacity (`[10, 20, 30]`
in capacity 4) the copy is called with 3 bytes from offset 1, not 2, and reads
the element at position 3 `≥ length`. -/
theorem _darray_pop_at_shift_one_too_many :
    _darray_pop_at_shift { capacity := 2, length := 2, stride := 1, data := [10, 20] } 0 =
        some (0, 1, 2) ∧
      (2 - 0 - 1) * 1 = 1 ∧ ¬ (1 + 2 ≤ 2 * 1) ∧
      _darray_pop_at { capacity := 2, length := 2, stride := 1, data := [10, 20] } 0 [0] = none ∧
      _darray_pop_at_shift { capacity := 4, length := 3, stride := 1, data := [10, 20, 30, 0] } 0 =
        some (0, 1, 3) ∧
      (3 - 0 - 1) * 1 = 2 ∧ ¬ (1 + 3 ≤ 3 * 1) := by
  decide

/-! ## `input_process_key` -/

/-- The view `data.u16[0]` of the context built from a 16-bit value. -/
theorem context_of_u16_0_u16 {v : Nat} (h : v < 2 ^ 16) : (context_of_u16_0 v).u16 0 = v := by
  have hu : u16 v = v := by
    unfold u16
    omega
  unfold context_of_u16_0 event_context.u16 le16
  rw [hu]
  simp only [Nat.mul_zero, List.drop_zero, List.cons_append, List.nil_append, List.take_succ_cons,
    List.take_zero, of_le, toNat_byte]
  omega

/-- C18: for every key of the 256-entry keyboard state and every pressed flag,
when the key's stored current state differs from `pressed`,
`input_process_key` sets it to `pressed` and makes exactly one `event_fire`
call, with code `EVENT_CODE_KEY_PRESSED` when pressed and
`EVENT_CODE_KEY_RELEASED` otherwise, sender 0 and a context whose `data.u16[0]`
is the key; the other keys, the previous-frame snapshot and the mouse state
stay as they were. When the stored state equals `pressed` it makes no call and
changes no state. -/
theorem input_process_key_spec (EVENT_CODE_KEY_PRESSED EVENT_CODE_KEY_RELEASED : Nat)
    (state : input_state) (key : Nat) (pressed : Bool)
    (hlen : state.keyboard_current.keys.length = 256) (hkey : key < 256) :
    (state.keyboard_current.keys[key]? ≠ some pressed →
      ∃ state1 call,
        input_process_key EVENT_CODE_KEY_PRESSED EVENT_CODE_KEY_RELEASED state key pressed =
          some (state1, [call]) ∧
        call.code = (if pressed then EVENT_CODE_KEY_PRESSED else EVENT_CODE_KEY_RELEASED) ∧
        call.sender = 0 ∧ call.context.u16 0 = key ∧
        state1.keyboard_current.keys[key]? = some pressed ∧
        (∀ k, k ≠ key → state1.keyboard_current.keys[k]? = state.keyboard_current.keys[k]?) ∧
        state1.keyboard_previous = state.keyboard_previous ∧
        state1.mouse_current = state.mouse_current ∧
        state1.mouse_previous = state.mouse_previous) ∧
    (state.keyboard_current.keys[key]? = some pressed →
      input_process_key EVENT_CODE_KEY_PRESSED EVENT_CODE_KEY_RELEASED state key pressed =
        some (state, [])) := by
  obtain ⟨current, hcur⟩ : ∃ current, state.keyboard_current.keys[key]? = some current := by
    rw [List.getElem?_eq_getElem (by omega)]
    exact ⟨_, rfl⟩
  constructor
  · intro hne
    have hdiff : (current != pressed) = true := by
      rw [hcur] at hne
      cases current <;> cases pressed <;> simp at hne ⊢
    refine ⟨{ state with
        keyboard_current := { keys := state.keyboard_current.keys.set key pressed } },
      ⟨if pressed then EVENT_CODE_KEY_PRESSED else EVENT_CODE_KEY_RELEASED, 0,
        context_of_u16_0 key⟩,
      ?_, rfl, rfl, context_of_u16_0_u16 (show key < 2 ^ 16 by omega), ?_, ?_, rfl, rfl, rfl⟩
    · unfold input_process_key
      rw [hcur]
      dsimp only
      rw [if_pos hdiff]
    · dsimp only
      rw [List.getElem?_set_self (by omega)]
    · intro k hk
      dsimp only
      rw [List.getElem?_set_ne (fun h => hk h.symm)]
  · intro heq
    have hsame : (current != pressed) = false := by
      rw [hcur] at heq
      cases current <;> cases pressed <;> simp at heq ⊢
    unfold input_process_key
    rw [hcur]
    dsimp only
    rw [if_neg (by rw [hsame]; simp)]

/-- Witness of C18: key 65 pressed on the state after `input_initialize`. -/
theorem input_process_key_spec_witness :
    ∃ state1 call, input_process_key 2 3 (input_state.zero 3) 65 true = some (state1, [call]) ∧
      call.code = 2 ∧ call.sender = 0 ∧ call.context.u16 0 = 65 ∧
      state1.keyboard_current.keys[65]? = some true ∧
      state1.keyboard_previous = (input_state.zero 3).keyboard_previous := by
  obtain ⟨state1, call, h1, h2, h3, h4, h5, _, h7, _⟩ :=
    (input_process_key_spec 2 3 (input_state.zero 3) 65 true (List.length_replicate _ _)
      (by decide)).1
      (by
        have : (input_state.zero 3).keyboard_current.keys[65]? = some false :=
          List.getElem?_replicate_of_lt (by decide)
        rw [this]
        simp)
  exact ⟨state1, call, h1, h2, h3, h4, h5, h7⟩

/-! ## The flag after `event_shutdown` -/

/-- After `event_initialize`, whatever it returns, the flag is set. -/
theorem event_initialize_flag (s : event_system_state) :
    ( event_initialize s).2.is_initialized = true := by
  unfold event_initialize
  cases h : s.is_initialized <;> simp [h]

/-- Statics with the flag set and an empty table, as `event_shutdown` leaves
an initialised registry: `event_initialize` returns FALSE and changes nothing,
and `event_register` on a code of the table returns TRUE, the code then having
the one new record. -/
theorem emptied_registry_spec (K : Nat) (hK : slot_ready K none) (s : event_system_state)
    (hflag : s.is_initialized = true)
    (hempty : ∀ code, code < MAX_MESSAGE_CODES → s.registered code = none) :
    event_initialize s = (false, s) ∧
      ∀ code A X : Nat, code < MAX_MESSAGE_CODES → A < 2 ^ 64 → X < 2 ^ 64 →
        ∃ s1, event_register K s code A X = some (true, s1) ∧ s1.is_initialized = true ∧
          s1.listeners code = [{ listener := A, callback := X }] ∧
          ∀ c, c ≠ code → s1.registered c = s.registered c := by
  constructor
  · unfold event_initialize
    rw [hflag]
    rfl
  · intro code A X hcode hA hX
    have hslot := hempty code hcode
    have hlist : s.listeners code = [] := by
      unfold event_system_state.listeners
      rw [hslot]
    have hready : slot_ready K (s.registered code) := by
      rw [hslot]
      exact hK
    obtain ⟨s1, d1, hreg, hflag1, _, _, _, hframe, hls⟩ :=
      @event_register_identity_absent K s code A X hflag hcode hA hX hready
        (by rw [hlist]; intro e he; cases he)
    refine ⟨s1, hreg, hflag1, ?_, hframe⟩
    rw [hls, hlist, List.nil_append]

/-- C21: `event_shutdown` does not clear the flag `is_initialized`. Run
`event_initialize` on any statics and then `event_shutdown`: the shutdown ends
(any fuel above 16384 is enough) in statics whose flag is still set and whose
table is empty, a further `event_initialize` returns FALSE and changes nothing,
and `event_register` of a listener on any code below 16384 returns TRUE and
records the listener. The default capacity of a new container is at least 1
and its block fits `u64`. -/
theorem shutdown_keeps_initialized (K : Nat) (hK : slot_ready K none) (s0 : event_system_state)
    (fuel : Nat) (hfuel : MAX_MESSAGE_CODES < fuel) :
    ∃ s2 visited, event_shutdown fuel ( event_initialize s0).2 = some (s2, visited) ∧
      s2.is_initialized = true ∧
      event_initialize s2 = (false, s2) ∧
      ∀ code A X : Nat, code < MAX_MESSAGE_CODES → A < 2 ^ 64 → X < 2 ^ 64 →
        ∃ s3, event_register K s2 code A X = some (true, s3) ∧ s3.is_initialized = true ∧
          s3.listeners code = [{ listener := A, callback := X }] := by
  obtain ⟨s2, hloop, hflag, hreg⟩ :=
    shutdown_loop_spec MAX_MESSAGE_CODES 0 fuel ( event_initialize s0).2 [] (Nat.zero_add _) hfuel
  have hflag2 : s2.is_initialized = true := hflag.trans (event_initialize_flag s0)
  have hempty : ∀ code, code < MAX_MESSAGE_CODES → s2.registered code = none := by
    intro code hcode
    rw [hreg code, if_pos ⟨Nat.zero_le _, hcode⟩]
  obtain ⟨hinit, hregister⟩ := emptied_registry_spec K hK s2 hflag2 hempty
  refine ⟨s2, _, hloop, hflag2, hinit, ?_⟩
  intro code A X hcode hA hX
  obtain ⟨s3, h1, h2, h3, _⟩ := hregister code A X hcode hA hX
  exact ⟨s3, h1, h2, h3⟩

/-- Witness of C21: the statics at program start, default capacity 1. -/
theorem shutdown_keeps_initialized_witness :
    ∃ s2 visited,
      event_shutdown 16385 ( event_initialize event_system_state.zero).2 = some (s2, visited) ∧
      s2.is_initialized = true ∧
      event_initialize s2 = (false, s2) ∧
      ∀ code A X : Nat, code < MAX_MESSAGE_CODES → A < 2 ^ 64 → X < 2 ^ 64 →
        ∃ s3, event_register 1 s2 code A X = some (true, s3) ∧ s3.is_initialized = true ∧
          s3.listeners code = [{ listener := A, callback := X }] :=
  shutdown_keeps_initialized 1
    (by
      show slot_ready 1 none
      unfold slot_ready
      decide)
    event_system_state.zero 16385 (by decide)

end Kohi
